import Mathlib

/-!
# Verification of the `mm.c` explicit-free-list allocator

This file gives a shallow embedding of the allocator in `src/mm.c`
(Somsubhra/MyMalloc) and proves / refutes the frozen specification claims
about it.

Modelling conventions:

* The allocator was written for a 32-bit environment (`WSIZE = 4`,
  `size_t` and pointers one machine word).  Memory is modelled at word
  granularity as a function `Nat → Nat` from byte addresses to the word
  stored at that address; every access performed by the C code is through
  the `GET`/`PUT`/`NEXT_FREEP`/`PREV_FREEP` macros at 4-byte-aligned,
  mutually non-overlapping addresses, so this is faithful.
* `size_t` arithmetic that can wrap (`+`, `-`, `ALIGN`) is modelled
  modulo `2^32` (`add32`, `sub32`, `align8`).
* The heap substrate (`memlib`) is modelled by the `lo`/`hi`/`limit`
  fields of `Heap`: `mem_sbrk n` succeeds iff `hi + n ≤ limit`, returns
  the old break and bumps `hi`.  `mem_heap_lo() = lo`,
  `mem_heap_hi() = hi - 1`.
* The two loops (`find_fit` and `mm_check`'s free-list walk) are modelled
  with fuel; out of fuel is `Option.none` ("the model does not commit").
  All other code paths are straight-line.
* Each C statement is translated at its exact sequence point: macro
  arguments are re-read from the current memory state at the program
  point where the C code evaluates them.
-/

namespace MM

/-- `WSIZE`: size of a word (bytes). -/
def WSIZE : Nat := 4

/-- `DSIZE`: size of a double word (bytes). -/
def DSIZE : Nat := 8

/-- `CHUNKSIZE` from `mm.c` (the source comment says "Initial heap size"). -/
def CHUNKSIZE : Nat := 16

/-- `OVERHEAD`: the minimum block size. -/
def OVERHEAD : Nat := 24

/-- `2^32`: modulus of 32-bit `size_t` arithmetic. -/
def MOD32 : Nat := 4294967296

/-- 32-bit wrapping addition. -/
def add32 (a b : Nat) : Nat := (a + b) % MOD32

/-- 32-bit wrapping subtraction (callers always pass `b < MOD32`). -/
def sub32 (a b : Nat) : Nat := (a + (MOD32 - b % MOD32)) % MOD32

/-- `ALIGN(size) = ((size + 7) & ~0x7)` in 32-bit `size_t` arithmetic. -/
def align8 (size : Nat) : Nat := (size + 7) % MOD32 / 8 * 8

/-- `PACK(size, alloc) = size | alloc`. -/
def pack (size alloc : Nat) : Nat := size ||| alloc

/-- `GET_SIZE(p) = GET(p) & ~0x7` (a 32-bit word with low 3 bits cleared). -/
def getSize (w : Nat) : Nat := w % MOD32 / 8 * 8

/-- `GET_ALLOC(p) = GET(p) & 0x1`. -/
def getAlloc (w : Nat) : Nat := w % 2

/-- The allocator state: the word memory, the heap substrate bounds and the
two module-level variables of `mm.c`. -/
structure Heap where
  mem : Nat → Nat
  lo : Nat
  hi : Nat
  limit : Nat
  heapListp : Nat
  freeListp : Nat

/-- `GET(p)`: read the word at address `p`. -/
def getW (h : Heap) (a : Nat) : Nat := h.mem a

/-- `PUT(p, v)`: write the word at address `p`. -/
def putW (h : Heap) (a v : Nat) : Heap :=
  { h with mem := fun x => if x = a then v else h.mem x }

/-- `HDRP(bp) = bp - WSIZE`. -/
def hdrp (bp : Nat) : Nat := bp - 4

/-- `FTRP(bp) = bp + GET_SIZE(HDRP(bp)) - DSIZE`. -/
def ftrp (h : Heap) (bp : Nat) : Nat := bp + getSize (getW h (hdrp bp)) - 8

/-- `NEXT_BLKP(bp) = bp + GET_SIZE(HDRP(bp))`. -/
def nextBlkp (h : Heap) (bp : Nat) : Nat := bp + getSize (getW h (hdrp bp))

/-- `PREV_BLKP(bp) = bp - GET_SIZE(HDRP(bp) - WSIZE)`. -/
def prevBlkp (h : Heap) (bp : Nat) : Nat := bp - getSize (getW h (bp - 8))

/-- `NEXT_FREEP(bp)` (read): the pointer stored at `bp + DSIZE`. -/
def nextFreep (h : Heap) (bp : Nat) : Nat := getW h (bp + 8)

/-- `PREV_FREEP(bp)` (read): the pointer stored at `bp`. -/
def prevFreep (h : Heap) (bp : Nat) : Nat := getW h bp

/-- `mem_sbrk(n)` from `memlib`: returns the old break and extends the heap,
or fails when the substrate limit would be exceeded. -/
def memSbrk (h : Heap) (n : Nat) : Option (Heap × Nat) :=
  if h.hi + n ≤ h.limit then some ({ h with hi := h.hi + n }, h.hi) else none

/-- `insert_at_front(bp)` from `mm.c`, statement by statement. -/
def insertAtFront (h : Heap) (bp : Nat) : Heap :=
  let h1 := putW h (bp + 8) h.freeListp
  let h2 := putW h1 h.freeListp bp
  let h3 := putW h2 bp 0
  { h3 with freeListp := bp }

/-- `remove_block(bp)` from `mm.c`.  The last C statement re-reads
`NEXT_FREEP(bp)` and `PREV_FREEP(bp)` after the first write, which the
model reproduces. -/
def removeBlock (h : Heap) (bp : Nat) : Heap :=
  let pf := prevFreep h bp
  let h1 := if pf ≠ 0 then putW h (pf + 8) (nextFreep h bp)
            else { h with freeListp := nextFreep h bp }
  let nf2 := nextFreep h1 bp
  let pf2 := prevFreep h1 bp
  putW h1 nf2 pf2

/-- `coalesce(bp)` from `mm.c`: four-way case split on the allocated bits of
the physical neighbours (with the `PREV_BLKP(bp) == bp` escape hatch), then
insertion at the front of the free list.  Returns the new state and the
pointer to the coalesced block. -/
def coalesce (h : Heap) (bp : Nat) : Heap × Nat :=
  let prevAlloc : Bool :=
    (getAlloc (getW h (ftrp h (prevBlkp h bp))) ≠ 0) || (prevBlkp h bp = bp)
  let nextAlloc : Bool := getAlloc (getW h (hdrp (nextBlkp h bp))) ≠ 0
  let size := getSize (getW h (hdrp bp))
  if prevAlloc && !nextAlloc then
    let size2 := add32 size (getSize (getW h (hdrp (nextBlkp h bp))))
    let h1 := removeBlock h (nextBlkp h bp)
    let h2 := putW h1 (hdrp bp) (pack size2 0)
    let h3 := putW h2 (ftrp h2 bp) (pack size2 0)
    (insertAtFront h3 bp, bp)
  else if !prevAlloc && nextAlloc then
    let size2 := add32 size (getSize (getW h (hdrp (prevBlkp h bp))))
    let bp2 := prevBlkp h bp
    let h1 := removeBlock h bp2
    let h2 := putW h1 (hdrp bp2) (pack size2 0)
    let h3 := putW h2 (ftrp h2 bp2) (pack size2 0)
    (insertAtFront h3 bp2, bp2)
  else if !prevAlloc && !nextAlloc then
    let size2 := add32 size (add32 (getSize (getW h (hdrp (prevBlkp h bp))))
                                   (getSize (getW h (hdrp (nextBlkp h bp)))))
    let h1 := removeBlock h (prevBlkp h bp)
    let h2 := removeBlock h1 (nextBlkp h1 bp)
    let bp2 := prevBlkp h2 bp
    let h3 := putW h2 (hdrp bp2) (pack size2 0)
    let h4 := putW h3 (ftrp h3 bp2) (pack size2 0)
    (insertAtFront h4 bp2, bp2)
  else
    (insertAtFront h bp, bp)

/-- `extend_heap(words)` from `mm.c`: round the word count up to an even
number of words, floor the byte count at `OVERHEAD`, obtain the space,
stamp a free block and the new epilogue, and coalesce. -/
def extendHeap (h : Heap) (words : Nat) : Option (Heap × Nat) :=
  let size := if words % 2 = 1 then (words + 1) * WSIZE else words * WSIZE
  let size := if size < OVERHEAD then OVERHEAD else size
  match memSbrk h size with
  | none => none
  | some (h1, bp) =>
    let h2 := putW h1 (hdrp bp) (pack size 0)
    let h3 := putW h2 (ftrp h2 bp) (pack size 0)
    let h4 := putW h3 (hdrp (nextBlkp h3 bp)) (pack 0 1)
    some (coalesce h4 bp)

/-- `find_fit(size)`'s loop with fuel: traverse from `bp` while the header's
allocated bit is clear; return the first block whose size fits.
`none` = out of fuel, `some none` = the C loop returned `NULL`. -/
def findFitAux (h : Heap) (size : Nat) : Nat → Nat → Option (Option Nat)
  | 0, _ => none
  | fuel + 1, bp =>
    if getAlloc (getW h (hdrp bp)) = 0 then
      if size ≤ getSize (getW h (hdrp bp)) then some (some bp)
      else findFitAux h size fuel (nextFreep h bp)
    else some none

/-- `find_fit(size)` from `mm.c`, starting from `free_listp`. -/
def findFit (h : Heap) (size fuel : Nat) : Option (Option Nat) :=
  findFitAux h size fuel h.freeListp

/-- `place(bp, size)` from `mm.c`: split when the residue is at least
`OVERHEAD`, else absorb the whole block. -/
def place (h : Heap) (bp size : Nat) : Heap :=
  let totalsize := getSize (getW h (hdrp bp))
  if OVERHEAD ≤ sub32 totalsize size then
    let h1 := putW h (hdrp bp) (pack size 1)
    let h2 := putW h1 (ftrp h1 bp) (pack size 1)
    let h3 := removeBlock h2 bp
    let bp2 := nextBlkp h3 bp
    let h4 := putW h3 (hdrp bp2) (pack (sub32 totalsize size) 0)
    let h5 := putW h4 (ftrp h4 bp2) (pack (sub32 totalsize size) 0)
    (coalesce h5 bp2).1
  else
    let h1 := putW h (hdrp bp) (pack totalsize 1)
    let h2 := putW h1 (ftrp h1 bp) (pack totalsize 1)
    removeBlock h2 bp

/-- `MAX(ALIGN(size) + DSIZE, OVERHEAD)`: the adjusted request size
computed by `mm_malloc` and `mm_realloc`. -/
def adjustedSize (size : Nat) : Nat := max (add32 (align8 size) DSIZE) OVERHEAD

/-- `mm_init()` from `mm.c`.  On `mem_sbrk` failure the C code would
proceed with a wild pointer (its `== NULL` test never fires, `memlib`
returns `(void *)-1`); the claims only concern successful initialisation,
which the model renders as `some`. -/
def mmInit (m0 : Nat → Nat) (start limit : Nat) : Option Heap :=
  let h0 : Heap := ⟨m0, start, start, limit, 0, 0⟩
  match memSbrk h0 (2 * OVERHEAD) with
  | none => none
  | some (h1, s) =>
    let h2 := putW h1 s 0
    let h3 := putW h2 (s + WSIZE) (pack OVERHEAD 1)
    let h4 := putW h3 (s + DSIZE) 0
    let h5 := putW h4 (s + DSIZE + WSIZE) 0
    let h6 := putW h5 (s + OVERHEAD) (pack OVERHEAD 1)
    let h7 := putW h6 (s + WSIZE + OVERHEAD) (pack 0 1)
    let h8 := { h7 with heapListp := s, freeListp := s + DSIZE }
    match extendHeap h8 (CHUNKSIZE / WSIZE) with
    | none => none
    | some (h9, _) => some h9

/-- `mm_malloc(size)` from `mm.c`.  `none` = the model's `find_fit` fuel ran
out; otherwise `some (state, NULL-or-pointer)`. -/
def mmMalloc (fuel : Nat) (h : Heap) (size : Nat) : Option (Heap × Option Nat) :=
  if size = 0 then some (h, none)
  else
    let asize := adjustedSize size
    match findFit h asize fuel with
    | none => none
    | some (some bp) => some (place h bp asize, some bp)
    | some none =>
      let extendedsize := max asize CHUNKSIZE
      match extendHeap h (extendedsize / WSIZE) with
      | none => some (h, none)
      | some (h1, bp) => some (place h1 bp asize, some bp)

/-- `mm_free(bp)` from `mm.c`. -/
def mmFree (h : Heap) (bp : Nat) : Heap :=
  if bp = 0 then h
  else
    let size := getSize (getW h (hdrp bp))
    let h1 := putW h (hdrp bp) (pack size 0)
    let h2 := putW h1 (ftrp h1 bp) (pack size 0)
    (coalesce h2 bp).1

/-- Result of `mm_realloc`: final state, returned pointer (`0` = `NULL`) and
the byte count passed to `memcpy` (if a copy happened). -/
structure RRes where
  heap : Heap
  ret : Nat
  copied : Option Nat

/-- `memcpy(dst, src, _)` restricted to `k` whole words. -/
def memcpyWords (h : Heap) (dst src : Nat) : Nat → Heap
  | 0 => h
  | k + 1 => memcpyWords (putW h dst (getW h src)) (dst + 4) (src + 4) k

/-- `memcpy(dst, src, n)` on the word memory: copy whole words, then merge
the low `n % 4` bytes of the trailing partial word (little-endian). -/
def memcpyBytes (h : Heap) (dst src n : Nat) : Heap :=
  let h1 := memcpyWords h dst src (n / 4)
  if n % 4 = 0 then h1
  else
    let a := dst + n / 4 * 4
    let b := src + n / 4 * 4
    let m := 256 ^ (n % 4)
    putW h1 a (getW h1 b % m + getW h1 a / m * m)

/-- `mm_realloc(bp, size)` from `mm.c`, statement by statement. -/
def mmRealloc (fuel : Nat) (h : Heap) (bp size : Nat) : Option RRes :=
  let asize := adjustedSize size
  if size = 0 then some ⟨mmFree h bp, 0, none⟩
  else if bp = 0 then
    match mmMalloc fuel h size with
    | none => none
    | some (h1, r) => some ⟨h1, r.getD 0, none⟩
  else
    let oldsize := getSize (getW h (hdrp bp))
    if oldsize = asize then some ⟨h, bp, none⟩
    else if asize ≤ oldsize then
      if sub32 oldsize asize ≤ OVERHEAD then some ⟨h, bp, none⟩
      else
        let h1 := putW h (hdrp bp) (pack asize 1)
        let h2 := putW h1 (ftrp h1 bp) (pack asize 1)
        let h3 := putW h2 (hdrp (nextBlkp h2 bp)) (pack (sub32 oldsize asize) 1)
        some ⟨mmFree h3 (nextBlkp h3 bp), bp, none⟩
    else
      match mmMalloc fuel h size with
      | none => none
      | some (h1, none) => some ⟨h1, 0, none⟩
      | some (h1, some newbp) =>
        let n := if size < oldsize then size else oldsize
        let h2 := memcpyBytes h1 newbp bp n
        some ⟨mmFree h2 bp, newbp, some n⟩

/-- `check_block(bp)` from `mm.c` (diagnostic output dropped). -/
def checkBlock (h : Heap) (bp : Nat) : Int :=
  if nextFreep h bp < h.lo ∨ h.hi - 1 < nextFreep h bp then -1
  else if prevFreep h bp < h.lo ∨ h.hi - 1 < prevFreep h bp then -1
  else if bp % 8 ≠ 0 then -1
  else if getW h (hdrp bp) ≠ getW h (ftrp h bp) then -1
  else 0

/-- The free-list walk of `mm_check`, with fuel. -/
def checkLoop (h : Heap) : Nat → Nat → Option Int
  | 0, _ => none
  | fuel + 1, bp =>
    if getAlloc (getW h (hdrp bp)) = 0 then
      if checkBlock h bp = -1 then some (-1)
      else checkLoop h fuel (nextFreep h bp)
    else some 0

/-- `mm_check()` from `mm.c`: prologue test on `heap_listp` (which still
points at the leading pad word), `check_block(heap_listp)`, then the
free-list walk. -/
def mmCheck (fuel : Nat) (h : Heap) : Option Int :=
  if getSize (getW h (hdrp h.heapListp)) ≠ OVERHEAD ∨
     getAlloc (getW h (hdrp h.heapListp)) = 0 then some (-1)
  else if checkBlock h h.heapListp = -1 then some (-1)
  else checkLoop h fuel h.freeListp

/-! ## Basic lemmas about the memory model -/

@[simp]
theorem getW_putW (h : Heap) (a v b : Nat) :
    getW (putW h a v) b = if b = a then v else getW h b := rfl

theorem getW_putW_eq (h : Heap) (a v : Nat) : getW (putW h a v) a = v := by simp

theorem getW_putW_ne (h : Heap) (a v b : Nat) (hne : b ≠ a) :
    getW (putW h a v) b = getW h b := by simp [hne]

@[simp] theorem putW_lo (h : Heap) (a v : Nat) : (putW h a v).lo = h.lo := rfl

@[simp] theorem putW_hi (h : Heap) (a v : Nat) : (putW h a v).hi = h.hi := rfl

@[simp] theorem putW_limit (h : Heap) (a v : Nat) : (putW h a v).limit = h.limit := rfl

@[simp] theorem putW_heapListp (h : Heap) (a v : Nat) :
    (putW h a v).heapListp = h.heapListp := rfl

@[simp] theorem putW_freeListp (h : Heap) (a v : Nat) :
    (putW h a v).freeListp = h.freeListp := rfl

theorem insertAtFront_hi (h : Heap) (bp : Nat) : (insertAtFront h bp).hi = h.hi := rfl

theorem insertAtFront_lo (h : Heap) (bp : Nat) : (insertAtFront h bp).lo = h.lo := rfl

theorem insertAtFront_heapListp (h : Heap) (bp : Nat) :
    (insertAtFront h bp).heapListp = h.heapListp := rfl

theorem insertAtFront_limit (h : Heap) (bp : Nat) :
    (insertAtFront h bp).limit = h.limit := rfl

theorem insertAtFront_freeListp (h : Heap) (bp : Nat) :
    (insertAtFront h bp).freeListp = bp := rfl

theorem removeBlock_hi (h : Heap) (bp : Nat) : (removeBlock h bp).hi = h.hi := by
  unfold removeBlock
  by_cases hc : prevFreep h bp ≠ 0 <;> simp [hc, putW]

theorem removeBlock_lo (h : Heap) (bp : Nat) : (removeBlock h bp).lo = h.lo := by
  unfold removeBlock
  by_cases hc : prevFreep h bp ≠ 0 <;> simp [hc, putW]

theorem removeBlock_limit (h : Heap) (bp : Nat) : (removeBlock h bp).limit = h.limit := by
  unfold removeBlock
  by_cases hc : prevFreep h bp ≠ 0 <;> simp [hc, putW]

theorem removeBlock_heapListp (h : Heap) (bp : Nat) :
    (removeBlock h bp).heapListp = h.heapListp := by
  unfold removeBlock
  by_cases hc : prevFreep h bp ≠ 0 <;> simp [hc, putW]

theorem coalesce_hi (h : Heap) (bp : Nat) : (coalesce h bp).1.hi = h.hi := by
  simp only [coalesce]
  split_ifs <;> simp [insertAtFront_hi, removeBlock_hi]

theorem coalesce_lo (h : Heap) (bp : Nat) : (coalesce h bp).1.lo = h.lo := by
  simp only [coalesce]
  split_ifs <;> simp [insertAtFront_lo, removeBlock_lo]

theorem coalesce_limit (h : Heap) (bp : Nat) : (coalesce h bp).1.limit = h.limit := by
  simp only [coalesce]
  split_ifs <;> simp [insertAtFront_limit, removeBlock_limit]

theorem coalesce_heapListp (h : Heap) (bp : Nat) :
    (coalesce h bp).1.heapListp = h.heapListp := by
  simp only [coalesce]
  split_ifs <;> simp [insertAtFront_heapListp, removeBlock_heapListp]

theorem place_hi (h : Heap) (bp size : Nat) : (place h bp size).hi = h.hi := by
  simp only [place]
  split_ifs <;> simp [coalesce_hi, removeBlock_hi]

theorem mmFree_hi (h : Heap) (bp : Nat) : (mmFree h bp).hi = h.hi := by
  simp only [mmFree]
  split_ifs <;> simp [coalesce_hi]

/-! ## Arithmetic lemmas about the bit-level helpers -/

theorem lor_one_of_even (s : Nat) (hs : s % 2 = 0) : s ||| 1 = s + 1 := by
  apply Nat.eq_of_testBit_eq
  intro i
  rw [Nat.testBit_lor]
  induction i generalizing s with
  | zero => simp [Nat.testBit_zero]; omega
  | succ n ih =>
    rw [Nat.testBit_succ, Nat.testBit_succ, Nat.testBit_succ]
    have h2 : (s + 1) / 2 = s / 2 := by omega
    have h3 : (1 : Nat) / 2 = 0 := by norm_num
    rw [h2, h3, Nat.zero_testBit, Bool.or_false]

theorem pack_zero (s : Nat) : pack s 0 = s := by simp [pack]

theorem pack_one (s : Nat) (hs : s % 2 = 0) : pack s 1 = s + 1 :=
  lor_one_of_even s hs

theorem getSize_val (s : Nat) (h8 : s % 8 = 0) (hlt : s < MOD32) : getSize s = s := by
  unfold getSize MOD32 at *
  omega

theorem getSize_pack_zero (s : Nat) (h8 : s % 8 = 0) (hlt : s < MOD32) :
    getSize (pack s 0) = s := by
  rw [pack_zero, getSize_val s h8 hlt]

theorem getSize_pack_one (s : Nat) (h8 : s % 8 = 0) (hlt : s < MOD32) :
    getSize (pack s 1) = s := by
  rw [pack_one s (by omega)]
  unfold getSize MOD32 at *
  omega

theorem getAlloc_pack_zero (s : Nat) (h8 : s % 8 = 0) : getAlloc (pack s 0) = 0 := by
  rw [pack_zero]; unfold getAlloc; omega

theorem getAlloc_pack_one (s : Nat) (h8 : s % 8 = 0) : getAlloc (pack s 1) = 1 := by
  rw [pack_one s (by omega)]; unfold getAlloc; omega

theorem sub32_of_le (a b : Nat) (hb : b ≤ a) (ha : a < MOD32) : sub32 a b = a - b := by
  unfold sub32
  have hbm : b % MOD32 = b := Nat.mod_eq_of_lt (lt_of_le_of_lt hb ha)
  rw [hbm]
  have : a + (MOD32 - b) = (a - b) + MOD32 := by omega
  rw [this, Nat.add_mod_right]
  exact Nat.mod_eq_of_lt (by omega)

theorem add32_of_lt (a b : Nat) (hab : a + b < MOD32) : add32 a b = a + b :=
  Nat.mod_eq_of_lt hab

theorem align8_mod (s : Nat) : align8 s % 8 = 0 := by
  unfold align8 MOD32; omega

theorem align8_lt (s : Nat) : align8 s < MOD32 := by
  unfold align8 MOD32
  omega

theorem align8_of_small (s : Nat) (h : s + 7 < MOD32) : align8 s = (s + 7) / 8 * 8 := by
  unfold align8 MOD32 at *
  omega

theorem adjustedSize_ge (s : Nat) : OVERHEAD ≤ adjustedSize s :=
  le_max_right _ _

theorem adjustedSize_mod (s : Nat) : adjustedSize s % 8 = 0 := by
  unfold adjustedSize add32 DSIZE OVERHEAD
  have h1 := align8_mod s
  unfold MOD32
  omega

theorem adjustedSize_lt (s : Nat) : adjustedSize s < MOD32 := by
  unfold adjustedSize add32 DSIZE OVERHEAD MOD32
  omega

theorem adjustedSize_of_small (s : Nat) (h : s + 15 < MOD32) :
    adjustedSize s = max ((s + 7) / 8 * 8 + 8) 24 := by
  unfold adjustedSize
  rw [align8_of_small s (by omega)]
  rw [add32_of_lt _ _ (by unfold DSIZE MOD32 at *; omega)]
  rfl

theorem getSize_lt (w : Nat) : getSize w < MOD32 := by
  unfold getSize MOD32
  omega

theorem getSize_mod (w : Nat) : getSize w % 8 = 0 := by
  unfold getSize
  omega

/-! ## Concrete states used by witnesses and counterexamples

`zmem` models fresh, zero-filled substrate pages.  `initHeap` is the heap
right after a successful `mm_init` with `lo = 8`; `heap1` holds one
allocated 56-byte block at `56`; `heap2` holds one allocated 24-byte block
at `56` with an empty free list. -/

def zmem : Nat → Nat := fun _ => 0

def emptyHeap : Heap := ⟨zmem, 0, 0, 0, 0, 0⟩

def initHeap : Heap := (mmInit zmem 8 100000).getD emptyHeap

theorem initHeap_eq : mmInit zmem 8 100000 = some initHeap := rfl

def heap1 : Heap := ((mmMalloc 9 initHeap 48).getD (initHeap, none)).1

theorem heap1_eq : mmMalloc 9 initHeap 48 = some (heap1, some 56) := rfl

def heap2 : Heap := ((mmMalloc 9 initHeap 16).getD (initHeap, none)).1

theorem heap2_eq : mmMalloc 9 initHeap 16 = some (heap2, some 56) := rfl

/-! ## Claim C9: zero-size and null requests -/

/-- Claim C9: zero-size and null requests are not errors: `alloc(0)`
returns null with the state unchanged, `free(null)` is a no-op, and
`realloc(p, 0)` frees `p` (a no-op when `p` is null, by the `free`
conjunct) and returns null. -/
theorem c9_zero_and_null (fuel : Nat) (h : Heap) (p : Nat) :
    mmMalloc fuel h 0 = some (h, none) ∧
    mmFree h 0 = h ∧
    mmRealloc fuel h p 0 = some ⟨mmFree h p, 0, none⟩ :=
  ⟨rfl, rfl, rfl⟩

/-! ## Claim C10: realloc at exactly the adjusted size is a pure no-op -/

/-- Claim C10: when the adjusted size equals the old block size,
`realloc(p, size)` returns `p` and performs no write at all: the whole
`Heap` state (memory, bounds, and free-list head) is returned unchanged. -/
theorem c10_realloc_frame (fuel : Nat) (h : Heap) (bp size : Nat)
    (hbp : bp ≠ 0) (hsz : size ≠ 0)
    (ho : getSize (getW h (hdrp bp)) = adjustedSize size) :
    mmRealloc fuel h bp size = some ⟨h, bp, none⟩ := by
  unfold mmRealloc
  simp [hsz, hbp, ho]

/-- Witness for C10 at a concrete input: in `heap2` the block at `56` has
size 24 and `adjustedSize 16 = 24`. -/
theorem c10_realloc_frame_witness :
    getSize (getW heap2 (hdrp 56)) = adjustedSize 16 ∧
    mmRealloc 9 heap2 56 16 = some ⟨heap2, 56, none⟩ :=
  ⟨by decide, c10_realloc_frame 9 heap2 56 16 (by decide) (by decide) (by decide)⟩

/-! ## Claim C1: realloc in-place shrink -/

/-- Claim C1 counterexample: in `heap1` the block at `56` is allocated with
size `o = 56`; for `realloc(56, 24)` the adjusted size is `a = 32`, so
`o − a = 24 = M` exactly.  The claim predicts a split (header rewritten to
`PACK(32,1)`), but the code returns `56` with the block unchanged: the
header is still `PACK(56,1)`. -/
theorem c1_counterexample :
    getSize (getW heap1 (hdrp 56)) = 56 ∧ adjustedSize 24 = 32 ∧
    (mmRealloc 9 heap1 56 24).map (fun r => (r.ret, getW r.heap (hdrp 56))) =
      some (56, pack 56 1) ∧ pack 56 1 ≠ pack 32 1 :=
  ⟨by decide, by decide, by decide, by decide⟩

/-- Claim C1 (amended): for `realloc(p, size)` with `p` non-null,
`size > 0`, adjusted size `a ≤ o` and `a ≠ o`: if `o − a ≤ M` (`M = 24`;
in particular when `o − a = M` exactly, so no split happens in that case)
the call returns `p` with the whole state unchanged; if `o − a > M` the
code writes an allocated header and footer of size `a` at `p`, writes an
allocated header of size `o − a` at offset `a`, and then frees (hence
coalesces) that tail block via `mm_free`, returning `p`. -/
theorem c1_realloc_shrink (fuel : Nat) (h : Heap) (bp size : Nat)
    (hbp : bp ≠ 0) (hsz : size ≠ 0)
    (hle : adjustedSize size ≤ getSize (getW h (hdrp bp)))
    (hne : adjustedSize size ≠ getSize (getW h (hdrp bp))) :
    (getSize (getW h (hdrp bp)) - adjustedSize size ≤ OVERHEAD →
       mmRealloc fuel h bp size = some ⟨h, bp, none⟩) ∧
    (OVERHEAD < getSize (getW h (hdrp bp)) - adjustedSize size →
       mmRealloc fuel h bp size =
         some ⟨mmFree
                 (putW (putW (putW h (hdrp bp) (pack (adjustedSize size) 1))
                    (bp + adjustedSize size - 8) (pack (adjustedSize size) 1))
                    (bp + adjustedSize size - 4)
                    (pack (getSize (getW h (hdrp bp)) - adjustedSize size) 1))
                 (bp + adjustedSize size), bp, none⟩) := by
  have hmod := adjustedSize_mod size
  have hltA := adjustedSize_lt size
  have hge24 : 24 ≤ adjustedSize size := adjustedSize_ge size
  have hltO := getSize_lt (getW h (hdrp bp))
  have hsub : sub32 (getSize (getW h (hdrp bp))) (adjustedSize size)
      = getSize (getW h (hdrp bp)) - adjustedSize size :=
    sub32_of_le _ _ hle hltO
  constructor
  · intro hsmall
    simp only [mmRealloc]
    rw [if_neg hsz, if_neg hbp, if_neg (Ne.symm hne), if_pos hle, hsub,
      if_pos hsmall]
  · intro hbig
    simp only [mmRealloc]
    rw [if_neg hsz, if_neg hbp, if_neg (Ne.symm hne), if_pos hle, hsub,
      if_neg (by unfold OVERHEAD at *; omega)]
    have e1 : ftrp (putW h (hdrp bp) (pack (adjustedSize size) 1)) bp
        = bp + adjustedSize size - 8 := by
      unfold ftrp
      rw [getW_putW_eq, getSize_pack_one _ hmod hltA]
    rw [e1]
    have e2 : nextBlkp (putW (putW h (hdrp bp) (pack (adjustedSize size) 1))
        (bp + adjustedSize size - 8) (pack (adjustedSize size) 1)) bp
        = bp + adjustedSize size := by
      unfold nextBlkp
      rw [getW_putW_ne _ _ _ _ (by unfold hdrp; omega), getW_putW_eq,
        getSize_pack_one _ hmod hltA]
    rw [e2]
    have e3 : hdrp (bp + adjustedSize size) = bp + adjustedSize size - 4 := rfl
    rw [e3]
    have e4 : nextBlkp (putW (putW (putW h (hdrp bp) (pack (adjustedSize size) 1))
        (bp + adjustedSize size - 8) (pack (adjustedSize size) 1))
        (bp + adjustedSize size - 4)
        (pack (getSize (getW h (hdrp bp)) - adjustedSize size) 1)) bp
        = bp + adjustedSize size := by
      unfold nextBlkp
      rw [getW_putW_ne _ _ _ _ (by unfold hdrp; omega),
        getW_putW_ne _ _ _ _ (by unfold hdrp; omega), getW_putW_eq,
        getSize_pack_one _ hmod hltA]
    rw [e4]

/-- Witness for C1 (amended), no-split case at `o − a = 24` exactly. -/
theorem c1_realloc_shrink_witness :
    mmRealloc 9 heap1 56 24 = some ⟨heap1, 56, none⟩ :=
  (c1_realloc_shrink 9 heap1 56 24 (by decide) (by decide) (by decide)
    (by decide)).1 (by decide)

/-! ## Claim C2: realloc growth path -/

/-- `mm_malloc` returning `NULL` leaves the state unchanged. -/
theorem mmMalloc_fail_state (fuel : Nat) (h : Heap) (size : Nat) (h1 : Heap)
    (hm : mmMalloc fuel h size = some (h1, none)) : h1 = h := by
  simp only [mmMalloc] at hm
  by_cases hs : size = 0
  · simp [hs] at hm
    exact hm.symm
  · rw [if_neg hs] at hm
    cases hf : findFit h (adjustedSize size) fuel with
    | none => rw [hf] at hm; cases hm
    | some o =>
      cases o with
      | some bp => rw [hf] at hm; simp at hm
      | none =>
        rw [hf] at hm
        cases he : extendHeap h (max (adjustedSize size) CHUNKSIZE / WSIZE) with
        | none =>
          rw [he] at hm
          simp at hm
          exact hm.symm
        | some pr =>
          obtain ⟨hh, bb⟩ := pr
          rw [he] at hm
          simp at hm

/-- Claim C2 counterexample: in `heap2` the old block has size `o = 24`
(so `o` minus header/footer overhead is 16); `realloc(56, 20)` grows the
block and copies `min(20, 24) = 20` bytes, not `min(20, 16) = 16` as the
claim states. -/
theorem c2_counterexample :
    getSize (getW heap2 (hdrp 56)) = 24 ∧
    (mmRealloc 9 heap2 56 20).map (fun r => (r.ret, r.copied)) =
      some (80, some 20) ∧ (20 : Nat) ≠ min 20 (24 - 8) :=
  ⟨by decide, by decide, by decide⟩

/-- Claim C2 (amended): for `realloc(p, size)` with `p` non-null,
`size > 0` and adjusted size strictly greater than the old block size `o`:
a new block is allocated via `alloc(size)`; if that fails, null is
returned and the state (hence the block at `p`) is exactly as before;
otherwise exactly `min(size, o)` bytes are copied — `o` being the *full*
old block size including the header/footer overhead — then `p` is freed
and the new pointer is returned. -/
theorem c2_realloc_grow (fuel : Nat) (h : Heap) (bp size : Nat)
    (hbp : bp ≠ 0) (hsz : size ≠ 0)
    (hgrow : getSize (getW h (hdrp bp)) < adjustedSize size) :
    (∀ h1, mmMalloc fuel h size = some (h1, none) →
       h1 = h ∧ mmRealloc fuel h bp size = some ⟨h, 0, none⟩) ∧
    (∀ h1 newbp, mmMalloc fuel h size = some (h1, some newbp) →
       mmRealloc fuel h bp size =
         some ⟨mmFree (memcpyBytes h1 newbp bp
                  (min size (getSize (getW h (hdrp bp))))) bp,
               newbp, some (min size (getSize (getW h (hdrp bp))))⟩) := by
  have hminEq : (if size < getSize (getW h (hdrp bp)) then size
      else getSize (getW h (hdrp bp))) = min size (getSize (getW h (hdrp bp))) := by
    rcases Nat.lt_or_ge size (getSize (getW h (hdrp bp))) with hlt | hge
    · rw [if_pos hlt, Nat.min_eq_left (le_of_lt hlt)]
    · rw [if_neg (not_lt.mpr hge), Nat.min_eq_right hge]
  constructor
  · intro h1 hm
    have heq := mmMalloc_fail_state fuel h size h1 hm
    subst heq
    refine ⟨rfl, ?_⟩
    simp only [mmRealloc]
    rw [if_neg hsz, if_neg hbp, if_neg (by omega), if_neg (by omega), hm]
  · intro h1 newbp hm
    simp only [mmRealloc]
    rw [if_neg hsz, if_neg hbp, if_neg (by omega), if_neg (by omega), hm,
      hminEq]

/-- State after `mm_malloc(initHeap-after-malloc-16, 20)`: used by the C2
witness. -/
def heap2m : Heap := ((mmMalloc 9 heap2 20).getD (heap2, none)).1

theorem heap2m_eq : mmMalloc 9 heap2 20 = some (heap2m, some 80) := rfl

/-- Witness for C2 (amended) at a concrete input (successful-copy case). -/
theorem c2_realloc_grow_witness :
    mmRealloc 9 heap2 56 20 =
      some ⟨mmFree (memcpyBytes heap2m 80 56
              (min 20 (getSize (getW heap2 (hdrp 56))))) 56,
            80, some (min 20 (getSize (getW heap2 (hdrp 56))))⟩ :=
  (c2_realloc_grow 9 heap2 56 20 (by decide) (by decide) (by decide)).2
    heap2m 80 heap2m_eq

/-! ## Claim C3: CHUNKSIZE and heap-extension amounts -/

/-- Inverting a successful `mem_sbrk`. -/
theorem memSbrk_inv (h : Heap) (n : Nat) (h1 : Heap) (r : Nat)
    (hs : memSbrk h n = some (h1, r)) :
    h1 = { h with hi := h.hi + n } ∧ r = h.hi ∧ h.hi + n ≤ h.limit := by
  simp only [memSbrk] at hs
  by_cases hc : h.hi + n ≤ h.limit
  · rw [if_pos hc] at hs
    simp only [Option.some.injEq, Prod.mk.injEq] at hs
    exact ⟨hs.1.symm, hs.2.symm, hc⟩
  · rw [if_neg hc] at hs; cases hs

/-- Inverting a successful heap extension: when `s` is the effective byte
count (word count rounded up to even, floored at `OVERHEAD`), the break
advances by exactly `s`. -/
theorem extendHeap_hi_gen (h : Heap) (w s : Nat) (h1 : Heap) (bp : Nat)
    (hs : (if (if w % 2 = 1 then (w + 1) * WSIZE else w * WSIZE) < OVERHEAD
           then OVERHEAD
           else (if w % 2 = 1 then (w + 1) * WSIZE else w * WSIZE)) = s)
    (he : extendHeap h w = some (h1, bp)) : h1.hi = h.hi + s := by
  simp only [extendHeap] at he
  rw [hs] at he
  cases hsb : memSbrk h s with
  | none => rw [hsb] at he; cases he
  | some pr =>
    obtain ⟨hh, bb⟩ := pr
    rw [hsb] at he
    simp only [Option.some.injEq, Prod.ext_iff] at he
    obtain ⟨he1, he2⟩ := he
    have hhhi : hh.hi = h.hi + s := by
      rw [(memSbrk_inv h s hh bb hsb).1]
    rw [← he1, coalesce_hi]
    simp [hhhi]

/-- Claim C3 counterexample: a successful `mm_init` at `lo = 8` leaves the
break at `80 = 8 + 48 + 24`: after stamping the prologue and epilogue the
heap is extended by 24 bytes (16 bytes = `CHUNKSIZE` interpreted as bytes,
floored to the 24-byte minimum), not by 16 words = 64 bytes as the claim
states (which would put the break at `8 + 48 + 64 = 120`). -/
theorem c3_counterexample :
    (mmInit zmem 8 1000).map Heap.hi = some 80 ∧ (80 : Nat) ≠ 8 + 48 + 64 :=
  ⟨by decide, by decide⟩

/-- Claim C3 (amended): `CHUNKSIZE` is 16 *bytes* (4 words), not 16 words.
After stamping the prologue and epilogue, `mm_init` extends the heap by
`CHUNKSIZE` bytes floored to the minimum block size — 24 bytes — so a
successful `mm_init` leaves the break exactly `72 = 2·OVERHEAD + 24` bytes
past `lo`; and when `mm_malloc` finds no fit it extends the heap by
`max(a, CHUNKSIZE) = a` bytes (the adjusted size is always ≥ 24 > 16, and
is already an even number of words). -/
theorem c3_chunksize :
    CHUNKSIZE = 16 ∧
    (∀ m0 start limit h, mmInit m0 start limit = some h →
       h.hi = start + 2 * OVERHEAD + 24) ∧
    (∀ fuel h size h1 bp, size ≠ 0 →
       findFit h (adjustedSize size) fuel = some none →
       mmMalloc fuel h size = some (h1, some bp) →
       h1.hi = h.hi + adjustedSize size) := by
  refine ⟨rfl, ?_, ?_⟩
  · intro m0 start limit h hinit
    simp only [mmInit] at hinit
    cases hs1 : memSbrk ⟨m0, start, start, limit, 0, 0⟩ (2 * OVERHEAD) with
    | none => rw [hs1] at hinit; cases hinit
    | some pr =>
      obtain ⟨h1, s⟩ := pr
      rw [hs1] at hinit
      simp only [] at hinit
      cases he : extendHeap
          { putW (putW (putW (putW (putW (putW h1 s 0) (s + WSIZE) (pack OVERHEAD 1))
              (s + DSIZE) 0) (s + DSIZE + WSIZE) 0) (s + OVERHEAD) (pack OVERHEAD 1))
              (s + WSIZE + OVERHEAD) (pack 0 1) with
            heapListp := s, freeListp := s + DSIZE } (CHUNKSIZE / WSIZE) with
      | none => rw [he] at hinit; cases hinit
      | some pr2 =>
        obtain ⟨h9, bb⟩ := pr2
        rw [he] at hinit
        simp only [Option.some.injEq] at hinit
        subst hinit
        have h9hi := extendHeap_hi_gen _ _ 24 _ _ (by decide) he
        rw [h9hi]
        have h1eq := (memSbrk_inv _ _ _ _ hs1).1
        subst h1eq
        simp [putW]
  · intro fuel h size h1 bp hsz hff hm
    simp only [mmMalloc] at hm
    rw [if_neg hsz, hff] at hm
    have hge : CHUNKSIZE ≤ adjustedSize size :=
      le_trans (by decide) (adjustedSize_ge size)
    rw [max_eq_left hge] at hm
    have hmod := adjustedSize_mod size
    cases he : extendHeap h (adjustedSize size / WSIZE) with
    | none =>
      rw [he] at hm
      simp at hm
    | some pr =>
      obtain ⟨hh, bb⟩ := pr
      rw [he] at hm
      simp only [Option.some.injEq, Prod.mk.injEq] at hm
      have hge24 : 24 ≤ adjustedSize size := adjustedSize_ge size
      have hhi := extendHeap_hi_gen h (adjustedSize size / WSIZE)
        (adjustedSize size) hh bb
        (by unfold WSIZE OVERHEAD; split_ifs <;> omega) he
      rw [← hm.1, place_hi, hhi]

/-- Witness for C3 (amended): concrete init (break at 80 = 8 + 48 + 24)
and a concrete no-fit `mm_malloc(20)` extension by `adjustedSize 20 = 32`
bytes. -/
theorem c3_chunksize_witness :
    initHeap.hi = 8 + 2 * OVERHEAD + 24 ∧
    heap2m.hi = heap2.hi + adjustedSize 20 :=
  ⟨c3_chunksize.2.1 zmem 8 100000 initHeap initHeap_eq,
   c3_chunksize.2.2 9 heap2 20 heap2m 80 (by decide) (by decide) heap2m_eq⟩

/-! ## The explicit post-`mm_init` state (at `lo = 8`)

`mem_sbrk` hands out 8-aligned breaks; we fix the representative base
address `lo = 8` for the symbolic-state lemmas (the allocator's behaviour
is translation invariant; only `m0` — the uninitialised substrate
contents — and the substrate capacity `limit` stay symbolic).

After `mm_init`: pad `0` at 8, prologue header `PACK(24,1) = 25` at 12,
prologue `prev` slot at 16 (first zeroed, later pointed at the free
block), the misplaced "next pointer" `0` at 20 (the real `NEXT_FREEP`
slot 24 = `bp + DSIZE` at address 24 is never written), prologue footer
at 32, the first epilogue at 36, and — after the 24-byte extension —
the free block `[52, 76)` (header 24 at 52, footer 24 at 72), epilogue
`1` at 76, free-list links at 64 and 56.  `hi = 80`. -/
def initState8 (m0 : Nat → Nat) (limit : Nat) : Heap :=
  putW (putW (putW (putW (putW (putW (putW (putW (putW (putW (putW (putW
    ⟨m0, 8, 80, limit, 8, 56⟩
    8 0) 12 25) 16 0) 20 0) 32 25) 36 1)
    52 24) 72 24) 76 1)
    64 16) 16 56) 56 0

theorem mmInit_explicit8 (m0 : Nat → Nat) (limit : Nat)
    (hfit : 80 ≤ limit) (hgap : getSize (m0 48) = 0) :
    mmInit m0 8 limit = some (initState8 m0 limit) := by
  have h56 : (56 : Nat) ≤ limit := by omega
  have hgap' : m0 48 % 4294967296 / 8 * 8 = 0 := by
    simpa [getSize, MOD32] using hgap
  simp [mmInit, extendHeap, memSbrk, coalesce, insertAtFront, removeBlock,
    putW, getW, hdrp, ftrp, nextBlkp, prevBlkp, nextFreep, prevFreep,
    pack, getSize, getAlloc, OVERHEAD, CHUNKSIZE, WSIZE, DSIZE, MOD32,
    initState8, h56, hfit, hgap']

/-- A successful `mm_init` needs (and implies) `start + 72 ≤ limit`. -/
theorem mmInit_some_fit (m0 : Nat → Nat) (start limit : Nat) (h : Heap)
    (hinit : mmInit m0 start limit = some h) : start + 72 ≤ limit := by
  by_contra hlt
  push_neg at hlt
  cases hs1 : memSbrk ⟨m0, start, start, limit, 0, 0⟩ (2 * OVERHEAD) with
  | none =>
    simp only [mmInit, hs1] at hinit
    cases hinit
  | some pr =>
    obtain ⟨h1, s⟩ := pr
    obtain ⟨he1, he2, he3⟩ := memSbrk_inv _ _ _ _ hs1
    simp only [mmInit, hs1] at hinit
    split at hinit
    · cases hinit
    · rename_i h9 bb heq
      subst he1
      simp only [extendHeap, memSbrk, OVERHEAD, CHUNKSIZE, WSIZE] at heq
      norm_num at heq
      rw [if_neg (by simp [putW]; omega)] at heq
      cases heq

/-! ## Claim C5: `mm_check` after a successful `mm_init` -/

/-- Claim C5 is a code bug: after *any* successful `mm_init` (arbitrary
uninitialised substrate contents `m0`, arbitrary capacity), `mm_check`
returns `-1`, not `0`, although the freshly initialised heap is exactly
the consistent state `mm_init` is supposed to produce.  The cause:
`heap_listp` is left pointing at the leading pad word (`mm_init` never
advances it to the prologue block pointer), so `mm_check` applies the
prologue test to `GET(heap_listp - 4)` — a word *outside* the heap — and
`check_block(heap_listp)` reads `PREV_FREEP(heap_listp)`, which is the
zero pad word, and `0 < mem_heap_lo()` makes the bounds test fail.  The
theorem quantifies over the out-of-heap garbage word, so the result is
`-1` no matter what that word contains. -/
theorem c5_check_after_init (m0 : Nat → Nat) (limit : Nat) (h : Heap)
    (fuel : Nat) (hgap : getSize (m0 48) = 0)
    (hinit : mmInit m0 8 limit = some h) :
    mmCheck fuel h = some (-1) := by
  have hfit : (80 : Nat) ≤ limit := by
    have := mmInit_some_fit m0 8 limit h hinit
    omega
  rw [mmInit_explicit8 m0 limit hfit hgap] at hinit
  have hh : h = initState8 m0 limit := by
    injection hinit with hx
    exact hx.symm
  subst hh
  have c16 : getW (initState8 m0 limit) (8 + 8) = 56 := by
    simp [initState8, putW, getW]
  have c8 : getW (initState8 m0 limit) 8 = 0 := by
    simp [initState8, putW, getW]
  have hlp : (initState8 m0 limit).heapListp = 8 := by simp [initState8, putW]
  have hlo : (initState8 m0 limit).lo = 8 := by simp [initState8, putW]
  have hhi : (initState8 m0 limit).hi = 80 := by simp [initState8, putW]
  unfold mmCheck
  rw [hlp]
  by_cases hg : getSize (getW (initState8 m0 limit) (hdrp 8)) ≠ OVERHEAD ∨
      getAlloc (getW (initState8 m0 limit) (hdrp 8)) = 0
  · rw [if_pos hg]
  · rw [if_neg hg]
    have hcb : checkBlock (initState8 m0 limit) 8 = -1 := by
      unfold checkBlock nextFreep prevFreep
      rw [c16, c8, hlo, hhi]
      norm_num
    rw [if_pos hcb]

/-- Witness: the failing input evaluated concretely — right after
`mm_init` on zeroed substrate memory, `mm_check` reports inconsistency. -/
theorem c5_check_after_init_witness : mmCheck 5 initHeap = some (-1) :=
  c5_check_after_init zmem 100000 initHeap 5 (by decide) initHeap_eq

/-! ## Abstract heap layout: boundary-tagged tiling and the free list

The heap invariant couples the raw word memory with an abstract
description: a list of blocks `bs` tiling `[lo + 44, hi − 4)` (the layout
produced by `mm_init`'s 48-byte prologue region — including its 12 dead
bytes and the stale first epilogue — followed by every extension), and
the LIFO free list `fl` of block pointers threaded through the free
blocks' link words. -/

/-- One boundary-tagged block: block pointer, full byte size, allocated
bit. -/
structure Blk where
  bp : Nat
  size : Nat
  al : Bool

/-- The allocated bit as stored in a tag word. -/
def abit (b : Bool) : Nat := if b then 1 else 0

/-- `tiled bs a b`: the blocks `bs` exactly tile the byte range `[a, b)`,
each block pointer sitting one word past its block start, every size a
legal block size. -/
def tiled : List Blk → Nat → Nat → Prop
  | [], a, b => a = b
  | x :: r, a, b => x.bp = a + 4 ∧ 24 ≤ x.size ∧ x.size % 8 = 0 ∧
      tiled r (a + x.size) b

/-- Header and footer of `x` are stamped in memory. -/
def blkMem (h : Heap) (x : Blk) : Prop :=
  getW h (x.bp - 4) = pack x.size (abit x.al) ∧
  getW h (x.bp + x.size - 8) = pack x.size (abit x.al)

/-- `flSeg h tgt l pv`: the doubly-linked free-list segment `l`, whose
first element's `PREV_FREEP` is `pv`, whose links chain in order, and
whose last element's `NEXT_FREEP` is the head of what follows (`tgt` when
nothing follows — for the full list, the prologue block pointer). -/
def flSeg (h : Heap) (tgt : Nat) : List Nat → Nat → Prop
  | [], _ => True
  | x :: r, pv => prevFreep h x = pv ∧ nextFreep h x = r.headD tgt ∧
      flSeg h tgt r x

theorem headD_append (u v : List Nat) (d : Nat) :
    (u ++ v).headD d = u.headD (v.headD d) := by
  cases u <;> rfl

theorem tiled_append (l1 l2 : List Blk) (a m b : Nat)
    (h1 : tiled l1 a m) (h2 : tiled l2 m b) : tiled (l1 ++ l2) a b := by
  induction l1 generalizing a with
  | nil => cases h1; exact h2
  | cons x r ih =>
    obtain ⟨hx, hs, hm, hr⟩ := h1
    exact ⟨hx, hs, hm, ih (a + x.size) hr⟩

theorem tiled_split (l1 : List Blk) (x : Blk) (l2 : List Blk) (a b : Nat)
    (ht : tiled (l1 ++ x :: l2) a b) :
    tiled l1 a (x.bp - 4) ∧ x.bp = (x.bp - 4) + 4 ∧ 24 ≤ x.size ∧
    x.size % 8 = 0 ∧ a ≤ x.bp - 4 ∧ tiled l2 (x.bp - 4 + x.size) b := by
  induction l1 generalizing a with
  | nil =>
    obtain ⟨hx, hs, hm, hr⟩ := ht
    have hx4 : x.bp - 4 = a := by omega
    refine ⟨hx4.symm, by omega, hs, hm, by omega, ?_⟩
    rw [hx4]
    exact hr
  | cons y r ih =>
    obtain ⟨hy, hs, hm, hr⟩ := ht
    obtain ⟨i1, i2, i3, i4, i5, i6⟩ := ih (a + y.size) hr
    exact ⟨⟨hy, hs, hm, i1⟩, i2, i3, i4, by omega, i6⟩

theorem tiled_le : ∀ (bs : List Blk) (a b : Nat), tiled bs a b → a ≤ b := by
  intro bs
  induction bs with
  | nil => intro a b ht; exact le_of_eq ht
  | cons y r ih =>
    intro a b ht
    obtain ⟨_, hs, _, hr⟩ := ht
    have := ih (a + y.size) b hr
    omega

/-- Every block of a tiling lies inside the tiled range. -/
theorem tiled_bounds : ∀ (bs : List Blk) (a b : Nat), tiled bs a b →
    ∀ x ∈ bs, a + 4 ≤ x.bp ∧ (x.bp - 4) + x.size ≤ b ∧ 24 ≤ x.size ∧
      x.size % 8 = 0 := by
  intro bs
  induction bs with
  | nil => intro a b ht x hx; cases hx
  | cons y r ih =>
    intro a b ht x hx
    obtain ⟨hy, hs, hm, hr⟩ := ht
    rcases List.mem_cons.mp hx with rfl | hx'
    · have hend := tiled_le r (a + x.size) b hr
      exact ⟨by omega, by omega, hs, hm⟩
    · obtain ⟨i1, i2, i3, i4⟩ := ih (a + y.size) b hr x hx'
      exact ⟨by omega, i2, i3, i4⟩

/-- A write outside the link cells `y`, `y + 8` of the members of `l`
preserves a free-list segment. -/
theorem flSeg_frame : ∀ (l : List Nat) (h : Heap) (tgt c v pv : Nat),
    (∀ y ∈ l, c ≠ y ∧ c ≠ y + 8) →
    (flSeg (putW h c v) tgt l pv ↔ flSeg h tgt l pv) := by
  intro l
  induction l with
  | nil => intro h tgt c v pv hc; exact Iff.rfl
  | cons x r ih =>
    intro h tgt c v pv hc
    obtain ⟨hc1, hc2⟩ := hc x (List.mem_cons_self x r)
    have hr := ih h tgt c v x (fun y hy => hc y (List.mem_cons_of_mem x hy))
    unfold flSeg
    rw [hr]
    unfold prevFreep nextFreep
    rw [getW_putW_ne _ _ _ _ (Ne.symm hc1), getW_putW_ne _ _ _ _ (Ne.symm hc2)]

theorem flSeg_append : ∀ (u v : List Nat) (h : Heap) (tgt pv : Nat),
    flSeg h tgt (u ++ v) pv ↔
      flSeg h (v.headD tgt) u pv ∧ flSeg h tgt v (u.getLastD pv) := by
  intro u
  induction u with
  | nil =>
    intro v h tgt pv
    simp [flSeg]
  | cons x r ih =>
    intro v h tgt pv
    have hh := ih v h tgt x
    simp only [List.cons_append, flSeg, List.getLastD_cons, List.append_eq]
    rw [hh, headD_append]
    constructor
    · rintro ⟨a, b, c, d⟩; exact ⟨⟨a, b, c⟩, d⟩
    · rintro ⟨⟨a, b, c⟩, d⟩; exact ⟨a, b, c, d⟩

/-- The two link cells of `y` and of `z` are disjoint. -/
def sepCells (y z : Nat) : Prop := y ≠ z ∧ y ≠ z + 8 ∧ z ≠ y + 8

/-- Free-list members are non-null, separated from the prologue sentinel
and pairwise cell-disjoint. -/
def linkCellsOk (prol : Nat) (fl : List Nat) : Prop :=
  (∀ y ∈ fl, y ≠ 0 ∧ sepCells y prol) ∧ fl.Pairwise sepCells

/-- Blocks of a tiling appear in strictly increasing, disjoint order. -/
theorem tiled_pairwise_disj : ∀ (bs : List Blk) (a b : Nat), tiled bs a b →
    bs.Pairwise (fun x y => x.bp + x.size ≤ y.bp) := by
  intro bs
  induction bs with
  | nil => intro a b ht; exact List.Pairwise.nil
  | cons x r ih =>
    intro a b ht
    obtain ⟨hx, hs, hm, hr⟩ := ht
    refine List.Pairwise.cons ?_ (ih (a + x.size) b hr)
    intro z hz
    have := (tiled_bounds r (a + x.size) b hr z hz).1
    omega

/-! ## The heap invariant -/

/-- The core heap-shape invariant: scalar facts, the fixed prologue /
stale-epilogue / dead-gap region `[lo, lo+44)` produced by `mm_init`,
the epilogue at `hi − 4`, the block tiling of `[lo+44, hi−4)` with all
boundary tags stamped, and the free-list chain through memory.

The word at `lo+40` is the one the coalescer reads as "footer of the
physical predecessor" of the first real block; it is never written, so
its size bits staying zero (fresh zeroed substrate pages) makes
`PREV_BLKP(first) = first` and triggers the code's escape hatch. -/
structure InvCore (h : Heap) (bs : List Blk) (fl : List Nat) : Prop where
  hlp : h.heapListp = h.lo
  lo8 : 8 ≤ h.lo
  lom : h.lo % 8 = 0
  him : h.hi % 8 = 0
  losep : h.lo + 72 ≤ h.hi
  hil : h.hi ≤ h.limit
  liml : h.limit < MOD32
  prohd : getW h (h.lo + 4) = pack 24 1
  proft : getW h (h.lo + 24) = pack 24 1
  gap : getSize (getW h (h.lo + 40)) = 0
  epi : getW h (h.hi - 4) = pack 0 1
  til : tiled bs (h.lo + 44) (h.hi - 4)
  bmem : ∀ x ∈ bs, blkMem h x
  nodup : fl.Nodup
  flp : h.freeListp = fl.headD (h.lo + 8)
  seg : flSeg h (h.lo + 8) fl 0

/-- The full invariant: core shape plus the coupling "free-list
membership ≡ allocated bit clear". -/
def Inv (h : Heap) (bs : List Blk) (fl : List Nat) : Prop :=
  InvCore h bs fl ∧
  (∀ x ∈ bs, x.al = false → x.bp ∈ fl) ∧
  (∀ p ∈ fl, ∃ x ∈ bs, x.bp = p ∧ x.al = false)

/-- The coalescer's precondition: core shape, with block `b` free-tagged
in memory (`b.al = false` in `bs`) but not yet a member of the free
list. -/
def PreC (h : Heap) (bs : List Blk) (fl : List Nat) (b : Blk) : Prop :=
  InvCore h bs fl ∧
  (∀ x ∈ bs, x.al = false → x.bp = b.bp ∨ x.bp ∈ fl) ∧
  (∀ p ∈ fl, ∃ x ∈ bs, x.bp = p ∧ x.al = false ∧ p ≠ b.bp) ∧
  b ∈ bs ∧ b.al = false ∧ b.bp ∉ fl

theorem core_block_facts (h : Heap) (bs : List Blk) (fl : List Nat)
    (hc : InvCore h bs fl) (x : Blk) (hx : x ∈ bs) :
    h.lo + 48 ≤ x.bp ∧ x.bp + x.size ≤ h.hi ∧ 24 ≤ x.size ∧
    x.size % 8 = 0 ∧ x.size < MOD32 := by
  obtain ⟨b1, b2, b3, b4⟩ := tiled_bounds bs (h.lo + 44) (h.hi - 4) hc.til x hx
  have hl := hc.losep
  have h1 := hc.hil
  have h2 := hc.liml
  refine ⟨by omega, by omega, b3, b4, by unfold MOD32 at *; omega⟩

/-- Distinct blocks of a tiling are ordered one way or the other. -/
theorem tiled_mem_disj (bs : List Blk) (a b : Nat) (ht : tiled bs a b)
    (x y : Blk) (hx : x ∈ bs) (hy : y ∈ bs) (hne : x.bp ≠ y.bp) :
    x.bp + x.size ≤ y.bp ∨ y.bp + y.size ≤ x.bp := by
  have hp := tiled_pairwise_disj bs a b ht
  have hp2 : bs.Pairwise (fun x y =>
      x.bp + x.size ≤ y.bp ∨ y.bp + y.size ≤ x.bp) :=
    hp.imp (fun hr => Or.inl hr)
  have hxy : x ≠ y := fun he => hne (by rw [he])
  exact hp2.forall (fun u v hv => hv.symm) hx hy hxy

theorem core_linkCellsOk (h : Heap) (bs : List Blk) (fl : List Nat)
    (hc : InvCore h bs fl)
    (hcoup : ∀ p ∈ fl, ∃ x ∈ bs, x.bp = p) : linkCellsOk (h.lo + 8) fl := by
  constructor
  · intro y hy
    obtain ⟨x, hxbs, hxbp⟩ := hcoup y hy
    obtain ⟨f1, f2, f3, _⟩ := core_block_facts h bs fl hc x hxbs
    refine ⟨by omega, by unfold sepCells; omega⟩
  · have hnd2 : fl.Pairwise (fun y z => y ≠ z) := hc.nodup
    refine hnd2.imp_of_mem ?_
    intro y z hy hz hne
    obtain ⟨xy, hxybs, hxybp⟩ := hcoup y hy
    obtain ⟨xz, hxzbs, hxzbp⟩ := hcoup z hz
    obtain ⟨fy1, fy2, fy3, _⟩ := core_block_facts h bs fl hc xy hxybs
    obtain ⟨fz1, fz2, fz3, _⟩ := core_block_facts h bs fl hc xz hxzbs
    have hdisj := tiled_mem_disj bs (h.lo + 44) (h.hi - 4) hc.til xy xz hxybs
      hxzbs (by omega)
    unfold sepCells
    omega

theorem Inv_linkCellsOk (h : Heap) (bs : List Blk) (fl : List Nat)
    (hinv : Inv h bs fl) : linkCellsOk (h.lo + 8) fl :=
  core_linkCellsOk h bs fl hinv.1 (fun p hp => by
    obtain ⟨x, hx, hbp, _⟩ := hinv.2.2 p hp
    exact ⟨x, hx, hbp⟩)

/-! ## Free-list surgery: `remove_block` and `insert_at_front` -/

theorem flSeg_congr (h1 h2 : Heap) (hm : h1.mem = h2.mem) (tgt : Nat) :
    ∀ (l : List Nat) (pv : Nat), flSeg h1 tgt l pv ↔ flSeg h2 tgt l pv := by
  intro l
  induction l with
  | nil => intro pv; exact Iff.rfl
  | cons x r ih =>
    intro pv
    unfold flSeg prevFreep nextFreep getW
    rw [hm, ih x]

theorem headD_ne_nil (l : List Nat) (d1 d2 : Nat) (hl : l ≠ []) :
    l.headD d1 = l.headD d2 := by
  cases l with
  | nil => exact absurd rfl hl
  | cons => rfl

theorem linkCellsOk_sub (prol : Nat) (u v : List Nat) (x : Nat)
    (hc : linkCellsOk prol (u ++ x :: v)) : linkCellsOk prol (u ++ v) := by
  have hsub : (u ++ v).Sublist (u ++ x :: v) :=
    List.Sublist.append_left (List.sublist_cons_self x v) u
  exact ⟨fun y hy => hc.1 y (hsub.mem hy), hc.2.sublist hsub⟩

/-- Replace the free-list head pointer, leaving memory alone (the shape
`remove_block` produces when removing the head). -/
def withFLP (h : Heap) (w : Nat) : Heap :=
  ⟨h.mem, h.lo, h.hi, h.limit, h.heapListp, w⟩

@[simp] theorem withFLP_mem (h : Heap) (w : Nat) : (withFLP h w).mem = h.mem := rfl

@[simp] theorem withFLP_lo (h : Heap) (w : Nat) : (withFLP h w).lo = h.lo := rfl

@[simp] theorem withFLP_hi (h : Heap) (w : Nat) : (withFLP h w).hi = h.hi := rfl

@[simp] theorem withFLP_limit (h : Heap) (w : Nat) :
    (withFLP h w).limit = h.limit := rfl

@[simp] theorem withFLP_heapListp (h : Heap) (w : Nat) :
    (withFLP h w).heapListp = h.heapListp := rfl

@[simp] theorem withFLP_freeListp (h : Heap) (w : Nat) :
    (withFLP h w).freeListp = w := rfl

theorem getW_withFLP (h : Heap) (w c : Nat) : getW (withFLP h w) c = getW h c :=
  rfl

theorem flSeg_withFLP (h : Heap) (w tgt : Nat) (l : List Nat) (pv : Nat) :
    flSeg (withFLP h w) tgt l pv ↔ flSeg h tgt l pv :=
  flSeg_congr (withFLP h w) h rfl tgt l pv

/-- Full specification of `remove_block(x)` for `x` a member of the
well-formed free list `u ++ x :: v`: the chain becomes `u ++ v`, the list
head plays through, and memory outside the members' link cells and the
prologue anchor is untouched. -/
theorem removeBlock_spec (h : Heap) (prol : Nat) (u v : List Nat) (x : Nat)
    (hfl : flSeg h prol (u ++ x :: v) 0)
    (hcells : linkCellsOk prol (u ++ x :: v))
    (hfp : h.freeListp = (u ++ x :: v).headD prol) :
    flSeg (removeBlock h x) prol (u ++ v) 0 ∧
    (removeBlock h x).freeListp = (u ++ v).headD prol ∧
    (∀ c, (∀ y ∈ u ++ x :: v, c ≠ y ∧ c ≠ y + 8) → c ≠ prol →
       getW (removeBlock h x) c = getW h c) ∧
    (removeBlock h x).lo = h.lo ∧ (removeBlock h x).hi = h.hi ∧
    (removeBlock h x).limit = h.limit ∧
    (removeBlock h x).heapListp = h.heapListp := by
  rcases List.eq_nil_or_concat u with rfl | ⟨u', p, rfl⟩
  · -- `x` is the head of the free list
    obtain ⟨hp, hn, hvseg⟩ : prevFreep h x = 0 ∧
        nextFreep h x = v.headD prol ∧ flSeg h prol v x := hfl
    have hrm : removeBlock h x =
        withFLP (putW h (v.headD prol) 0) (v.headD prol) := by
      have hp' : h.mem x = 0 := hp
      have hn' : h.mem (x + 8) = v.headD prol := hn
      simp [removeBlock, prevFreep, nextFreep, getW, putW, withFLP, hp', hn']
    rw [hrm]
    refine ⟨?_, rfl, ?_, rfl, rfl, rfl, rfl⟩
    · rw [flSeg_withFLP]
      show flSeg (putW h (v.headD prol) 0) prol v 0
      cases v with
      | nil => trivial
      | cons y v' =>
        simp only [List.headD_cons]
        obtain ⟨hpy, hny, hv'⟩ := hvseg
        have hysep : ∀ z ∈ v', sepCells y z :=
          (List.pairwise_cons.mp (List.pairwise_cons.mp hcells.2).2).1
        refine ⟨getW_putW_eq h y 0, ?_, ?_⟩
        · show getW (putW h y 0) (y + 8) = v'.headD prol
          rw [getW_putW_ne _ _ _ _ (by omega)]
          exact hny
        · rw [flSeg_frame v' h prol y 0 y
            (fun z hz => ⟨(hysep z hz).1, (hysep z hz).2.1⟩)]
          exact hv'
    · intro c hcy hcp
      rw [getW_withFLP]
      refine getW_putW_ne h _ 0 c ?_
      cases v with
      | nil => exact hcp
      | cons y v' => exact (hcy y (by simp)).1
  · -- `x` has a predecessor `p` in the list
    rw [List.concat_eq_append] at *
    have hmemp : p ∈ (u' ++ [p]) ++ x :: v := by simp
    have hp0 : p ≠ 0 := (hcells.1 p hmemp).1
    have hppro : sepCells p prol := (hcells.1 p hmemp).2
    have hsep : sepCells p x :=
      (List.pairwise_append.mp hcells.2).2.2 p (by simp) x (by simp)
    obtain ⟨sA, sB⟩ := (flSeg_append (u' ++ [p]) (x :: v) h prol 0).mp hfl
    rw [List.getLastD_concat] at sB
    obtain ⟨hpx, hnx, svx⟩ : prevFreep h x = p ∧
        nextFreep h x = v.headD prol ∧ flSeg h prol v x := sB
    obtain ⟨sU, sP⟩ := (flSeg_append u' [p] h x 0).mp sA
    obtain ⟨hpp, hnp, -⟩ : prevFreep h p = u'.getLastD 0 ∧
        nextFreep h p = x ∧ flSeg h x ([] : List Nat) p := sP
    have hvsep : ∀ z ∈ v, sepCells p z ∧ sepCells x z := by
      intro z hz
      constructor
      · exact (List.pairwise_append.mp hcells.2).2.2 p (by simp) z (by simp [hz])
      · have h2 := (List.pairwise_append.mp hcells.2).2.1
        exact (List.pairwise_cons.mp h2).1 z hz
    have husep : ∀ z ∈ u', sepCells z p ∧ sepCells z x ∧
        (∀ w ∈ v, sepCells z w) ∧ sepCells z prol := by
      intro z hz
      have hall := (List.pairwise_append.mp hcells.2).2.2
      have h1 := (List.pairwise_append.mp (List.pairwise_append.mp
        hcells.2).1).2.2 z hz p (by simp)
      refine ⟨h1, hall z (by simp [hz]) x (by simp), ?_, ?_⟩
      · intro w hw
        exact hall z (by simp [hz]) w (by simp [hw])
      · exact (hcells.1 z (by simp [hz])).2
    -- the resolved state
    have hrm : removeBlock h x =
        putW (putW h (p + 8) (v.headD prol)) (v.headD prol) p := by
      have hpx2 : h.mem x = p := hpx
      have hnx2 : h.mem (x + 8) = v.headD prol := hnx
      have d1 : x ≠ p + 8 := hsep.2.2
      have d2 : x + 8 ≠ p + 8 := by
        have := hsep.1
        omega
      simp [removeBlock, prevFreep, nextFreep, getW, putW, hpx2, hnx2, hp0,
        d1, d2]
    -- the written cells, versus the surviving members
    have hnfu : ∀ z ∈ u', (v.headD prol) ≠ z ∧ (v.headD prol) ≠ z + 8 := by
      intro z hz
      obtain ⟨s1, s2, s3, s4⟩ := husep z hz
      cases v with
      | nil =>
        simp only [List.headD_nil]
        unfold sepCells at s4
        constructor <;> omega
      | cons w v2 =>
        simp only [List.headD_cons]
        have := s3 w (by simp)
        unfold sepCells at this
        constructor <;> omega
    have hp8u : ∀ z ∈ u', (p + 8) ≠ z ∧ (p + 8) ≠ z + 8 := by
      intro z hz
      obtain ⟨s1, s2, s3, s4⟩ := husep z hz
      unfold sepCells at s1
      constructor <;> omega
    rw [hrm]
    refine ⟨?_, ?_, ?_, rfl, rfl, rfl, rfl⟩
    · -- new chain `(u' ++ [p]) ++ v`
      rw [flSeg_append (u' ++ [p]) v _ prol 0, flSeg_append u' [p] _ _ 0,
        List.getLastD_concat]
      refine ⟨⟨?_, ?_, ?_, trivial⟩, ?_⟩
      · -- the `u'` segment is untouched
        rw [flSeg_frame u' (putW h (p + 8) (v.headD prol))
            ([p].headD (v.headD prol)) (v.headD prol) p 0 (hnfu),
          flSeg_frame u' h ([p].headD (v.headD prol)) (p + 8)
            (v.headD prol) 0 (hp8u)]
        exact sU
      · -- `p`'s prev link is untouched
        show getW _ p = u'.getLastD 0
        rw [getW_putW_ne _ _ _ _ ?hpnf, getW_putW_ne _ _ _ _ (by omega)]
        · exact hpp
        case hpnf =>
          cases v with
          | nil => exact hppro.1
          | cons w v2 => exact ((hvsep w (by simp)).1).1
      · -- `p`'s next link now names the follower of `x`
        show getW _ (p + 8) = v.headD prol
        rw [getW_putW_ne _ _ _ _ ?hpnf8, getW_putW_eq]
        case hpnf8 =>
          cases v with
          | nil => exact fun he => hppro.2.2 he.symm
          | cons w v2 =>
            have := ((hvsep w (by simp)).1).2.2
            simpa using fun he => this he.symm
      · -- the `v` segment: its head's prev becomes `p`
        cases v with
        | nil => trivial
        | cons w v2 =>
          obtain ⟨hpw, hnw, hv2⟩ := svx
          have hwp := (hvsep w (by simp)).1
          have hwx := (hvsep w (by simp)).2
          simp only [List.headD_cons]
          refine ⟨getW_putW_eq _ w p, ?_, ?_⟩
          · show getW _ (w + 8) = v2.headD prol
            have d3 : w + 8 ≠ w := by omega
            have d4 : w + 8 ≠ p + 8 := by
              have := hwp.1
              omega
            rw [getW_putW_ne _ _ _ _ d3, getW_putW_ne _ _ _ _ d4]
            exact hnw
          · have hv2sep : ∀ z ∈ v2, sepCells w z ∧ sepCells p z := by
              intro z hz
              constructor
              · have h2 := (List.pairwise_append.mp hcells.2).2.1
                exact (List.pairwise_cons.mp
                  (List.pairwise_cons.mp h2).2).1 z hz
              · exact (hvsep z (by simp [hz])).1
            rw [flSeg_frame v2 (putW h (p + 8) w) prol w p w
                (fun z hz => ⟨(hv2sep z hz).1.1, (hv2sep z hz).1.2.1⟩),
              flSeg_frame v2 h prol (p + 8) w w ?hfr]
            · exact hv2
            case hfr =>
              intro z hz
              have := (hv2sep z hz).2
              unfold sepCells at this
              constructor <;> omega
    · -- the free-list head is unchanged
      show h.freeListp = _
      rw [hfp]
      simp only [headD_append, List.headD_cons]
    · -- frame
      intro c hcy hcp
      rw [getW_putW_ne _ _ _ _ ?hc1, getW_putW_ne _ _ _ _ ?hc2]
      case hc1 =>
        cases v with
        | nil => exact hcp
        | cons w v2 => exact (hcy w (by simp)).1
      case hc2 => exact (hcy p hmemp).2

/-- Full specification of `insert_at_front(bp)` for a fresh pointer `bp`
(not a member, cell-separated from the members and the sentinel). -/
theorem insertAtFront_spec (h : Heap) (prol : Nat) (fl : List Nat) (bp : Nat)
    (hfl : flSeg h prol fl 0)
    (hcells : linkCellsOk prol fl)
    (hbpsep : sepCells bp prol)
    (hbpcells : ∀ y ∈ fl, sepCells bp y)
    (hfp : h.freeListp = fl.headD prol) :
    flSeg (insertAtFront h bp) prol (bp :: fl) 0 ∧
    (insertAtFront h bp).freeListp = bp ∧
    (∀ c, c ≠ bp → c ≠ bp + 8 → (∀ y ∈ fl, c ≠ y) → c ≠ prol →
       getW (insertAtFront h bp) c = getW h c) ∧
    (insertAtFront h bp).lo = h.lo ∧ (insertAtFront h bp).hi = h.hi ∧
    (insertAtFront h bp).limit = h.limit ∧
    (insertAtFront h bp).heapListp = h.heapListp := by
  have hins : insertAtFront h bp =
      withFLP (putW (putW (putW h (bp + 8) (fl.headD prol)) (fl.headD prol) bp)
        bp 0) bp := by
    unfold insertAtFront withFLP putW
    rw [hfp]
  have hd1 : bp + 8 ≠ fl.headD prol := by
    cases fl with
    | nil =>
      simp only [List.headD_nil]
      have := hbpsep.2.2
      omega
    | cons y v =>
      simp only [List.headD_cons]
      have := (hbpcells y (by simp)).2.2
      omega
  rw [hins]
  refine ⟨?_, rfl, ?_, rfl, rfl, rfl, rfl⟩
  · rw [flSeg_withFLP]
    refine ⟨getW_putW_eq _ bp 0, ?_, ?_⟩
    · show getW _ (bp + 8) = fl.headD prol
      rw [getW_putW_ne _ _ _ _ (by omega), getW_putW_ne _ _ _ _ hd1,
        getW_putW_eq]
    · cases fl with
      | nil => trivial
      | cons y v =>
        simp only [List.headD_cons]
        obtain ⟨hpy, hny, hv⟩ := hfl
        have hby := hbpcells y (by simp)
        have hysep : ∀ z ∈ v, sepCells y z :=
          (List.pairwise_cons.mp hcells.2).1
        refine ⟨?_, ?_, ?_⟩
        · show getW _ y = bp
          have dy : y ≠ bp := fun he => hby.1 he.symm
          rw [getW_putW_ne _ _ _ _ dy, getW_putW_eq]
        · show getW _ (y + 8) = v.headD prol
          have d1 : y + 8 ≠ bp := by
            have := hby.2.1
            omega
          have d2 : y + 8 ≠ y := by omega
          have d3 : y + 8 ≠ bp + 8 := by
            have := hby.1
            omega
          rw [getW_putW_ne _ _ _ _ d1, getW_putW_ne _ _ _ _ d2,
            getW_putW_ne _ _ _ _ d3]
          exact hny
        · have c1 : ∀ z ∈ v, bp ≠ z ∧ bp ≠ z + 8 := by
            intro z hz
            have := hbpcells z (by simp [hz])
            exact ⟨this.1, this.2.1⟩
          have c2 : ∀ z ∈ v, y ≠ z ∧ y ≠ z + 8 := by
            intro z hz
            have := hysep z hz
            exact ⟨this.1, this.2.1⟩
          have c3 : ∀ z ∈ v, bp + 8 ≠ z ∧ bp + 8 ≠ z + 8 := by
            intro z hz
            have hs := hbpcells z (by simp [hz])
            have := hs.1
            have := hs.2.2
            constructor <;> omega
          rw [flSeg_frame v (putW (putW h (bp + 8) y) y bp) prol bp 0 y c1,
            flSeg_frame v (putW h (bp + 8) y) prol y bp y c2,
            flSeg_frame v h prol (bp + 8) y y c3]
          exact hv
  · intro c hc1 hc2 hcy hcp
    rw [getW_withFLP]
    have d1 : c ≠ fl.headD prol := by
      cases fl with
      | nil => simpa using hcp
      | cons y v => simpa using hcy y (by simp)
    rw [getW_putW_ne _ _ _ _ hc1, getW_putW_ne _ _ _ _ d1,
      getW_putW_ne _ _ _ _ hc2]

/-! ## What the coalescer reads -/

theorem tiled_bp_inj (bs : List Blk) (a b : Nat) (ht : tiled bs a b)
    (x z : Blk) (hx : x ∈ bs) (hz : z ∈ bs) (he : x.bp = z.bp) : x = z := by
  by_contra hne
  have hp2 : bs.Pairwise (fun x y =>
      x.bp + x.size ≤ y.bp ∨ y.bp + y.size ≤ x.bp) :=
    (tiled_pairwise_disj bs a b ht).imp (fun hr => Or.inl hr)
  have hd := hp2.forall (fun u v hv => hv.symm) hx hz hne
  obtain ⟨_, _, hx3, _⟩ := tiled_bounds bs a b ht x hx
  obtain ⟨_, _, hz3, _⟩ := tiled_bounds bs a b ht z hz
  omega

/-- Tag cells of one block never alias the link cells of another (or the
same) block, nor the prologue anchor cell. -/
theorem tag_link_sep (h : Heap) (bs : List Blk) (fl : List Nat)
    (hc : InvCore h bs fl) (x z : Blk) (hx : x ∈ bs) (hz : z ∈ bs) :
    x.bp - 4 ≠ z.bp ∧ x.bp - 4 ≠ z.bp + 8 ∧
    x.bp + x.size - 8 ≠ z.bp ∧ x.bp + x.size - 8 ≠ z.bp + 8 ∧
    x.bp - 4 ≠ h.lo + 8 ∧ x.bp + x.size - 8 ≠ h.lo + 8 := by
  obtain ⟨fx1, fx2, fx3, fx4, _⟩ := core_block_facts h bs fl hc x hx
  obtain ⟨fz1, fz2, fz3, fz4, _⟩ := core_block_facts h bs fl hc z hz
  by_cases he : x.bp = z.bp
  · have hxz := tiled_bp_inj bs (h.lo + 44) (h.hi - 4) hc.til x z hx hz he
    subst hxz
    omega
  · have hd := tiled_mem_disj bs (h.lo + 44) (h.hi - 4) hc.til x z hx hz he
    omega

theorem PreC_reads (h : Heap) (bs : List Blk) (fl : List Nat) (b : Blk)
    (hc : InvCore h bs fl) (hb : b ∈ bs) (hbal : b.al = false) :
    getW h (b.bp - 4) = pack b.size 0 ∧
    getW h (b.bp + b.size - 8) = pack b.size 0 ∧
    getSize (getW h (b.bp - 4)) = b.size ∧
    nextBlkp h b.bp = b.bp + b.size := by
  obtain ⟨hm1, hm2⟩ := hc.bmem b hb
  rw [hbal] at hm1 hm2
  obtain ⟨f1, f2, f3, f4, f5⟩ := core_block_facts h bs fl hc b hb
  have hgs : getSize (getW h (b.bp - 4)) = b.size := by
    show getSize (getW h (b.bp - 4)) = b.size
    have : getW h (b.bp - 4) = pack b.size 0 := hm1
    rw [this, getSize_pack_zero b.size f4 f5]
  refine ⟨hm1, hm2, hgs, ?_⟩
  unfold nextBlkp hdrp
  rw [hgs]

/-- The next-neighbour read when `b` is the last block: the epilogue. -/
theorem PreC_next_nil (h : Heap) (L1 : List Blk) (fl : List Nat) (b : Blk)
    (hc : InvCore h (L1 ++ b :: []) fl) :
    b.bp + b.size = h.hi ∧ getW h (b.bp + b.size - 4) = pack 0 1 := by
  obtain ⟨ht1, ht2, _, _, _, ht6⟩ := tiled_split L1 b [] (h.lo + 44)
    (h.hi - 4) hc.til
  have hend : b.bp - 4 + b.size = h.hi - 4 := ht6
  have hlo := hc.lo8
  have hsep := hc.losep
  obtain ⟨f1, f2, f3, _⟩ := core_block_facts h (L1 ++ b :: []) fl hc b
    (by simp)
  have hbs : b.bp + b.size = h.hi := by omega
  refine ⟨hbs, ?_⟩
  have : b.bp + b.size - 4 = h.hi - 4 := by omega
  rw [this]
  exact hc.epi

/-- The next-neighbour read when a block `ny` follows `b`. -/
theorem PreC_next_cons (h : Heap) (L1 L2 : List Blk) (fl : List Nat)
    (b ny : Blk) (hc : InvCore h (L1 ++ b :: ny :: L2) fl) :
    ny.bp = b.bp + b.size ∧
    getW h (b.bp + b.size - 4) = pack ny.size (abit ny.al) := by
  obtain ⟨ht1, ht2, _, _, _, ht6⟩ := tiled_split L1 b (ny :: L2) (h.lo + 44)
    (h.hi - 4) hc.til
  obtain ⟨hn1, hn2, hn3, hn4⟩ := ht6
  obtain ⟨f1, f2, f3, _⟩ := core_block_facts h (L1 ++ b :: ny :: L2) fl hc b
    (by simp)
  have hny : ny.bp = b.bp + b.size := by omega
  refine ⟨hny, ?_⟩
  have hcell : b.bp + b.size - 4 = ny.bp - 4 := by omega
  rw [hcell]
  exact (hc.bmem ny (by simp)).1

/-- The previous-neighbour read when `b` is the first block: the dead gap
word makes `PREV_BLKP(b) = b`. -/
theorem PreC_prev_nil (h : Heap) (L2 : List Blk) (fl : List Nat) (b : Blk)
    (hc : InvCore h (b :: L2) fl) :
    b.bp = h.lo + 48 ∧ prevBlkp h b.bp = b.bp := by
  obtain ⟨hb1, _, _, _⟩ := hc.til
  have hlo := hc.lo8
  have hbp : b.bp = h.lo + 48 := by omega
  refine ⟨hbp, ?_⟩
  unfold prevBlkp
  have hcell : b.bp - 8 = h.lo + 40 := by omega
  rw [hcell, hc.gap]
  omega

/-- The previous-neighbour read when a block `py` precedes `b`:
`PREV_BLKP(b) = py.bp` and the footer consulted is `py`'s. -/
theorem PreC_prev_concat (h : Heap) (L1 L2 : List Blk) (fl : List Nat)
    (b py : Blk) (hc : InvCore h ((L1 ++ [py]) ++ b :: L2) fl) :
    py.bp + py.size = b.bp ∧ prevBlkp h b.bp = py.bp ∧
    getW h (b.bp - 8) = pack py.size (abit py.al) ∧
    ftrp h (prevBlkp h b.bp) = b.bp - 8 := by
  obtain ⟨ht1, ht2, _, _, _, ht6⟩ := tiled_split (L1 ++ [py]) b L2 (h.lo + 44)
    (h.hi - 4) hc.til
  obtain ⟨hp1, hp2, hp3, hp4, hp5, hp6⟩ := tiled_split L1 py (b :: L2)
    (h.lo + 44) (h.hi - 4) (by simpa using hc.til)
  obtain ⟨hb1, _, _, _⟩ := hp6
  obtain ⟨fy1, fy2, fy3, fy4, fy5⟩ := core_block_facts h
    ((L1 ++ [py]) ++ b :: L2) fl hc py (by simp)
  have hpyb : py.bp + py.size = b.bp := by omega
  have hftr : py.bp + py.size - 8 = b.bp - 8 := by omega
  have hfval : getW h (b.bp - 8) = pack py.size (abit py.al) := by
    rw [← hftr]
    exact (hc.bmem py (by simp)).2
  have hprev : prevBlkp h b.bp = py.bp := by
    unfold prevBlkp
    rw [hfval]
    have : getSize (pack py.size (abit py.al)) = py.size := by
      cases py.al <;> simp [abit] <;>
        [exact getSize_pack_zero py.size fy4 fy5;
         exact getSize_pack_one py.size fy4 fy5]
    rw [this]
    omega
  refine ⟨hpyb, hprev, hfval, ?_⟩
  rw [hprev]
  unfold ftrp hdrp
  have hhd : getW h (py.bp - 4) = pack py.size (abit py.al) :=
    (hc.bmem py (by simp)).1
  rw [hhd]
  have : getSize (pack py.size (abit py.al)) = py.size := by
    cases py.al <;> simp [abit] <;>
      [exact getSize_pack_zero py.size fy4 fy5;
       exact getSize_pack_one py.size fy4 fy5]
  rw [this]
  omega

/-! ## Rebuilding the invariant after `insert_at_front` -/

/-- Inserting the free-tagged, not-yet-listed block `b` at the front of
the free list turns the coalescer precondition into the full invariant. -/
theorem insert_pres (h : Heap) (bs : List Blk) (fl : List Nat) (b : Blk)
    (hpre : PreC h bs fl b) :
    Inv (insertAtFront h b.bp) bs (b.bp :: fl) := by
  obtain ⟨hc, hcoupA, hcoupB, hbin, hbal, hbnfl⟩ := hpre
  have hcoup' : ∀ p ∈ fl, ∃ x ∈ bs, x.bp = p := by
    intro p hp
    obtain ⟨x, hx, hbp, _⟩ := hcoupB p hp
    exact ⟨x, hx, hbp⟩
  obtain ⟨fb1, fb2, fb3, fb4, fb5⟩ := core_block_facts h bs fl hc b hbin
  have hflblk : ∀ y ∈ fl, ∃ z ∈ bs, z.bp = y ∧ z.bp ≠ b.bp := by
    intro y hy
    obtain ⟨z, hz, hzbp, _, hzne⟩ := hcoupB y hy
    exact ⟨z, hz, hzbp, by rw [hzbp]; exact fun he => hbnfl (he ▸ hy)⟩
  have hbpsep : sepCells b.bp (h.lo + 8) := by
    have := hc.lo8
    unfold sepCells
    omega
  have hbpcells : ∀ y ∈ fl, sepCells b.bp y := by
    intro y hy
    obtain ⟨z, hz, hzbp, hzne⟩ := hflblk y hy
    obtain ⟨g1, g2, g3, _⟩ := core_block_facts h bs fl hc z hz
    have hd := tiled_mem_disj bs (h.lo + 44) (h.hi - 4) hc.til b z hbin hz
      (by omega)
    unfold sepCells
    omega
  obtain ⟨s1, s2, s3, s4, s5, s6, s7⟩ := insertAtFront_spec h (h.lo + 8) fl
    b.bp hc.seg (core_linkCellsOk h bs fl hc hcoup') hbpsep hbpcells hc.flp
  -- cells below the first block and the epilogue are untouched
  have hlow : ∀ c, h.lo + 4 ≤ c → c + 4 ≤ h.lo + 48 → c ≠ h.lo + 8 →
      getW (insertAtFront h b.bp) c = getW h c := by
    intro c hc1 hc2 hc3
    refine s3 c (by omega) (by omega) ?_ hc3
    intro y hy
    obtain ⟨z, hz, hzbp, _⟩ := hflblk y hy
    obtain ⟨g1, _, _, _⟩ := core_block_facts h bs fl hc z hz
    omega
  have hlow4 : getW (insertAtFront h b.bp) (h.lo + 4) = getW h (h.lo + 4) :=
    hlow (h.lo + 4) (by omega) (by omega) (by omega)
  have hlow24 : getW (insertAtFront h b.bp) (h.lo + 24) = getW h (h.lo + 24) :=
    hlow (h.lo + 24) (by omega) (by omega) (by omega)
  have hlow40 : getW (insertAtFront h b.bp) (h.lo + 40) = getW h (h.lo + 40) :=
    hlow (h.lo + 40) (by omega) (by omega) (by omega)
  have hepi : getW (insertAtFront h b.bp) (h.hi - 4) = getW h (h.hi - 4) := by
    have hsep := hc.losep
    refine s3 (h.hi - 4) (by omega) (by omega) ?_ ?_
    · intro y hy
      obtain ⟨z, hz, hzbp, _⟩ := hflblk y hy
      obtain ⟨g1, g2, g3, _⟩ := core_block_facts h bs fl hc z hz
      omega
    · have := hc.lo8
      omega
  refine ⟨⟨?_, ?_, ?_, ?_, ?_, ?_, ?_, ?_, ?_, ?_, ?_, ?_, ?_, ?_, ?_, ?_⟩,
    ?_, ?_⟩
  · rw [s7, s4, hc.hlp]
  · rw [s4]; exact hc.lo8
  · rw [s4]; exact hc.lom
  · rw [s5]; exact hc.him
  · rw [s4, s5]; exact hc.losep
  · rw [s5, s6]; exact hc.hil
  · rw [s6]; exact hc.liml
  · rw [s4, hlow4]; exact hc.prohd
  · rw [s4, hlow24]; exact hc.proft
  · rw [s4, hlow40]; exact hc.gap
  · rw [s5, hepi]; exact hc.epi
  · rw [s4, s5]; exact hc.til
  · -- boundary tags survive the three link-cell writes
    intro x hx
    obtain ⟨t1, t2, t3, t4, t5, t6⟩ := tag_link_sep h bs fl hc x b hx hbin
    obtain ⟨hm1, hm2⟩ := hc.bmem x hx
    have hcells : ∀ c, c = x.bp - 4 ∨ c = x.bp + x.size - 8 →
        getW (insertAtFront h b.bp) c = getW h c := by
      intro c hcor
      refine s3 c ?_ ?_ ?_ ?_
      · rcases hcor with rfl | rfl
        · exact t1
        · exact t3
      · rcases hcor with rfl | rfl
        · exact t2
        · exact t4
      · intro y hy
        obtain ⟨z, hz, hzbp, _⟩ := hflblk y hy
        obtain ⟨u1, u2, u3, u4, u5, u6⟩ := tag_link_sep h bs fl hc x z hx hz
        rcases hcor with rfl | rfl
        · rw [← hzbp]; exact u1
        · rw [← hzbp]; exact u3
      · rcases hcor with rfl | rfl
        · exact t5
        · exact t6
    exact ⟨by rw [hcells _ (Or.inl rfl)]; exact hm1,
      by rw [hcells _ (Or.inr rfl)]; exact hm2⟩
  · exact List.Nodup.cons hbnfl hc.nodup
  · rw [s2, List.headD_cons]
  · exact s1
  · -- free blocks are listed
    intro x hx hxal
    rcases hcoupA x hx hxal with he | hin
    · rw [he]; exact List.mem_cons_self _ _
    · exact List.mem_cons_of_mem _ hin
  · -- listed pointers name free blocks
    intro p hp
    rcases List.mem_cons.mp hp with rfl | hin
    · exact ⟨b, hbin, rfl, hbal⟩
    · obtain ⟨x, hx, hbp, hal, _⟩ := hcoupB p hin
      exact ⟨x, hx, hbp, hal⟩

/-! ## The four coalescing cases -/

/-- Case A/A: both physical neighbours allocated (or absent).  The block
is inserted at the free-list head with its extent unchanged. -/
theorem coalesce_AA (h : Heap) (L1 L2 : List Blk) (fl : List Nat) (b : Blk)
    (hpre : PreC h (L1 ++ b :: L2) fl b)
    (hL1 : L1 = [] ∨ ∃ L1' py, L1 = L1' ++ [py] ∧ py.al = true)
    (hL2 : L2 = [] ∨ ∃ ny L2', L2 = ny :: L2' ∧ ny.al = true) :
    coalesce h b.bp = (insertAtFront h b.bp, b.bp) ∧
    Inv (insertAtFront h b.bp) (L1 ++ b :: L2) (b.bp :: fl) := by
  obtain ⟨hc, hcoupA, hcoupB, hbin, hbal, hbnfl⟩ := hpre
  obtain ⟨r1, r2, r3, r4⟩ := PreC_reads h (L1 ++ b :: L2) fl b hc hbin hbal
  have hna : getAlloc (getW h (hdrp (nextBlkp h b.bp))) = 1 := by
    rw [r4]
    show getAlloc (getW h (b.bp + b.size - 4)) = 1
    rcases hL2 with rfl | ⟨ny, L2', rfl, hnyal⟩
    · rw [(PreC_next_nil h L1 fl b hc).2]
      decide
    · rw [(PreC_next_cons h L1 L2' fl b ny hc).2, hnyal]
      obtain ⟨_, _, _, g4, _⟩ := core_block_facts h _ fl hc ny (by simp)
      simpa [abit] using getAlloc_pack_one ny.size g4
  have hna2 : decide (getAlloc (getW h (hdrp (nextBlkp h b.bp))) ≠ 0)
      = true := by
    rw [hna]
    decide
  have hpa : (decide (getAlloc (getW h (ftrp h (prevBlkp h b.bp))) ≠ 0) ||
      decide (prevBlkp h b.bp = b.bp)) = true := by
    rcases hL1 with rfl | ⟨L1', py, rfl, hpyal⟩
    · rw [(PreC_prev_nil h L2 fl b hc).2]
      simp
    · obtain ⟨q1, q2, q3, q4⟩ := PreC_prev_concat h L1' L2 fl b py hc
      rw [q4, q2, q3, hpyal]
      obtain ⟨_, _, _, g4, _⟩ := core_block_facts h _ fl hc py (by simp)
      have := getAlloc_pack_one py.size g4
      simp [abit, this]
  have hbranch : coalesce h b.bp = (insertAtFront h b.bp, b.bp) := by
    simp only [coalesce]
    rw [hpa, hna2]
    norm_num
  exact ⟨hbranch,
    insert_pres h (L1 ++ b :: L2) fl b ⟨hc, hcoupA, hcoupB, hbin, hbal, hbnfl⟩⟩

/-- Unlinking a listed pointer preserves the core heap shape: the tiling,
all boundary tags and the fixed layout words survive `remove_block`, and
the free list drops exactly the removed element. -/
theorem removeBlock_core (h : Heap) (bs : List Blk) (u v : List Nat) (x : Nat)
    (hc : InvCore h bs (u ++ x :: v))
    (hcoup : ∀ p ∈ u ++ x :: v, ∃ z ∈ bs, z.bp = p) :
    InvCore (removeBlock h x) bs (u ++ v) := by
  obtain ⟨s1, s2, s3, s4, s5, s6, s7⟩ := removeBlock_spec h (h.lo + 8) u v x
    hc.seg (core_linkCellsOk h bs _ hc hcoup) hc.flp
  have hlo := hc.lo8
  have hsep := hc.losep
  have hlow : ∀ c, c + 8 ≤ h.lo + 48 → c ≠ h.lo + 8 →
      getW (removeBlock h x) c = getW h c := by
    intro c hc2 hc3
    refine s3 c ?_ hc3
    intro y hy
    obtain ⟨z, hz, hzbp⟩ := hcoup y hy
    subst hzbp
    obtain ⟨g1, g2, g3, _⟩ := core_block_facts h bs _ hc z hz
    constructor <;> omega
  have hepi : getW (removeBlock h x) (h.hi - 4) = getW h (h.hi - 4) := by
    refine s3 (h.hi - 4) ?_ (by omega)
    intro y hy
    obtain ⟨z, hz, hzbp⟩ := hcoup y hy
    subst hzbp
    obtain ⟨g1, g2, g3, _⟩ := core_block_facts h bs _ hc z hz
    constructor <;> omega
  refine ⟨?_, ?_, ?_, ?_, ?_, ?_, ?_, ?_, ?_, ?_, ?_, ?_, ?_, ?_, ?_, ?_⟩
  · rw [s7, s4]; exact hc.hlp
  · rw [s4]; exact hc.lo8
  · rw [s4]; exact hc.lom
  · rw [s5]; exact hc.him
  · rw [s4, s5]; exact hc.losep
  · rw [s5, s6]; exact hc.hil
  · rw [s6]; exact hc.liml
  · rw [s4, hlow (h.lo + 4) (by omega) (by omega)]; exact hc.prohd
  · rw [s4, hlow (h.lo + 24) (by omega) (by omega)]; exact hc.proft
  · rw [s4, hlow (h.lo + 40) (by omega) (by omega)]; exact hc.gap
  · rw [s5, hepi]; exact hc.epi
  · rw [s4, s5]; exact hc.til
  · intro w hw
    obtain ⟨hm1, hm2⟩ := hc.bmem w hw
    have hcc : ∀ c, c = w.bp - 4 ∨ c = w.bp + w.size - 8 →
        getW (removeBlock h x) c = getW h c := by
      intro c hcor
      refine s3 c ?_ ?_
      · intro y hy
        obtain ⟨z, hz, hzbp⟩ := hcoup y hy
        subst hzbp
        obtain ⟨t1, t2, t3, t4, t5, t6⟩ := tag_link_sep h bs _ hc w z hw hz
        rcases hcor with rfl | rfl
        · exact ⟨t1, t2⟩
        · exact ⟨t3, t4⟩
      · obtain ⟨t1, t2, t3, t4, t5, t6⟩ := tag_link_sep h bs _ hc w w hw hw
        rcases hcor with rfl | rfl
        · exact t5
        · exact t6
    exact ⟨by rw [hcc _ (Or.inl rfl)]; exact hm1,
      by rw [hcc _ (Or.inr rfl)]; exact hm2⟩
  · exact hc.nodup.sublist
      (List.Sublist.append_left (List.sublist_cons_self x v) u)
  · rw [s2, s4]
  · rw [s4]; exact s1

/-- Stamping a merged free block's header and footer over the extent of
the consumed blocks `mid` re-establishes the coalescer precondition, with
the merged block `nb` in place of `mid`. -/
theorem merge_tags (h1 : Heap) (L1 mid L2 : List Blk) (fl2 : List Nat)
    (nb : Blk)
    (hc1 : InvCore h1 (L1 ++ (mid ++ L2)) fl2)
    (hal : nb.al = false)
    (hsz8 : nb.size % 8 = 0) (hsz24 : 24 ≤ nb.size)
    (ht1 : tiled L1 (h1.lo + 44) (nb.bp - 4))
    (ht2 : tiled L2 (nb.bp - 4 + nb.size) (h1.hi - 4))
    (hbp4 : h1.lo + 44 ≤ nb.bp - 4)
    (hcoupA2 : ∀ x : Blk, x ∈ L1 ∨ x ∈ L2 → x.al = false → x.bp ∈ fl2)
    (hcoupB2 : ∀ p ∈ fl2, ∃ x, (x ∈ L1 ∨ x ∈ L2) ∧ x.bp = p ∧
       x.al = false ∧ p ≠ nb.bp) :
    PreC (putW (putW h1 (nb.bp - 4) (pack nb.size 0))
           (nb.bp + nb.size - 8) (pack nb.size 0)) (L1 ++ nb :: L2) fl2 nb := by
  have hlo := hc1.lo8
  have hsep := hc1.losep
  have til2 : tiled (L1 ++ nb :: L2) (h1.lo + 44) (h1.hi - 4) := by
    refine tiled_append L1 (nb :: L2) _ (nb.bp - 4) _ ht1
      ⟨by omega, hsz24, hsz8, ht2⟩
  have hend : nb.bp - 4 + nb.size ≤ h1.hi - 4 := tiled_le _ _ _ ht2
  have hszlt : nb.size < MOD32 := by
    have h1' := hc1.hil
    have h2' := hc1.liml
    unfold MOD32 at *
    omega
  -- a write at either tag cell misses every other block's cells
  have hxdisj : ∀ x : Blk, x ∈ L1 ∨ x ∈ L2 →
      x.bp + x.size ≤ nb.bp ∨ nb.bp + nb.size ≤ x.bp := by
    intro x hx
    rcases hx with hx | hx
    · obtain ⟨u1, u2, u3, u4⟩ := tiled_bounds L1 _ _ ht1 x hx
      left
      omega
    · obtain ⟨u1, u2, u3, u4⟩ := tiled_bounds L2 _ _ ht2 x hx
      right
      omega
  have hxfacts : ∀ x : Blk, x ∈ L1 ∨ x ∈ L2 →
      h1.lo + 48 ≤ x.bp ∧ x.bp + x.size ≤ h1.hi ∧ 24 ≤ x.size ∧
      x.size % 8 = 0 := by
    intro x hx
    have hxin : x ∈ L1 ++ nb :: L2 := by
      rcases hx with hx | hx
      · exact List.mem_append_left _ hx
      · exact List.mem_append_right _ (List.mem_cons_of_mem _ hx)
    obtain ⟨u1, u2, u3, u4⟩ := tiled_bounds _ _ _ til2 x hxin
    exact ⟨by omega, by omega, u3, u4⟩
  have hframe : ∀ c, (c < nb.bp - 4 ∨ nb.bp - 4 + nb.size ≤ c) →
      getW (putW (putW h1 (nb.bp - 4) (pack nb.size 0))
        (nb.bp + nb.size - 8) (pack nb.size 0)) c = getW h1 c := by
    intro c hor
    have d1 : c ≠ nb.bp + nb.size - 8 := by omega
    have d2 : c ≠ nb.bp - 4 := by omega
    rw [getW_putW_ne _ _ _ _ d1, getW_putW_ne _ _ _ _ d2]
  refine ⟨⟨?_, ?_, ?_, ?_, ?_, ?_, ?_, ?_, ?_, ?_, ?_, ?_, ?_, ?_, ?_, ?_⟩,
    ?_, ?_, ?_, ?_, ?_⟩
  · simp only [putW_heapListp, putW_lo]; exact hc1.hlp
  · simp only [putW_lo]; exact hc1.lo8
  · simp only [putW_lo]; exact hc1.lom
  · simp only [putW_hi]; exact hc1.him
  · simp only [putW_lo, putW_hi]; exact hc1.losep
  · simp only [putW_hi, putW_limit]; exact hc1.hil
  · simp only [putW_limit]; exact hc1.liml
  · simp only [putW_lo]
    rw [hframe (h1.lo + 4) (by omega)]
    exact hc1.prohd
  · simp only [putW_lo]
    rw [hframe (h1.lo + 24) (by omega)]
    exact hc1.proft
  · simp only [putW_lo]
    rw [hframe (h1.lo + 40) (by omega)]
    exact hc1.gap
  · simp only [putW_hi]
    rw [hframe (h1.hi - 4) (by omega)]
    exact hc1.epi
  · simp only [putW_lo, putW_hi]
    exact til2
  · -- boundary tags
    intro x hx
    rcases List.mem_append.mp hx with hx1 | hx2
    · obtain ⟨m1, m2⟩ := hc1.bmem x (by simp [hx1])
      obtain ⟨u1, u2, u3, u4⟩ := tiled_bounds L1 _ _ ht1 x hx1
      exact ⟨by rw [hframe (x.bp - 4) (by omega)]; exact m1,
        by rw [hframe (x.bp + x.size - 8) (by omega)]; exact m2⟩
    · rcases List.mem_cons.mp hx2 with rfl | hx3
      · refine ⟨?_, ?_⟩
        · have d3 : x.bp - 4 ≠ x.bp + x.size - 8 := by omega
          rw [getW_putW_ne _ _ _ _ d3, getW_putW_eq, hal]
          simp [abit]
        · rw [getW_putW_eq, hal]
          simp [abit]
      · obtain ⟨m1, m2⟩ := hc1.bmem x (by simp [hx3])
        obtain ⟨u1, u2, u3, u4⟩ := tiled_bounds L2 _ _ ht2 x hx3
        exact ⟨by rw [hframe (x.bp - 4) (by omega)]; exact m1,
          by rw [hframe (x.bp + x.size - 8) (by omega)]; exact m2⟩
  · exact hc1.nodup
  · simp only [putW_freeListp, putW_lo]; exact hc1.flp
  · -- the free-list chain survives the two tag writes
    simp only [putW_lo]
    have hfr : ∀ c, c = nb.bp - 4 ∨ c = nb.bp + nb.size - 8 →
        ∀ y ∈ fl2, c ≠ y ∧ c ≠ y + 8 := by
      intro c hor y hy
      obtain ⟨z, hz, hzbp, _, _⟩ := hcoupB2 y hy
      obtain ⟨w1, w2, w3, w4⟩ := hxfacts z hz
      have hd := hxdisj z hz
      rcases hd with hd | hd <;> rcases hor with rfl | rfl <;>
        rw [← hzbp] <;> constructor <;> omega
    rw [flSeg_frame fl2 _ _ _ _ 0 (hfr _ (Or.inr rfl)),
      flSeg_frame fl2 _ _ _ _ 0 (hfr _ (Or.inl rfl))]
    exact hc1.seg
  · -- free blocks are listed (except the merged one)
    intro x hx hxal
    rcases List.mem_append.mp hx with hx1 | hx2
    · exact Or.inr (hcoupA2 x (Or.inl hx1) hxal)
    · rcases List.mem_cons.mp hx2 with rfl | hx3
      · exact Or.inl rfl
      · exact Or.inr (hcoupA2 x (Or.inr hx3) hxal)
  · -- listed pointers name free blocks other than the merged one
    intro p hp
    obtain ⟨x, hx, hbp, hxal, hne⟩ := hcoupB2 p hp
    refine ⟨x, ?_, hbp, hxal, hne⟩
    rcases hx with hx | hx
    · exact List.mem_append_left _ hx
    · exact List.mem_append_right _ (List.mem_cons_of_mem _ hx)
  · exact List.mem_append_right _ (List.mem_cons_self _ _)
  · exact hal
  · intro hin
    obtain ⟨x, hx, hbp, hxal, hne⟩ := hcoupB2 nb.bp hin
    exact hne rfl

/-- Case A/F: previous neighbour allocated (or absent), next neighbour
free.  The next block is unlinked and absorbed; the grown block keeps
`b`'s pointer and lands at the free-list head. -/
theorem coalesce_AF (h : Heap) (L1 L2 : List Blk) (u v : List Nat)
    (b ny : Blk)
    (hpre : PreC h (L1 ++ b :: ny :: L2) (u ++ ny.bp :: v) b)
    (hL1 : L1 = [] ∨ ∃ L1' py, L1 = L1' ++ [py] ∧ py.al = true)
    (hnyal : ny.al = false) :
    ∃ h2, coalesce h b.bp = (h2, b.bp) ∧
      Inv h2 (L1 ++ ⟨b.bp, b.size + ny.size, false⟩ :: L2)
        (b.bp :: (u ++ v)) := by
  obtain ⟨hc, hcoupA, hcoupB, hbin, hbal, hbnfl⟩ := hpre
  obtain ⟨r1, r2, r3, r4⟩ := PreC_reads h (L1 ++ b :: ny :: L2)
    (u ++ ny.bp :: v) b hc hbin hbal
  obtain ⟨hnybp, hnyhdr⟩ := PreC_next_cons h L1 L2 (u ++ ny.bp :: v) b ny hc
  obtain ⟨fb1, fb2, fb3, fb4, fb5⟩ := core_block_facts h _ _ hc b hbin
  obtain ⟨fn1, fn2, fn3, fn4, fn5⟩ := core_block_facts h _ _ hc ny (by simp)
  have hlo := hc.lo8
  -- the branch conditions: previous allocated (or escape hatch), next free
  have hnext0 : getAlloc (getW h (hdrp (nextBlkp h b.bp))) = 0 := by
    rw [r4]
    show getAlloc (getW h (b.bp + b.size - 4)) = 0
    rw [hnyhdr, hnyal]
    simpa [abit] using getAlloc_pack_zero ny.size fn4
  have hna2 : decide (getAlloc (getW h (hdrp (nextBlkp h b.bp))) ≠ 0)
      = false := by
    rw [hnext0]
    decide
  have hpa : (decide (getAlloc (getW h (ftrp h (prevBlkp h b.bp))) ≠ 0) ||
      decide (prevBlkp h b.bp = b.bp)) = true := by
    rcases hL1 with rfl | ⟨L1', py, rfl, hpyal⟩
    · rw [(PreC_prev_nil h (ny :: L2) (u ++ ny.bp :: v) b hc).2]
      simp
    · obtain ⟨q1, q2, q3, q4⟩ := PreC_prev_concat h L1' (ny :: L2)
        (u ++ ny.bp :: v) b py hc
      rw [q4, q2, q3, hpyal]
      obtain ⟨_, _, _, g4, _⟩ := core_block_facts h _ _ hc py (by simp)
      have := getAlloc_pack_one py.size g4
      simp [abit, this]
  -- the merged size as read by the code
  have hsize2 : add32 (getSize (getW h (hdrp b.bp)))
      (getSize (getW h (hdrp (nextBlkp h b.bp)))) = b.size + ny.size := by
    have e1 : getSize (getW h (hdrp b.bp)) = b.size := r3
    have e2 : getSize (getW h (hdrp (nextBlkp h b.bp))) = ny.size := by
      rw [r4]
      show getSize (getW h (b.bp + b.size - 4)) = ny.size
      rw [hnyhdr, hnyal]
      simpa [abit] using getSize_pack_zero ny.size fn4 fn5
    rw [e1, e2]
    exact add32_of_lt b.size ny.size (by
      have := hc.hil
      have := hc.liml
      unfold MOD32 at *
      omega)
  have hnb1 : removeBlock h (nextBlkp h b.bp) = removeBlock h ny.bp := by
    rw [r4, hnybp]
  -- unlink the next block
  obtain ⟨s1, s2, s3, s4, s5, s6, s7⟩ := removeBlock_spec h (h.lo + 8) u v
    ny.bp hc.seg
    (core_linkCellsOk h _ _ hc (fun p hp => by
      obtain ⟨z, hz, hzbp, _⟩ := hcoupB p hp
      exact ⟨z, hz, hzbp⟩))
    hc.flp
  have hcore1 : InvCore (removeBlock h ny.bp) (L1 ++ b :: ny :: L2)
      (u ++ v) :=
    removeBlock_core h (L1 ++ b :: ny :: L2) u v ny.bp hc (fun p hp => by
      obtain ⟨z, hz, hzbp, _⟩ := hcoupB p hp
      exact ⟨z, hz, hzbp⟩)
  -- block-list shape facts
  obtain ⟨ht1, htb2, htb3, htb4, htb5, ht6⟩ := tiled_split L1 b (ny :: L2)
    (h.lo + 44) (h.hi - 4) hc.til
  obtain ⟨hn1, hn2, hn3, hn4⟩ := ht6
  have hnodupfl := hc.nodup
  have hnymem : ny.bp ∉ u ++ v := by
    intro hmem
    have := List.nodup_middle.mp hnodupfl
    exact (List.nodup_cons.mp this).1 hmem
  -- the merged block's tag stamping re-establishes the precondition
  have hpre3 := merge_tags (removeBlock h ny.bp) L1 [b, ny] L2 (u ++ v)
    ⟨b.bp, b.size + ny.size, false⟩ hcore1 rfl
    (by show (b.size + ny.size) % 8 = 0; omega)
    (by show 24 ≤ b.size + ny.size; omega)
    (by rw [s4]; exact ht1)
    (by
      rw [s5]
      show tiled L2 (b.bp - 4 + (b.size + ny.size)) (h.hi - 4)
      have he : b.bp - 4 + (b.size + ny.size) = b.bp - 4 + b.size + ny.size :=
        by omega
      rw [he]
      exact hn4)
    (by rw [s4]; show h.lo + 44 ≤ b.bp - 4; omega)
    (by
      intro x hx hxal
      have hxfl : x.bp ∈ u ++ ny.bp :: v := by
        have hxbs : x ∈ L1 ++ b :: ny :: L2 := by
          rcases hx with hx | hx
          · exact List.mem_append_left _ hx
          · exact List.mem_append_right _
              (List.mem_cons_of_mem _ (List.mem_cons_of_mem _ hx))
        rcases hcoupA x hxbs hxal with he | hin
        · exfalso
          rcases hx with hx | hx
          · obtain ⟨w1, w2, w3, w4⟩ := tiled_bounds L1 _ _ ht1 x hx
            omega
          · obtain ⟨w1, w2, w3, w4⟩ := tiled_bounds L2 _ _ hn4 x hx
            omega
        · exact hin
      have hxne : x.bp ≠ ny.bp := by
        rcases hx with hx | hx
        · obtain ⟨w1, w2, w3, w4⟩ := tiled_bounds L1 _ _ ht1 x hx
          omega
        · obtain ⟨w1, w2, w3, w4⟩ := tiled_bounds L2 _ _ hn4 x hx
          omega
      rcases List.mem_append.mp hxfl with hu | hcv
      · exact List.mem_append_left _ hu
      · rcases List.mem_cons.mp hcv with he | hv
        · exact absurd he hxne
        · exact List.mem_append_right _ hv)
    (by
      intro p hp
      have hpfl : p ∈ u ++ ny.bp :: v := by
        rcases List.mem_append.mp hp with hu | hv
        · exact List.mem_append_left _ hu
        · exact List.mem_append_right _ (List.mem_cons_of_mem _ hv)
      have hpny : p ≠ ny.bp := fun he => hnymem (he ▸ hp)
      obtain ⟨z, hz, hzbp, hzal, hzne⟩ := hcoupB p hpfl
      rcases List.mem_append.mp hz with hz1 | hz2
      · exact ⟨z, Or.inl hz1, hzbp, hzal, hzne⟩
      · rcases List.mem_cons.mp hz2 with rfl | hz3
        · exact absurd hzbp (Ne.symm hzne)
        · rcases List.mem_cons.mp hz3 with rfl | hz4
          · exact absurd hzbp (Ne.symm hpny)
          · exact ⟨z, Or.inr hz4, hzbp, hzal, hzne⟩)
  have hinv := insert_pres _ _ _ _ hpre3
  refine ⟨_, ?_, hinv⟩
  -- the code takes the next-free branch and produces exactly this state
  simp only [coalesce]
  rw [hpa, hna2]
  norm_num
  rw [hsize2, hnb1]
  have hftr : ftrp (putW (removeBlock h ny.bp) (hdrp b.bp)
      (pack (b.size + ny.size) 0)) b.bp = b.bp + (b.size + ny.size) - 8 := by
    unfold ftrp hdrp
    rw [getW_putW_eq, getSize_pack_zero (b.size + ny.size) (by omega) (by
      have := hc.hil
      have := hc.liml
      unfold MOD32 at *
      omega)]
  rw [hftr]
  rfl

/-- Case F/A: previous neighbour free, next neighbour allocated (or
absent).  The previous block is unlinked, absorbs `b`, and the coalesced
block — now headed by the previous block's pointer — lands at the
free-list head. -/
theorem coalesce_FA (h : Heap) (L1 L2 : List Blk) (u v : List Nat)
    (b py : Blk)
    (hpre : PreC h ((L1 ++ [py]) ++ b :: L2) (u ++ py.bp :: v) b)
    (hpyal : py.al = false)
    (hL2 : L2 = [] ∨ ∃ ny L2', L2 = ny :: L2' ∧ ny.al = true) :
    ∃ h2, coalesce h b.bp = (h2, py.bp) ∧
      Inv h2 (L1 ++ ⟨py.bp, py.size + b.size, false⟩ :: L2)
        (py.bp :: (u ++ v)) := by
  obtain ⟨hc, hcoupA, hcoupB, hbin, hbal, hbnfl⟩ := hpre
  obtain ⟨r1, r2, r3, r4⟩ := PreC_reads h ((L1 ++ [py]) ++ b :: L2)
    (u ++ py.bp :: v) b hc hbin hbal
  obtain ⟨q1, q2, q3, q4⟩ := PreC_prev_concat h L1 L2 (u ++ py.bp :: v)
    b py hc
  obtain ⟨fb1, fb2, fb3, fb4, fb5⟩ := core_block_facts h _ _ hc b hbin
  obtain ⟨fp1, fp2, fp3, fp4, fp5⟩ := core_block_facts h _ _ hc py (by simp)
  have hlo := hc.lo8
  -- branch conditions: previous free (no escape hatch), next allocated
  have hpa2 : (decide (getAlloc (getW h (ftrp h (prevBlkp h b.bp))) ≠ 0) ||
      decide (prevBlkp h b.bp = b.bp)) = false := by
    have e0 : getAlloc (getW h (ftrp h (prevBlkp h b.bp))) = 0 := by
      rw [q4, q3, hpyal]
      simpa [abit] using getAlloc_pack_zero py.size fp4
    have ene : prevBlkp h b.bp ≠ b.bp := by
      rw [q2]
      omega
    rw [e0]
    simp [ene]
  have hna : getAlloc (getW h (hdrp (nextBlkp h b.bp))) = 1 := by
    rw [r4]
    show getAlloc (getW h (b.bp + b.size - 4)) = 1
    rcases hL2 with rfl | ⟨ny, L2', rfl, hnyal⟩
    · rw [(PreC_next_nil h (L1 ++ [py]) (u ++ py.bp :: v) b hc).2]
      decide
    · rw [(PreC_next_cons h (L1 ++ [py]) L2' (u ++ py.bp :: v) b ny hc).2,
        hnyal]
      obtain ⟨_, _, _, g4, _⟩ := core_block_facts h _ _ hc ny (by simp)
      simpa [abit] using getAlloc_pack_one ny.size g4
  have hna2 : decide (getAlloc (getW h (hdrp (nextBlkp h b.bp))) ≠ 0)
      = true := by
    rw [hna]
    decide
  -- the merged size as read by the code
  have hszlt : py.size + b.size < MOD32 := by
    have := hc.hil
    have := hc.liml
    unfold MOD32 at *
    omega
  have hsize2 : add32 (getSize (getW h (hdrp b.bp)))
      (getSize (getW h (hdrp (prevBlkp h b.bp)))) = py.size + b.size := by
    have e1 : getSize (getW h (hdrp b.bp)) = b.size := r3
    have e2 : getSize (getW h (hdrp (prevBlkp h b.bp))) = py.size := by
      rw [q2]
      show getSize (getW h (py.bp - 4)) = py.size
      have hm1 := (hc.bmem py (by simp)).1
      rw [hm1, hpyal]
      simpa [abit] using getSize_pack_zero py.size fp4 fp5
    rw [e1, e2, add32_of_lt b.size py.size (by omega)]
    omega
  have hcore0 : InvCore (removeBlock h py.bp) ((L1 ++ [py]) ++ b :: L2)
      (u ++ v) :=
    removeBlock_core h ((L1 ++ [py]) ++ b :: L2) u v py.bp hc (fun p hp => by
      obtain ⟨z, hz, hzbp, _⟩ := hcoupB p hp
      exact ⟨z, hz, hzbp⟩)
  have hcore1 : InvCore (removeBlock h py.bp) (L1 ++ ([py, b] ++ L2))
      (u ++ v) := by
    simpa using hcore0
  -- block-list shape facts
  obtain ⟨hs1, hs2, hs3, hs4, hs5, hs6⟩ := tiled_split (L1 ++ [py]) b L2
    (h.lo + 44) (h.hi - 4) hc.til
  obtain ⟨hp1, hp2, hp3, hp4, hp5, hp6⟩ := tiled_split L1 py (b :: L2)
    (h.lo + 44) (h.hi - 4) (by simpa using hc.til)
  have hnodupfl := hc.nodup
  have hpymem : py.bp ∉ u ++ v := by
    intro hmem
    have := List.nodup_middle.mp hnodupfl
    exact (List.nodup_cons.mp this).1 hmem
  -- the merged block's tag stamping re-establishes the precondition
  have hpre3 := merge_tags (removeBlock h py.bp) L1 [py, b] L2 (u ++ v)
    ⟨py.bp, py.size + b.size, false⟩ hcore1 rfl
    (by show (py.size + b.size) % 8 = 0; omega)
    (by show 24 ≤ py.size + b.size; omega)
    (by
      rw [removeBlock_lo]
      exact hp1)
    (by
      rw [removeBlock_hi]
      show tiled L2 (py.bp - 4 + (py.size + b.size)) (h.hi - 4)
      have he : py.bp - 4 + (py.size + b.size) = b.bp - 4 + b.size := by
        omega
      rw [he]
      exact hs6)
    (by rw [removeBlock_lo]; show h.lo + 44 ≤ py.bp - 4; omega)
    (by
      intro x hx hxal
      have hxfl : x.bp ∈ u ++ py.bp :: v := by
        have hxbs : x ∈ (L1 ++ [py]) ++ b :: L2 := by
          rcases hx with hx | hx
          · exact List.mem_append_left _ (List.mem_append_left _ hx)
          · exact List.mem_append_right _ (List.mem_cons_of_mem _ hx)
        rcases hcoupA x hxbs hxal with he | hin
        · exfalso
          rcases hx with hx | hx
          · obtain ⟨w1, w2, w3, w4⟩ := tiled_bounds L1 _ _ hp1 x hx
            omega
          · obtain ⟨w1, w2, w3, w4⟩ := tiled_bounds L2 _ _ hs6 x hx
            omega
        · exact hin
      have hxne : x.bp ≠ py.bp := by
        rcases hx with hx | hx
        · obtain ⟨w1, w2, w3, w4⟩ := tiled_bounds L1 _ _ hp1 x hx
          omega
        · obtain ⟨w1, w2, w3, w4⟩ := tiled_bounds L2 _ _ hs6 x hx
          omega
      rcases List.mem_append.mp hxfl with hu | hcv
      · exact List.mem_append_left _ hu
      · rcases List.mem_cons.mp hcv with he | hv
        · exact absurd he hxne
        · exact List.mem_append_right _ hv)
    (by
      intro p hp
      have hpfl : p ∈ u ++ py.bp :: v := by
        rcases List.mem_append.mp hp with hu | hv
        · exact List.mem_append_left _ hu
        · exact List.mem_append_right _ (List.mem_cons_of_mem _ hv)
      have hppy : p ≠ py.bp := fun he => hpymem (he ▸ hp)
      obtain ⟨z, hz, hzbp, hzal, hzne⟩ := hcoupB p hpfl
      rcases List.mem_append.mp hz with hz1 | hz2
      · rcases List.mem_append.mp hz1 with hz1a | hz1b
        · exact ⟨z, Or.inl hz1a, hzbp, hzal, hppy⟩
        · rcases List.mem_singleton.mp hz1b with rfl
          exact absurd hzbp (Ne.symm hppy)
      · rcases List.mem_cons.mp hz2 with rfl | hz3
        · exact absurd hzbp (Ne.symm hzne)
        · exact ⟨z, Or.inr hz3, hzbp, hzal, hppy⟩)
  have hinv := insert_pres _ _ _ _ hpre3
  refine ⟨_, ?_, hinv⟩
  -- the code takes the prev-free branch and produces exactly this state
  simp only [coalesce]
  rw [hpa2, hna2]
  norm_num
  rw [hsize2, q2]
  have hftr : ftrp (putW (removeBlock h py.bp) (hdrp py.bp)
      (pack (py.size + b.size) 0)) py.bp
      = py.bp + (py.size + b.size) - 8 := by
    unfold ftrp hdrp
    rw [getW_putW_eq, getSize_pack_zero (py.size + b.size) (by omega)
      (by omega)]
  rw [hftr]
  exact ⟨rfl, rfl⟩

/-- Case F/F: both physical neighbours free.  Both are unlinked and the
previous block absorbs all three extents; the coalesced block lands at
the free-list head.  The free list is given as `u ++ py.bp :: v` with the
second split `u ++ v = u2 ++ ny.bp :: v2` locating the next block's
pointer after the first removal. -/
theorem coalesce_FF (h : Heap) (L1 L2 : List Blk) (u v u2 v2 : List Nat)
    (b py ny : Blk)
    (hpre : PreC h ((L1 ++ [py]) ++ b :: ny :: L2) (u ++ py.bp :: v) b)
    (hpyal : py.al = false) (hnyal : ny.al = false)
    (hw : u ++ v = u2 ++ ny.bp :: v2) :
    ∃ h2, coalesce h b.bp = (h2, py.bp) ∧
      Inv h2 (L1 ++ ⟨py.bp, py.size + b.size + ny.size, false⟩ :: L2)
        (py.bp :: (u2 ++ v2)) := by
  obtain ⟨hc, hcoupA, hcoupB, hbin, hbal, hbnfl⟩ := hpre
  obtain ⟨r1, r2, r3, r4⟩ := PreC_reads h ((L1 ++ [py]) ++ b :: ny :: L2)
    (u ++ py.bp :: v) b hc hbin hbal
  obtain ⟨q1, q2, q3, q4⟩ := PreC_prev_concat h L1 (ny :: L2)
    (u ++ py.bp :: v) b py hc
  obtain ⟨hnybp, hnyhdr⟩ := PreC_next_cons h (L1 ++ [py]) L2
    (u ++ py.bp :: v) b ny hc
  obtain ⟨fb1, fb2, fb3, fb4, fb5⟩ := core_block_facts h _ _ hc b hbin
  obtain ⟨fp1, fp2, fp3, fp4, fp5⟩ := core_block_facts h _ _ hc py (by simp)
  obtain ⟨fn1, fn2, fn3, fn4, fn5⟩ := core_block_facts h _ _ hc ny (by simp)
  have hlo := hc.lo8
  -- branch conditions: both neighbours free
  have hpa2 : (decide (getAlloc (getW h (ftrp h (prevBlkp h b.bp))) ≠ 0) ||
      decide (prevBlkp h b.bp = b.bp)) = false := by
    have e0 : getAlloc (getW h (ftrp h (prevBlkp h b.bp))) = 0 := by
      rw [q4, q3, hpyal]
      simpa [abit] using getAlloc_pack_zero py.size fp4
    have ene : prevBlkp h b.bp ≠ b.bp := by
      rw [q2]
      omega
    rw [e0]
    simp [ene]
  have hnext0 : getAlloc (getW h (hdrp (nextBlkp h b.bp))) = 0 := by
    rw [r4]
    show getAlloc (getW h (b.bp + b.size - 4)) = 0
    rw [hnyhdr, hnyal]
    simpa [abit] using getAlloc_pack_zero ny.size fn4
  have hna2 : decide (getAlloc (getW h (hdrp (nextBlkp h b.bp))) ≠ 0)
      = false := by
    rw [hnext0]
    decide
  -- the merged size as read by the code
  have hszlt : py.size + b.size + ny.size < MOD32 := by
    have := hc.hil
    have := hc.liml
    unfold MOD32 at *
    omega
  have hsize2 : add32 (getSize (getW h (hdrp b.bp)))
      (add32 (getSize (getW h (hdrp (prevBlkp h b.bp))))
        (getSize (getW h (hdrp (nextBlkp h b.bp)))))
      = py.size + b.size + ny.size := by
    have e1 : getSize (getW h (hdrp b.bp)) = b.size := r3
    have e2 : getSize (getW h (hdrp (prevBlkp h b.bp))) = py.size := by
      rw [q2]
      show getSize (getW h (py.bp - 4)) = py.size
      have hm1 := (hc.bmem py (by simp)).1
      rw [hm1, hpyal]
      simpa [abit] using getSize_pack_zero py.size fp4 fp5
    have e3 : getSize (getW h (hdrp (nextBlkp h b.bp))) = ny.size := by
      rw [r4]
      show getSize (getW h (b.bp + b.size - 4)) = ny.size
      rw [hnyhdr, hnyal]
      simpa [abit] using getSize_pack_zero ny.size fn4 fn5
    rw [e1, e2, e3, add32_of_lt py.size ny.size (by omega),
      add32_of_lt b.size (py.size + ny.size) (by omega)]
    omega
  -- first unlink: the previous block
  have hcore1 : InvCore (removeBlock h py.bp) ((L1 ++ [py]) ++ b :: ny :: L2)
      (u ++ v) :=
    removeBlock_core h ((L1 ++ [py]) ++ b :: ny :: L2) u v py.bp hc
      (fun p hp => by
        obtain ⟨z, hz, hzbp, _⟩ := hcoupB p hp
        exact ⟨z, hz, hzbp⟩)
  -- the second removal target: the next block's pointer
  have hnext1 : nextBlkp (removeBlock h py.bp) b.bp = ny.bp := by
    unfold nextBlkp hdrp
    have hm := (hcore1.bmem b hbin).1
    rw [hm, hbal]
    have hg : getSize (pack b.size (abit false)) = b.size := by
      simpa [abit] using getSize_pack_zero b.size fb4 fb5
    rw [hg]
    omega
  -- nodup bookkeeping for the two splits
  have hnodupfl := hc.nodup
  have hpynotin : py.bp ∉ u ++ v := by
    intro hmem
    have := List.nodup_middle.mp hnodupfl
    exact (List.nodup_cons.mp this).1 hmem
  have huvnodup : (u2 ++ ny.bp :: v2).Nodup := by
    rw [← hw]
    exact (List.nodup_cons.mp (List.nodup_middle.mp hnodupfl)).2
  have hnynotin : ny.bp ∉ u2 ++ v2 := by
    intro hmem
    have := List.nodup_middle.mp huvnodup
    exact (List.nodup_cons.mp this).1 hmem
  have hsub2 : ∀ p ∈ u2 ++ v2, p ∈ u ++ v := by
    intro p hp
    rw [hw]
    rcases List.mem_append.mp hp with hu | hv
    · exact List.mem_append_left _ hu
    · exact List.mem_append_right _ (List.mem_cons_of_mem _ hv)
  have hfl_of_uv : ∀ p ∈ u ++ v, p ∈ u ++ py.bp :: v := by
    intro p hp
    rcases List.mem_append.mp hp with hu | hv
    · exact List.mem_append_left _ hu
    · exact List.mem_append_right _ (List.mem_cons_of_mem _ hv)
  have hpynotin2 : py.bp ∉ u2 ++ v2 := fun hmem =>
    hpynotin (hsub2 py.bp hmem)
  -- second unlink: the next block
  have hcore1' : InvCore (removeBlock h py.bp) ((L1 ++ [py]) ++ b :: ny :: L2)
      (u2 ++ ny.bp :: v2) := by
    rw [← hw]
    exact hcore1
  have hcore2 : InvCore (removeBlock (removeBlock h py.bp) ny.bp)
      ((L1 ++ [py]) ++ b :: ny :: L2) (u2 ++ v2) :=
    removeBlock_core (removeBlock h py.bp) _ u2 v2 ny.bp hcore1'
      (fun p hp => by
        obtain ⟨z, hz, hzbp, _⟩ := hcoupB p (hfl_of_uv p (hw ▸ hp))
        exact ⟨z, hz, hzbp⟩)
  -- after both unlinks the previous-block pointer still reads back
  have hprev2 : prevBlkp (removeBlock (removeBlock h py.bp) ny.bp) b.bp
      = py.bp := by
    unfold prevBlkp
    have hm := (hcore2.bmem py (by simp)).2
    have he : py.bp + py.size - 8 = b.bp - 8 := by omega
    rw [he] at hm
    rw [hm, hpyal]
    have hg : getSize (pack py.size (abit false)) = py.size := by
      simpa [abit] using getSize_pack_zero py.size fp4 fp5
    rw [hg]
    omega
  -- block-list shape facts
  obtain ⟨hs1, hs2, hs3, hs4, hs5, hs6⟩ := tiled_split (L1 ++ [py]) b
    (ny :: L2) (h.lo + 44) (h.hi - 4) hc.til
  obtain ⟨hn1, hn2, hn3, hn4⟩ := hs6
  obtain ⟨hp1, hp2, hp3, hp4, hp5, hp6⟩ := tiled_split L1 py (b :: ny :: L2)
    (h.lo + 44) (h.hi - 4) (by simpa using hc.til)
  have hcore2' : InvCore (removeBlock (removeBlock h py.bp) ny.bp)
      (L1 ++ ([py, b, ny] ++ L2)) (u2 ++ v2) := by
    simpa using hcore2
  -- the merged block's tag stamping re-establishes the precondition
  have hpre3 := merge_tags (removeBlock (removeBlock h py.bp) ny.bp) L1
    [py, b, ny] L2 (u2 ++ v2)
    ⟨py.bp, py.size + b.size + ny.size, false⟩ hcore2' rfl
    (by show (py.size + b.size + ny.size) % 8 = 0; omega)
    (by show 24 ≤ py.size + b.size + ny.size; omega)
    (by
      rw [removeBlock_lo, removeBlock_lo]
      exact hp1)
    (by
      rw [removeBlock_hi, removeBlock_hi]
      show tiled L2 (py.bp - 4 + (py.size + b.size + ny.size)) (h.hi - 4)
      have he : py.bp - 4 + (py.size + b.size + ny.size)
          = b.bp - 4 + b.size + ny.size := by omega
      rw [he]
      exact hn4)
    (by rw [removeBlock_lo, removeBlock_lo]; show h.lo + 44 ≤ py.bp - 4; omega)
    (by
      intro x hx hxal
      have hxfl : x.bp ∈ u ++ py.bp :: v := by
        have hxbs : x ∈ (L1 ++ [py]) ++ b :: ny :: L2 := by
          rcases hx with hx | hx
          · exact List.mem_append_left _ (List.mem_append_left _ hx)
          · exact List.mem_append_right _
              (List.mem_cons_of_mem _ (List.mem_cons_of_mem _ hx))
        rcases hcoupA x hxbs hxal with he | hin
        · exfalso
          rcases hx with hx | hx
          · obtain ⟨w1, w2, w3, w4⟩ := tiled_bounds L1 _ _ hp1 x hx
            omega
          · obtain ⟨w1, w2, w3, w4⟩ := tiled_bounds L2 _ _ hn4 x hx
            omega
        · exact hin
      have hxnepy : x.bp ≠ py.bp := by
        rcases hx with hx | hx
        · obtain ⟨w1, w2, w3, w4⟩ := tiled_bounds L1 _ _ hp1 x hx
          omega
        · obtain ⟨w1, w2, w3, w4⟩ := tiled_bounds L2 _ _ hn4 x hx
          omega
      have hxneny : x.bp ≠ ny.bp := by
        rcases hx with hx | hx
        · obtain ⟨w1, w2, w3, w4⟩ := tiled_bounds L1 _ _ hp1 x hx
          omega
        · obtain ⟨w1, w2, w3, w4⟩ := tiled_bounds L2 _ _ hn4 x hx
          omega
      have hxuv : x.bp ∈ u ++ v := by
        rcases List.mem_append.mp hxfl with hu | hcv
        · exact List.mem_append_left _ hu
        · rcases List.mem_cons.mp hcv with he | hv
          · exact absurd he hxnepy
          · exact List.mem_append_right _ hv
      rw [hw] at hxuv
      rcases List.mem_append.mp hxuv with hu | hcv
      · exact List.mem_append_left _ hu
      · rcases List.mem_cons.mp hcv with he | hv
        · exact absurd he hxneny
        · exact List.mem_append_right _ hv)
    (by
      intro p hp
      have hpny : p ≠ ny.bp := fun he => hnynotin (he ▸ hp)
      have hppy : p ≠ py.bp := fun he => hpynotin2 (he ▸ hp)
      obtain ⟨z, hz, hzbp, hzal, hzne⟩ :=
        hcoupB p (hfl_of_uv p (hsub2 p hp))
      rcases List.mem_append.mp hz with hz1 | hz2
      · rcases List.mem_append.mp hz1 with hz1a | hz1b
        · exact ⟨z, Or.inl hz1a, hzbp, hzal, hppy⟩
        · rcases List.mem_singleton.mp hz1b with rfl
          exact absurd hzbp (Ne.symm hppy)
      · rcases List.mem_cons.mp hz2 with rfl | hz3
        · exact absurd hzbp (Ne.symm hzne)
        · rcases List.mem_cons.mp hz3 with rfl | hz4
          · exact absurd hzbp (Ne.symm hpny)
          · exact ⟨z, Or.inr hz4, hzbp, hzal, hppy⟩)
  have hinv := insert_pres _ _ _ _ hpre3
  refine ⟨_, ?_, hinv⟩
  -- the code takes the both-free branch and produces exactly this state
  simp only [coalesce]
  rw [hpa2, hna2]
  norm_num
  rw [hsize2, q2, hnext1, hprev2]
  have hftr : ftrp (putW (removeBlock (removeBlock h py.bp) ny.bp)
      (hdrp py.bp) (pack (py.size + b.size + ny.size) 0)) py.bp
      = py.bp + (py.size + b.size + ny.size) - 8 := by
    unfold ftrp hdrp
    rw [getW_putW_eq,
      getSize_pack_zero (py.size + b.size + ny.size) (by omega) (by omega)]
  rw [hftr]
  exact ⟨rfl, rfl⟩

/-- C7.  The coalescer, on a block `b` with free-tagged boundary tags not
yet listed (`PreC`), splits on the neighbours' allocated bits: both
allocated (or absent) — `b`'s extent is unchanged; only the next free —
the next block is unlinked and `b` grows by its size; only the previous
free — the previous block is unlinked, the block moves to the previous
block's pointer and grows by `b`'s size; both free — both are unlinked
and the previous block grows to cover all three.  In every case the
resulting block carries free-tagged header and footer (the `Inv`'s tag
stamping for the merged `Blk`) and sits at the head of the free list. -/
theorem c7_coalesce :
    (∀ (h : Heap) (L1 L2 : List Blk) (fl : List Nat) (b : Blk),
      PreC h (L1 ++ b :: L2) fl b →
      (L1 = [] ∨ ∃ L1' py, L1 = L1' ++ [py] ∧ py.al = true) →
      (L2 = [] ∨ ∃ ny L2', L2 = ny :: L2' ∧ ny.al = true) →
      coalesce h b.bp = (insertAtFront h b.bp, b.bp) ∧
      Inv (insertAtFront h b.bp) (L1 ++ b :: L2) (b.bp :: fl)) ∧
    (∀ (h : Heap) (L1 L2 : List Blk) (u v : List Nat) (b ny : Blk),
      PreC h (L1 ++ b :: ny :: L2) (u ++ ny.bp :: v) b →
      (L1 = [] ∨ ∃ L1' py, L1 = L1' ++ [py] ∧ py.al = true) →
      ny.al = false →
      ∃ h2, coalesce h b.bp = (h2, b.bp) ∧
        Inv h2 (L1 ++ ⟨b.bp, b.size + ny.size, false⟩ :: L2)
          (b.bp :: (u ++ v))) ∧
    (∀ (h : Heap) (L1 L2 : List Blk) (u v : List Nat) (b py : Blk),
      PreC h ((L1 ++ [py]) ++ b :: L2) (u ++ py.bp :: v) b →
      py.al = false →
      (L2 = [] ∨ ∃ ny L2', L2 = ny :: L2' ∧ ny.al = true) →
      ∃ h2, coalesce h b.bp = (h2, py.bp) ∧
        Inv h2 (L1 ++ ⟨py.bp, py.size + b.size, false⟩ :: L2)
          (py.bp :: (u ++ v))) ∧
    (∀ (h : Heap) (L1 L2 : List Blk) (u v u2 v2 : List Nat) (b py ny : Blk),
      PreC h ((L1 ++ [py]) ++ b :: ny :: L2) (u ++ py.bp :: v) b →
      py.al = false → ny.al = false →
      u ++ v = u2 ++ ny.bp :: v2 →
      ∃ h2, coalesce h b.bp = (h2, py.bp) ∧
        Inv h2 (L1 ++ ⟨py.bp, py.size + b.size + ny.size, false⟩ :: L2)
          (py.bp :: (u2 ++ v2))) :=
  ⟨fun h L1 L2 fl b hpre h1 h2 => coalesce_AA h L1 L2 fl b hpre h1 h2,
   fun h L1 L2 u v b ny hpre h1 h2 => coalesce_AF h L1 L2 u v b ny hpre h1 h2,
   fun h L1 L2 u v b py hpre h1 h2 => coalesce_FA h L1 L2 u v b py hpre h1 h2,
   fun h L1 L2 u v u2 v2 b py ny hpre h1 h2 h3 =>
     coalesce_FF h L1 L2 u v u2 v2 b py ny hpre h1 h2 h3⟩

/-- A minimal concrete heap satisfying the coalescer precondition: the
`mm_init` layout at `lo = 8` with the single 24-byte block free-tagged
but not yet in the free list (the state `mm_free` hands to `coalesce`). -/
def preHeap : Heap :=
  ⟨fun a => if a = 12 then 25 else if a = 32 then 25 else
    if a = 52 then 24 else if a = 72 then 24 else
    if a = 76 then 1 else 0, 8, 80, 100000, 8, 16⟩

theorem preHeap_PreC :
    PreC preHeap ([] ++ (⟨56, 24, false⟩ : Blk) :: []) [] ⟨56, 24, false⟩ := by
  refine ⟨⟨rfl, by decide, by decide, by decide, by decide, by decide,
    by decide, by decide, by decide, by decide, by decide,
    ⟨by decide, by decide, by decide, rfl⟩, ?_, by decide, rfl,
    trivial⟩, ?_, ?_, by simp, rfl, by simp⟩
  · intro x hx
    simp only [List.nil_append, List.mem_singleton] at hx
    subst hx
    exact ⟨by decide, by decide⟩
  · intro x hx hxal
    simp only [List.nil_append, List.mem_singleton] at hx
    subst hx
    exact Or.inl rfl
  · intro p hp
    cases hp

/-- Witness for C7: the both-neighbours-absent case on the concrete
pre-coalesce heap. -/
theorem c7_coalesce_witness :
    coalesce preHeap 56 = (insertAtFront preHeap 56, 56) ∧
    Inv (insertAtFront preHeap 56) [⟨56, 24, false⟩] [56] := by
  have hres := c7_coalesce.1 preHeap [] [] [] ⟨56, 24, false⟩ preHeap_PreC
    (Or.inl rfl) (Or.inl rfl)
  simpa using hres

/-! ## Preservation of the invariant by the public operations -/

/-- No two physically adjacent blocks are both free. -/
def NoAdjFree (bs : List Blk) : Prop :=
  List.Chain' (fun x y => x.al = true ∨ y.al = true) bs

/-- Stamping an allocated block's header and footer over the extent of
the consumed blocks `mid` directly yields the full invariant (the block
joins no free list). -/
theorem alloc_tags (h1 : Heap) (L1 mid L2 : List Blk) (fl2 : List Nat)
    (nb : Blk)
    (hc1 : InvCore h1 (L1 ++ (mid ++ L2)) fl2)
    (hal : nb.al = true)
    (hsz8 : nb.size % 8 = 0) (hsz24 : 24 ≤ nb.size)
    (ht1 : tiled L1 (h1.lo + 44) (nb.bp - 4))
    (ht2 : tiled L2 (nb.bp - 4 + nb.size) (h1.hi - 4))
    (hbp4 : h1.lo + 44 ≤ nb.bp - 4)
    (hcoupA2 : ∀ x : Blk, x ∈ L1 ∨ x ∈ L2 → x.al = false → x.bp ∈ fl2)
    (hcoupB2 : ∀ p ∈ fl2, ∃ x, (x ∈ L1 ∨ x ∈ L2) ∧ x.bp = p ∧
       x.al = false) :
    Inv (putW (putW h1 (nb.bp - 4) (pack nb.size 1))
           (nb.bp + nb.size - 8) (pack nb.size 1)) (L1 ++ nb :: L2) fl2 := by
  have hlo := hc1.lo8
  have hsep := hc1.losep
  have til2 : tiled (L1 ++ nb :: L2) (h1.lo + 44) (h1.hi - 4) := by
    refine tiled_append L1 (nb :: L2) _ (nb.bp - 4) _ ht1
      ⟨by omega, hsz24, hsz8, ht2⟩
  have hend : nb.bp - 4 + nb.size ≤ h1.hi - 4 := tiled_le _ _ _ ht2
  have hxdisj : ∀ x : Blk, x ∈ L1 ∨ x ∈ L2 →
      x.bp + x.size ≤ nb.bp ∨ nb.bp + nb.size ≤ x.bp := by
    intro x hx
    rcases hx with hx | hx
    · obtain ⟨u1, u2, u3, u4⟩ := tiled_bounds L1 _ _ ht1 x hx
      left
      omega
    · obtain ⟨u1, u2, u3, u4⟩ := tiled_bounds L2 _ _ ht2 x hx
      right
      omega
  have hxfacts : ∀ x : Blk, x ∈ L1 ∨ x ∈ L2 →
      h1.lo + 48 ≤ x.bp ∧ x.bp + x.size ≤ h1.hi ∧ 24 ≤ x.size ∧
      x.size % 8 = 0 := by
    intro x hx
    have hxin : x ∈ L1 ++ nb :: L2 := by
      rcases hx with hx | hx
      · exact List.mem_append_left _ hx
      · exact List.mem_append_right _ (List.mem_cons_of_mem _ hx)
    obtain ⟨u1, u2, u3, u4⟩ := tiled_bounds _ _ _ til2 x hxin
    exact ⟨by omega, by omega, u3, u4⟩
  have hframe : ∀ c, (c < nb.bp - 4 ∨ nb.bp - 4 + nb.size ≤ c) →
      getW (putW (putW h1 (nb.bp - 4) (pack nb.size 1))
        (nb.bp + nb.size - 8) (pack nb.size 1)) c = getW h1 c := by
    intro c hor
    have d1 : c ≠ nb.bp + nb.size - 8 := by omega
    have d2 : c ≠ nb.bp - 4 := by omega
    rw [getW_putW_ne _ _ _ _ d1, getW_putW_ne _ _ _ _ d2]
  refine ⟨⟨?_, ?_, ?_, ?_, ?_, ?_, ?_, ?_, ?_, ?_, ?_, ?_, ?_, ?_, ?_, ?_⟩,
    ?_, ?_⟩
  · simp only [putW_heapListp, putW_lo]; exact hc1.hlp
  · simp only [putW_lo]; exact hc1.lo8
  · simp only [putW_lo]; exact hc1.lom
  · simp only [putW_hi]; exact hc1.him
  · simp only [putW_lo, putW_hi]; exact hc1.losep
  · simp only [putW_hi, putW_limit]; exact hc1.hil
  · simp only [putW_limit]; exact hc1.liml
  · simp only [putW_lo]
    rw [hframe (h1.lo + 4) (by omega)]
    exact hc1.prohd
  · simp only [putW_lo]
    rw [hframe (h1.lo + 24) (by omega)]
    exact hc1.proft
  · simp only [putW_lo]
    rw [hframe (h1.lo + 40) (by omega)]
    exact hc1.gap
  · simp only [putW_hi]
    rw [hframe (h1.hi - 4) (by omega)]
    exact hc1.epi
  · simp only [putW_lo, putW_hi]
    exact til2
  · intro x hx
    rcases List.mem_append.mp hx with hx1 | hx2
    · obtain ⟨m1, m2⟩ := hc1.bmem x (by simp [hx1])
      obtain ⟨u1, u2, u3, u4⟩ := tiled_bounds L1 _ _ ht1 x hx1
      exact ⟨by rw [hframe (x.bp - 4) (by omega)]; exact m1,
        by rw [hframe (x.bp + x.size - 8) (by omega)]; exact m2⟩
    · rcases List.mem_cons.mp hx2 with rfl | hx3
      · refine ⟨?_, ?_⟩
        · have d3 : x.bp - 4 ≠ x.bp + x.size - 8 := by omega
          rw [getW_putW_ne _ _ _ _ d3, getW_putW_eq, hal]
          simp [abit]
        · rw [getW_putW_eq, hal]
          simp [abit]
      · obtain ⟨m1, m2⟩ := hc1.bmem x (by simp [hx3])
        obtain ⟨u1, u2, u3, u4⟩ := tiled_bounds L2 _ _ ht2 x hx3
        exact ⟨by rw [hframe (x.bp - 4) (by omega)]; exact m1,
          by rw [hframe (x.bp + x.size - 8) (by omega)]; exact m2⟩
  · exact hc1.nodup
  · simp only [putW_freeListp, putW_lo]; exact hc1.flp
  · simp only [putW_lo]
    have hfr : ∀ c, c = nb.bp - 4 ∨ c = nb.bp + nb.size - 8 →
        ∀ y ∈ fl2, c ≠ y ∧ c ≠ y + 8 := by
      intro c hor y hy
      obtain ⟨z, hz, hzbp, _⟩ := hcoupB2 y hy
      obtain ⟨w1, w2, w3, w4⟩ := hxfacts z hz
      have hd := hxdisj z hz
      rcases hd with hd | hd <;> rcases hor with rfl | rfl <;>
        rw [← hzbp] <;> constructor <;> omega
    rw [flSeg_frame fl2 _ _ _ _ 0 (hfr _ (Or.inr rfl)),
      flSeg_frame fl2 _ _ _ _ 0 (hfr _ (Or.inl rfl))]
    exact hc1.seg
  · intro x hx hxal
    rcases List.mem_append.mp hx with hx1 | hx2
    · exact hcoupA2 x (Or.inl hx1) hxal
    · rcases List.mem_cons.mp hx2 with rfl | hx3
      · rw [hal] at hxal
        cases hxal
      · exact hcoupA2 x (Or.inr hx3) hxal
  · intro p hp
    obtain ⟨x, hx, hbp, hxal⟩ := hcoupB2 p hp
    refine ⟨x, ?_, hbp, hxal⟩
    rcases hx with hx | hx
    · exact List.mem_append_left _ hx
    · exact List.mem_append_right _ (List.mem_cons_of_mem _ hx)

theorem chain_last_alloc (L1' : List Blk) (py : Blk)
    (hch : List.Chain' (fun x y => x.al = true ∨ y.al = true) (L1' ++ [py]))
    (hpy : py.al = false) :
    ∀ x ∈ L1'.getLast?, x.al = true := by
  intro x hx
  obtain ⟨c1, c2, c3⟩ := List.chain'_append.mp hch
  have := c3 x hx py (by simp)
  rcases this with hxal | hpyal
  · exact hxal
  · rw [hpy] at hpyal
    cases hpyal

theorem chain_head_alloc (L2' : List Blk) (ny : Blk)
    (hch : List.Chain' (fun x y => x.al = true ∨ y.al = true) (ny :: L2'))
    (hny : ny.al = false) :
    ∀ y ∈ L2'.head?, y.al = true := by
  intro y hy
  have := (List.chain'_cons'.mp hch).1 y hy
  rcases this with hnyal | hyal
  · rw [hny] at hnyal
    cases hnyal
  · exact hyal

/-- Rebuild the adjacency invariant around a single free block whose two
neighbours (when present) are allocated. -/
theorem NoAdjFree_rebuild (M1 M2 : List Blk) (mb : Blk)
    (hm1 : List.Chain' (fun x y => x.al = true ∨ y.al = true) M1)
    (hm2 : List.Chain' (fun x y => x.al = true ∨ y.al = true) M2)
    (hb1 : ∀ x ∈ M1.getLast?, x.al = true)
    (hb2 : ∀ y ∈ M2.head?, y.al = true) :
    NoAdjFree (M1 ++ mb :: M2) := by
  refine List.chain'_append.mpr ⟨hm1, ?_, ?_⟩
  · refine List.chain'_cons'.mpr ⟨?_, hm2⟩
    intro y hy
    exact Or.inr (hb2 y hy)
  · intro x hx y hy
    simp only [List.head?_cons, Option.mem_def, Option.some.injEq] at hy
    subst hy
    exact Or.inl (hb1 x hx)

/-- An element of a list with a distinguished middle element, other than
that element, lives in the remainder. -/
theorem mem_remove_mid (u v : List Nat) (x p : Nat)
    (hp : p ∈ u ++ x :: v) (hne : p ≠ x) : p ∈ u ++ v := by
  rcases List.mem_append.mp hp with hu | hcv
  · exact List.mem_append_left _ hu
  · rcases List.mem_cons.mp hcv with he | hv
    · exact absurd he hne
    · exact List.mem_append_right _ hv

/-- Full dispatch of the coalescer: from the precondition and the
adjacency facts of the surrounding blocks, `coalesce` lands in one of its
four cases and always yields an invariant state whose free list is headed
by the returned pointer to a free block covering `b`. -/
theorem coalesce_pres (h : Heap) (L1 L2 : List Blk) (fl : List Nat) (b : Blk)
    (hpre : PreC h (L1 ++ b :: L2) fl b)
    (hch1 : List.Chain' (fun x y => x.al = true ∨ y.al = true) L1)
    (hch2 : List.Chain' (fun x y => x.al = true ∨ y.al = true) L2) :
    ∃ h2 bp2 M1 M2 sz rest,
      coalesce h b.bp = (h2, bp2) ∧
      Inv h2 (M1 ++ ⟨bp2, sz, false⟩ :: M2) (bp2 :: rest) ∧
      NoAdjFree (M1 ++ ⟨bp2, sz, false⟩ :: M2) ∧
      b.size ≤ sz ∧
      List.Chain' (fun x y => x.al = true ∨ y.al = true) M1 ∧
      (∀ x : Blk, x ∈ L1 ∨ x ∈ L2 → x.al = true → x ∈ M1 ∨ x ∈ M2) := by
  have hbal := hpre.2.2.2.2.1
  have hbeq : (⟨b.bp, b.size, false⟩ : Blk) = b := by
    cases b
    simp_all
  have hP : (L1 = [] ∨ ∃ L1' py, L1 = L1' ++ [py] ∧ py.al = true) ∨
      ∃ L1' py, L1 = L1' ++ [py] ∧ py.al = false := by
    rcases List.eq_nil_or_concat L1 with rfl | ⟨L1', py, rfl⟩
    · exact Or.inl (Or.inl rfl)
    · cases hpya : py.al
      · exact Or.inr ⟨L1', py, by simp, hpya⟩
      · exact Or.inl (Or.inr ⟨L1', py, by simp, hpya⟩)
  have hN : (L2 = [] ∨ ∃ ny L2', L2 = ny :: L2' ∧ ny.al = true) ∨
      ∃ ny L2', L2 = ny :: L2' ∧ ny.al = false := by
    cases L2 with
    | nil => exact Or.inl (Or.inl rfl)
    | cons ny L2' =>
      cases hnya : ny.al
      · exact Or.inr ⟨ny, L2', rfl, hnya⟩
      · exact Or.inl (Or.inr ⟨ny, L2', rfl, hnya⟩)
  have hlastA : (L1 = [] ∨ ∃ L1' py, L1 = L1' ++ [py] ∧ py.al = true) →
      ∀ x ∈ L1.getLast?, x.al = true := by
    rintro (rfl | ⟨L1', py, rfl, hpya⟩) x hx
    · cases hx
    · rw [List.getLast?_concat] at hx
      simp only [Option.mem_def, Option.some.injEq] at hx
      subst hx
      exact hpya
  have hheadA : (L2 = [] ∨ ∃ ny L2', L2 = ny :: L2' ∧ ny.al = true) →
      ∀ y ∈ L2.head?, y.al = true := by
    rintro (rfl | ⟨ny, L2', rfl, hnya⟩) y hy
    · cases hy
    · simp only [List.head?_cons, Option.mem_def, Option.some.injEq] at hy
      subst hy
      exact hnya
  rcases hN with hNalloc | ⟨ny, L2', rfl, hnyal⟩
  · rcases hP with hPalloc | ⟨L1', py, rfl, hpyal⟩
    · -- both neighbours allocated or absent
      obtain ⟨e1, e2⟩ := coalesce_AA h L1 L2 fl b hpre hPalloc hNalloc
      refine ⟨_, _, L1, L2, b.size, fl, e1, ?_, ?_, le_refl _, hch1, ?_⟩
      · rw [hbeq]
        exact e2
      · rw [hbeq]
        exact NoAdjFree_rebuild L1 L2 b hch1 hch2 (hlastA hPalloc)
          (hheadA hNalloc)
      · intro x hx _
        exact hx
    · -- only the previous neighbour free
      have hc := hpre.1
      obtain ⟨q1, _, _, _⟩ := PreC_prev_concat h L1' L2 fl b py hc
      obtain ⟨g1, g2, g3, g4, g5⟩ := core_block_facts h _ fl hc py (by simp)
      have hmem : py.bp ∈ fl := by
        rcases hpre.2.1 py (by simp) hpyal with he | hin
        · omega
        · exact hin
      obtain ⟨u, v, hfl⟩ := List.append_of_mem hmem
      subst hfl
      obtain ⟨h2, e1, e2⟩ := coalesce_FA h L1' L2 u v b py hpre hpyal hNalloc
      have hlast' := chain_last_alloc L1' py hch1 hpyal
      refine ⟨h2, py.bp, L1', L2, py.size + b.size, u ++ v, e1, e2, ?_,
        by omega, (List.chain'_append.mp hch1).1, ?_⟩
      · exact NoAdjFree_rebuild L1' L2 _ (List.chain'_append.mp hch1).1 hch2
          hlast' (hheadA hNalloc)
      · intro x hx hxal
        rcases hx with hx | hx
        · rcases List.mem_append.mp hx with hx1 | hx2
          · exact Or.inl hx1
          · rcases List.mem_singleton.mp hx2 with rfl
            rw [hpyal] at hxal
            cases hxal
        · exact Or.inr hx
  · rcases hP with hPalloc | ⟨L1', py, rfl, hpyal⟩
    · -- only the next neighbour free
      have hc := hpre.1
      obtain ⟨hnybp, _⟩ := PreC_next_cons h L1 L2' fl b ny hc
      obtain ⟨g1, g2, g3, g4, g5⟩ := core_block_facts h _ fl hc b
        hpre.2.2.2.1
      have hmem : ny.bp ∈ fl := by
        rcases hpre.2.1 ny (by simp) hnyal with he | hin
        · omega
        · exact hin
      obtain ⟨u, v, hfl⟩ := List.append_of_mem hmem
      subst hfl
      obtain ⟨h2, e1, e2⟩ := coalesce_AF h L1 L2' u v b ny hpre hPalloc hnyal
      refine ⟨h2, b.bp, L1, L2', b.size + ny.size, u ++ v, e1, e2, ?_,
        by omega, hch1, ?_⟩
      · exact NoAdjFree_rebuild L1 L2' _ hch1 (List.chain'_cons'.mp hch2).2
          (hlastA hPalloc) (chain_head_alloc L2' ny hch2 hnyal)
      · intro x hx hxal
        rcases hx with hx | hx
        · exact Or.inl hx
        · rcases List.mem_cons.mp hx with rfl | hx3
          · rw [hnyal] at hxal
            cases hxal
          · exact Or.inr hx3
    · -- both neighbours free
      have hc := hpre.1
      obtain ⟨q1, _, _, _⟩ := PreC_prev_concat h L1' (ny :: L2') fl b py hc
      obtain ⟨hnybp, _⟩ := PreC_next_cons h (L1' ++ [py]) L2' fl b ny hc
      obtain ⟨g1, g2, g3, g4, g5⟩ := core_block_facts h _ fl hc py (by simp)
      obtain ⟨f1, f2, f3, f4, f5⟩ := core_block_facts h _ fl hc b
        hpre.2.2.2.1
      have hmempy : py.bp ∈ fl := by
        rcases hpre.2.1 py (by simp) hpyal with he | hin
        · omega
        · exact hin
      have hmemny : ny.bp ∈ fl := by
        rcases hpre.2.1 ny (by simp) hnyal with he | hin
        · omega
        · exact hin
      obtain ⟨u, v, hfl⟩ := List.append_of_mem hmempy
      subst hfl
      have hmemny2 : ny.bp ∈ u ++ v :=
        mem_remove_mid u v py.bp ny.bp hmemny (by omega)
      obtain ⟨u2, v2, hw⟩ := List.append_of_mem hmemny2
      obtain ⟨h2, e1, e2⟩ := coalesce_FF h L1' L2' u v u2 v2 b py ny hpre
        hpyal hnyal hw
      have hlast' := chain_last_alloc L1' py hch1 hpyal
      refine ⟨h2, py.bp, L1', L2', py.size + b.size + ny.size, u2 ++ v2, e1,
        e2, ?_, by omega, (List.chain'_append.mp hch1).1, ?_⟩
      · exact NoAdjFree_rebuild L1' L2' _ (List.chain'_append.mp hch1).1
          (List.chain'_cons'.mp hch2).2 hlast'
          (chain_head_alloc L2' ny hch2 hnyal)
      · intro x hx hxal
        rcases hx with hx | hx
        · rcases List.mem_append.mp hx with hx1 | hx2
          · exact Or.inl hx1
          · rcases List.mem_singleton.mp hx2 with rfl
            rw [hpyal] at hxal
            cases hxal
        · rcases List.mem_cons.mp hx with rfl | hx3
          · rw [hnyal] at hxal
            cases hxal
          · exact Or.inr hx3

/-- `mm_free` on an allocated block: the boundary tags are freed, the
coalescer runs, and the invariant is re-established. -/
theorem mmFree_pres (h : Heap) (bs : List Blk) (fl : List Nat) (b : Blk)
    (hinv : Inv h bs fl) (hadj : NoAdjFree bs) (hb : b ∈ bs)
    (hbal : b.al = true) :
    ∃ bs' fl', Inv (mmFree h b.bp) bs' fl' ∧ NoAdjFree bs' := by
  obtain ⟨L1, L2, rfl⟩ := List.append_of_mem hb
  obtain ⟨hcore, hcoupA, hcoupB⟩ := hinv
  obtain ⟨fb1, fb2, fb3, fb4, fb5⟩ := core_block_facts h _ fl hcore b hb
  have hlo := hcore.lo8
  have hbp0 : ¬ (b.bp = 0) := by omega
  have hsz : getSize (getW h (hdrp b.bp)) = b.size := by
    have hm := (hcore.bmem b hb).1
    show getSize (getW h (b.bp - 4)) = b.size
    rw [hm, hbal]
    simpa [abit] using getSize_pack_one b.size fb4 fb5
  have heq : mmFree h b.bp =
      (coalesce (putW (putW h (hdrp b.bp) (pack b.size 0))
        (b.bp + b.size - 8) (pack b.size 0)) b.bp).1 := by
    simp only [mmFree, if_neg hbp0]
    rw [hsz]
    have hftr : ftrp (putW h (hdrp b.bp) (pack b.size 0)) b.bp
        = b.bp + b.size - 8 := by
      unfold ftrp hdrp
      rw [getW_putW_eq, getSize_pack_zero b.size fb4 fb5]
    rw [hftr]
  -- free the tags: the coalescer precondition holds
  have hpre3 := merge_tags h L1 [b] L2 fl ⟨b.bp, b.size, false⟩ hcore rfl
    fb4 fb3 (tiled_split L1 b L2 _ _ hcore.til).1
    (by
      show tiled L2 (b.bp - 4 + b.size) (h.hi - 4)
      exact (tiled_split L1 b L2 _ _ hcore.til).2.2.2.2.2)
    (by show h.lo + 44 ≤ b.bp - 4; omega)
    (by
      intro x hx hxal
      have hxbs : x ∈ L1 ++ b :: L2 := by
        rcases hx with hx | hx
        · exact List.mem_append_left _ hx
        · exact List.mem_append_right _ (List.mem_cons_of_mem _ hx)
      exact hcoupA x hxbs hxal)
    (by
      intro p hp
      obtain ⟨z, hz, hzbp, hzal⟩ := hcoupB p hp
      have hzneb : z ≠ b := by
        intro he
        rw [he, hbal] at hzal
        cases hzal
      have hzbpne : z.bp ≠ b.bp := by
        intro he
        exact hzneb (tiled_bp_inj _ _ _ hcore.til z b hz hb he)
      refine ⟨z, ?_, hzbp, hzal, by rw [← hzbp]; exact hzbpne⟩
      rcases List.mem_append.mp hz with hz1 | hz2
      · exact Or.inl hz1
      · rcases List.mem_cons.mp hz2 with rfl | hz3
        · exact absurd rfl hzneb
        · exact Or.inr hz3)
  -- dispatch the coalescer
  have hch1 : List.Chain' (fun x y => x.al = true ∨ y.al = true) L1 :=
    (List.chain'_append.mp hadj).1
  have hch2 : List.Chain' (fun x y => x.al = true ∨ y.al = true) L2 :=
    (List.chain'_cons'.mp (List.chain'_append.mp hadj).2.1).2
  obtain ⟨h2, bp2, M1, M2, sz, rest, e1, e2, e3, _, _, _⟩ :=
    coalesce_pres _ L1 L2 fl ⟨b.bp, b.size, false⟩ hpre3 hch1 hch2
  refine ⟨M1 ++ ⟨bp2, sz, false⟩ :: M2, bp2 :: rest, ?_, e3⟩
  rw [heq]
  have e1' : coalesce (putW (putW h (hdrp b.bp) (pack b.size 0))
      (b.bp + b.size - 8) (pack b.size 0)) b.bp = (h2, bp2) := e1
  rw [e1']
  exact e2

/-- The `find_fit` walk from a free-list segment: a successful return
names a listed free block at least as large as the request. -/
theorem findFitAux_mem (h : Heap) (bs : List Blk) (fl : List Nat)
    (asize : Nat) (hc : InvCore h bs fl)
    (hcoupB : ∀ p ∈ fl, ∃ x ∈ bs, x.bp = p ∧ x.al = false) :
    ∀ (fuel : Nat) (l : List Nat) (pv : Nat), flSeg h (h.lo + 8) l pv →
      (∀ p ∈ l, p ∈ fl) →
      ∀ bp, findFitAux h asize fuel (l.headD (h.lo + 8)) = some (some bp) →
      ∃ x ∈ bs, x.bp = bp ∧ x.al = false ∧ asize ≤ x.size ∧ bp ∈ fl := by
  intro fuel
  induction fuel with
  | zero =>
    intro l pv hseg hsub bp hrun
    cases hrun
  | succ fuel ih =>
    intro l pv hseg hsub bp hrun
    cases l with
    | nil =>
      simp only [List.headD_nil] at hrun
      have hh : hdrp (h.lo + 8) = h.lo + 4 := by
        unfold hdrp
        omega
      simp only [findFitAux, hh, hc.prohd] at hrun
      rw [getAlloc_pack_one 24 (by decide)] at hrun
      simp at hrun
    | cons q r =>
      obtain ⟨hqp, hqn, hqseg⟩ := hseg
      obtain ⟨x, hx, hxbp, hxal⟩ := hcoupB q (hsub q (List.mem_cons_self q r))
      obtain ⟨f1, f2, f3, f4, f5⟩ := core_block_facts h bs fl hc x hx
      have hhd : getW h (hdrp q) = pack x.size 0 := by
        have hm := (hc.bmem x hx).1
        rw [hxal] at hm
        show getW h (q - 4) = pack x.size 0
        rw [← hxbp]
        simpa [abit] using hm
      simp only [List.headD_cons, findFitAux, hhd,
        getAlloc_pack_zero x.size f4, getSize_pack_zero x.size f4 f5,
        if_pos rfl] at hrun
      by_cases hfit : asize ≤ x.size
      · rw [if_pos hfit] at hrun
        obtain ⟨rfl⟩ : q = bp := by
          simpa using hrun
        exact ⟨x, hx, hxbp, hxal, hfit, hsub bp (List.mem_cons_self bp r)⟩
      · rw [if_neg hfit] at hrun
        rw [hqn] at hrun
        exact ih r q hqseg (fun p hp => hsub p (List.mem_cons_of_mem q hp))
          bp hrun

/-- `find_fit` success on an invariant state: the returned pointer names
a listed free block of sufficient size. -/
theorem findFit_spec (h : Heap) (bs : List Blk) (fl : List Nat)
    (asize fuel bp : Nat) (hc : InvCore h bs fl)
    (hcoupB : ∀ p ∈ fl, ∃ x ∈ bs, x.bp = p ∧ x.al = false)
    (hrun : findFit h asize fuel = some (some bp)) :
    ∃ x ∈ bs, x.bp = bp ∧ x.al = false ∧ asize ≤ x.size ∧ bp ∈ fl := by
  have hfp : h.freeListp = fl.headD (h.lo + 8) := hc.flp
  unfold findFit at hrun
  rw [hfp] at hrun
  exact findFitAux_mem h bs fl asize hc hcoupB fuel fl 0 hc.seg
    (fun p hp => hp) bp hrun

theorem putW_comm (h : Heap) (a b v w : Nat) (hab : a ≠ b) :
    putW (putW h a v) b w = putW (putW h b w) a v := by
  unfold putW
  simp only [Heap.mk.injEq, and_self, and_true]
  funext x
  by_cases hxa : x = a <;> by_cases hxb : x = b <;> simp_all

theorem putW_putW_same (h : Heap) (c v1 v2 : Nat) :
    putW (putW h c v1) c v2 = putW h c v2 := by
  unfold putW
  simp only [Heap.mk.injEq, and_self, and_true]
  funext x
  by_cases hxc : x = c <;> simp [hxc]

/-- A write at a cell that is none of `remove_block`'s read or write
cells commutes with the unlink. -/
theorem removeBlock_putW_comm (h : Heap) (bp c v : Nat)
    (h1 : c ≠ bp) (h2 : c ≠ bp + 8)
    (h3 : c ≠ prevFreep h bp + 8) (h4 : c ≠ nextFreep h bp) :
    removeBlock (putW h c v) bp = putW (removeBlock h bp) c v := by
  have hpf : prevFreep (putW h c v) bp = prevFreep h bp := by
    unfold prevFreep
    rw [getW_putW_ne _ _ _ _ (Ne.symm h1)]
  have hnf : nextFreep (putW h c v) bp = nextFreep h bp := by
    unfold nextFreep
    rw [getW_putW_ne _ _ _ _ (Ne.symm h2)]
  simp only [removeBlock]
  rw [hpf, hnf]
  by_cases hp0 : prevFreep h bp ≠ 0
  · rw [if_pos hp0, if_pos hp0]
    rw [putW_comm h c (prevFreep h bp + 8) v (nextFreep h bp) h3]
    have hnf2 : nextFreep (putW (putW h (prevFreep h bp + 8)
        (nextFreep h bp)) c v) bp
        = nextFreep (putW h (prevFreep h bp + 8) (nextFreep h bp)) bp := by
      unfold nextFreep
      rw [getW_putW_ne _ _ _ _ (Ne.symm h2)]
    have hpf2 : prevFreep (putW (putW h (prevFreep h bp + 8)
        (nextFreep h bp)) c v) bp
        = prevFreep (putW h (prevFreep h bp + 8) (nextFreep h bp)) bp := by
      unfold prevFreep
      rw [getW_putW_ne _ _ _ _ (Ne.symm h1)]
    rw [hnf2, hpf2]
    have hnfv : nextFreep (putW h (prevFreep h bp + 8) (nextFreep h bp)) bp
        = nextFreep h bp := by
      unfold nextFreep
      by_cases he : bp + 8 = prevFreep h bp + 8
      · show getW _ (bp + 8) = _
        rw [he, getW_putW_eq]
      · show getW _ (bp + 8) = _
        rw [getW_putW_ne _ _ _ _ he]
    rw [hnfv]
    exact putW_comm _ c (nextFreep h bp) v _ h4
  · rw [if_neg hp0, if_neg hp0]
    have hswap : ({ putW h c v with freeListp := nextFreep h bp } : Heap)
        = putW { h with freeListp := nextFreep h bp } c v := rfl
    rw [hswap]
    have hnf2 : nextFreep (putW { h with freeListp := nextFreep h bp } c v) bp
        = nextFreep { h with freeListp := nextFreep h bp } bp := by
      unfold nextFreep
      rw [getW_putW_ne _ _ _ _ (Ne.symm h2)]
    have hpf2 : prevFreep (putW { h with freeListp := nextFreep h bp } c v) bp
        = prevFreep { h with freeListp := nextFreep h bp } bp := by
      unfold prevFreep
      rw [getW_putW_ne _ _ _ _ (Ne.symm h1)]
    rw [hnf2, hpf2]
    exact putW_comm _ c _ v _ h4

/-- Stamping an allocated front part and a free-tagged remainder over a
single block's extent re-establishes the coalescer precondition for the
remainder. -/
theorem split_tags (h1 : Heap) (L1 L2 : List Blk) (fl2 : List Nat)
    (x : Blk) (a : Nat)
    (hc1 : InvCore h1 (L1 ++ ([x] ++ L2)) fl2)
    (ha8 : a % 8 = 0) (ha24 : 24 ≤ a) (hr24 : 24 ≤ x.size - a)
    (hax : a ≤ x.size)
    (ht1 : tiled L1 (h1.lo + 44) (x.bp - 4))
    (ht2 : tiled L2 (x.bp - 4 + x.size) (h1.hi - 4))
    (hbp4 : h1.lo + 44 ≤ x.bp - 4)
    (hcoupA2 : ∀ w : Blk, w ∈ L1 ∨ w ∈ L2 → w.al = false → w.bp ∈ fl2)
    (hcoupB2 : ∀ p ∈ fl2, ∃ w, (w ∈ L1 ∨ w ∈ L2) ∧ w.bp = p ∧
      w.al = false) :
    PreC (putW (putW (putW (putW h1 (x.bp - 4) (pack a 1))
           (x.bp + a - 8) (pack a 1))
           (x.bp + a - 4) (pack (x.size - a) 0))
           (x.bp + x.size - 8) (pack (x.size - a) 0))
      ((L1 ++ [⟨x.bp, a, true⟩]) ++ (⟨x.bp + a, x.size - a, false⟩ : Blk)
        :: L2)
      fl2 ⟨x.bp + a, x.size - a, false⟩ := by
  have hlo := hc1.lo8
  have hsep := hc1.losep
  obtain ⟨_, _, hxs24, hxs8, _, _⟩ := tiled_split L1 x L2 _ _ hc1.til
  have hszlt : x.size < MOD32 := by
    have hb := tiled_le _ _ _ ht2
    have h1' := hc1.hil
    have h2' := hc1.liml
    unfold MOD32 at *
    omega
  have hend : x.bp - 4 + x.size ≤ h1.hi - 4 := tiled_le _ _ _ ht2
  have til2 : tiled ((L1 ++ [⟨x.bp, a, true⟩]) ++
      (⟨x.bp + a, x.size - a, false⟩ : Blk) :: L2) (h1.lo + 44)
      (h1.hi - 4) := by
    refine tiled_append _ _ _ (x.bp - 4 + a) _ ?_ ?_
    · refine tiled_append L1 _ _ (x.bp - 4) _ ht1 ?_
      exact ⟨by show x.bp = x.bp - 4 + 4; omega, ha24, ha8, rfl⟩
    · refine ⟨by show x.bp + a = x.bp - 4 + a + 4; omega, hr24,
        by show (x.size - a) % 8 = 0; omega, ?_⟩
      have he : x.bp - 4 + a + (x.size - a) = x.bp - 4 + x.size := by omega
      rw [he]
      exact ht2
  have hxdisj : ∀ w : Blk, w ∈ L1 ∨ w ∈ L2 →
      w.bp + w.size ≤ x.bp ∨ x.bp + x.size ≤ w.bp := by
    intro w hw
    rcases hw with hw | hw
    · obtain ⟨u1, u2, u3, u4⟩ := tiled_bounds L1 _ _ ht1 w hw
      left
      omega
    · obtain ⟨u1, u2, u3, u4⟩ := tiled_bounds L2 _ _ ht2 w hw
      right
      omega
  have hxfacts : ∀ w : Blk, w ∈ L1 ∨ w ∈ L2 →
      h1.lo + 48 ≤ w.bp ∧ w.bp + w.size ≤ h1.hi ∧ 24 ≤ w.size ∧
      w.size % 8 = 0 := by
    intro w hw
    rcases hw with hw | hw
    · obtain ⟨u1, u2, u3, u4⟩ := tiled_bounds L1 _ _ ht1 w hw
      exact ⟨by omega, by omega, u3, u4⟩
    · obtain ⟨u1, u2, u3, u4⟩ := tiled_bounds L2 _ _ ht2 w hw
      exact ⟨by omega, by omega, u3, u4⟩
  have hframe : ∀ c, (c < x.bp - 4 ∨ x.bp - 4 + x.size ≤ c) →
      getW (putW (putW (putW (putW h1 (x.bp - 4) (pack a 1))
        (x.bp + a - 8) (pack a 1))
        (x.bp + a - 4) (pack (x.size - a) 0))
        (x.bp + x.size - 8) (pack (x.size - a) 0)) c = getW h1 c := by
    intro c hor
    have d1 : c ≠ x.bp + x.size - 8 := by omega
    have d2 : c ≠ x.bp + a - 4 := by omega
    have d3 : c ≠ x.bp + a - 8 := by omega
    have d4 : c ≠ x.bp - 4 := by omega
    rw [getW_putW_ne _ _ _ _ d1, getW_putW_ne _ _ _ _ d2,
      getW_putW_ne _ _ _ _ d3, getW_putW_ne _ _ _ _ d4]
  refine ⟨⟨?_, ?_, ?_, ?_, ?_, ?_, ?_, ?_, ?_, ?_, ?_, ?_, ?_, ?_, ?_, ?_⟩,
    ?_, ?_, ?_, ?_, ?_⟩
  · simp only [putW_heapListp, putW_lo]; exact hc1.hlp
  · simp only [putW_lo]; exact hc1.lo8
  · simp only [putW_lo]; exact hc1.lom
  · simp only [putW_hi]; exact hc1.him
  · simp only [putW_lo, putW_hi]; exact hc1.losep
  · simp only [putW_hi, putW_limit]; exact hc1.hil
  · simp only [putW_limit]; exact hc1.liml
  · simp only [putW_lo]
    rw [hframe (h1.lo + 4) (by omega)]
    exact hc1.prohd
  · simp only [putW_lo]
    rw [hframe (h1.lo + 24) (by omega)]
    exact hc1.proft
  · simp only [putW_lo]
    rw [hframe (h1.lo + 40) (by omega)]
    exact hc1.gap
  · simp only [putW_hi]
    rw [hframe (h1.hi - 4) (by omega)]
    exact hc1.epi
  · simp only [putW_lo, putW_hi]
    exact til2
  · -- boundary tags of the two new blocks and of the untouched blocks
    intro w hw
    rcases List.mem_append.mp hw with hw1 | hw2
    · rcases List.mem_append.mp hw1 with hwa | hwb
      · obtain ⟨m1, m2⟩ := hc1.bmem w (by simp [hwa])
        obtain ⟨u1, u2, u3, u4⟩ := tiled_bounds L1 _ _ ht1 w hwa
        exact ⟨by rw [hframe (w.bp - 4) (by omega)]; exact m1,
          by rw [hframe (w.bp + w.size - 8) (by omega)]; exact m2⟩
      · rcases List.mem_singleton.mp hwb with rfl
        refine ⟨?_, ?_⟩
        · show getW _ (x.bp - 4) = pack a (abit true)
          have d1 : x.bp - 4 ≠ x.bp + x.size - 8 := by omega
          have d2 : x.bp - 4 ≠ x.bp + a - 4 := by omega
          have d3 : x.bp - 4 ≠ x.bp + a - 8 := by omega
          rw [getW_putW_ne _ _ _ _ d1, getW_putW_ne _ _ _ _ d2,
            getW_putW_ne _ _ _ _ d3, getW_putW_eq]
          simp [abit]
        · show getW _ (x.bp + a - 8) = pack a (abit true)
          have d1 : x.bp + a - 8 ≠ x.bp + x.size - 8 := by omega
          have d2 : x.bp + a - 8 ≠ x.bp + a - 4 := by omega
          rw [getW_putW_ne _ _ _ _ d1, getW_putW_ne _ _ _ _ d2,
            getW_putW_eq]
          simp [abit]
    · rcases List.mem_cons.mp hw2 with rfl | hw3
      · refine ⟨?_, ?_⟩
        · show getW _ (x.bp + a - 4) = pack (x.size - a) (abit false)
          have d1 : x.bp + a - 4 ≠ x.bp + x.size - 8 := by omega
          rw [getW_putW_ne _ _ _ _ d1, getW_putW_eq]
          simp [abit]
        · show getW _ (x.bp + a + (x.size - a) - 8)
            = pack (x.size - a) (abit false)
          have he : x.bp + a + (x.size - a) - 8 = x.bp + x.size - 8 := by
            omega
          rw [he, getW_putW_eq]
          simp [abit]
      · obtain ⟨m1, m2⟩ := hc1.bmem w (by simp [hw3])
        obtain ⟨u1, u2, u3, u4⟩ := tiled_bounds L2 _ _ ht2 w hw3
        exact ⟨by rw [hframe (w.bp - 4) (by omega)]; exact m1,
          by rw [hframe (w.bp + w.size - 8) (by omega)]; exact m2⟩
  · exact hc1.nodup
  · simp only [putW_freeListp, putW_lo]; exact hc1.flp
  · simp only [putW_lo]
    have hfr : ∀ c, c = x.bp - 4 ∨ c = x.bp + a - 8 ∨ c = x.bp + a - 4 ∨
        c = x.bp + x.size - 8 →
        ∀ y ∈ fl2, c ≠ y ∧ c ≠ y + 8 := by
      intro c hor y hy
      obtain ⟨z, hz, hzbp, _⟩ := hcoupB2 y hy
      obtain ⟨w1, w2, w3, w4⟩ := hxfacts z hz
      have hd := hxdisj z hz
      rcases hd with hd | hd <;>
        rcases hor with rfl | rfl | rfl | rfl <;>
        rw [← hzbp] <;> constructor <;> omega
    rw [flSeg_frame fl2 _ _ _ _ 0 (hfr _ (by tauto)),
      flSeg_frame fl2 _ _ _ _ 0 (hfr _ (by tauto)),
      flSeg_frame fl2 _ _ _ _ 0 (hfr _ (by tauto)),
      flSeg_frame fl2 _ _ _ _ 0 (hfr _ (by tauto))]
    exact hc1.seg
  · -- free blocks are listed (except the new remainder)
    intro w hw hwal
    rcases List.mem_append.mp hw with hw1 | hw2
    · rcases List.mem_append.mp hw1 with hwa | hwb
      · exact Or.inr (hcoupA2 w (Or.inl hwa) hwal)
      · rcases List.mem_singleton.mp hwb with rfl
        cases hwal
    · rcases List.mem_cons.mp hw2 with rfl | hw3
      · exact Or.inl rfl
      · exact Or.inr (hcoupA2 w (Or.inr hw3) hwal)
  · -- listed pointers name free blocks other than the remainder
    intro p hp
    obtain ⟨w, hw, hwbp, hwal⟩ := hcoupB2 p hp
    obtain ⟨w1, w2, w3, w4⟩ := hxfacts w hw
    have hd := hxdisj w hw
    refine ⟨w, ?_, hwbp, hwal, ?_⟩
    · rcases hw with hw | hw
      · exact List.mem_append_left _ (List.mem_append_left _ hw)
      · exact List.mem_append_right _ (List.mem_cons_of_mem _ hw)
    · show p ≠ x.bp + a
      rw [← hwbp]
      omega
  · exact List.mem_append_right _ (List.mem_cons_self _ _)
  · rfl
  · show ¬ (x.bp + a ∈ fl2)
    intro hin
    obtain ⟨w, hw, hwbp, hwal⟩ := hcoupB2 _ hin
    obtain ⟨w1, w2, w3, w4⟩ := hxfacts w hw
    have hd := hxdisj w hw
    omega

/-- `place` on a listed free block of sufficient size: the invariant is
re-established and the block pointer now heads an allocated block of at
least the requested size. -/
theorem place_pres (h : Heap) (L1 L2 : List Blk) (u v : List Nat) (x : Blk)
    (asize : Nat)
    (hinv : Inv h (L1 ++ x :: L2) (u ++ x.bp :: v))
    (hadj : NoAdjFree (L1 ++ x :: L2))
    (hxal : x.al = false)
    (ha8 : asize % 8 = 0) (ha24 : 24 ≤ asize) (hfit : asize ≤ x.size) :
    ∃ bs' fl', Inv (place h x.bp asize) bs' fl' ∧ NoAdjFree bs' ∧
      (∃ y ∈ bs', y.bp = x.bp ∧ y.al = true ∧ asize ≤ y.size) ∧
      (∀ w : Blk, w ∈ L1 ∨ w ∈ L2 → w.al = true → w ∈ bs') := by
  obtain ⟨hcore, hcoupA, hcoupB⟩ := hinv
  have hx : x ∈ L1 ++ x :: L2 := by simp
  obtain ⟨fb1, fb2, fb3, fb4, fb5⟩ := core_block_facts h _ _ hcore x hx
  have hlo := hcore.lo8
  have hsep := hcore.losep
  obtain ⟨ht1, _, _, _, _, ht6⟩ := tiled_split L1 x L2 _ _ hcore.til
  have hhd : getW h (hdrp x.bp) = pack x.size 0 := by
    have hm := (hcore.bmem x hx).1
    rw [hxal] at hm
    show getW h (x.bp - 4) = pack x.size 0
    simpa [abit] using hm
  have htot : getSize (getW h (hdrp x.bp)) = x.size := by
    rw [hhd]
    exact getSize_pack_zero x.size fb4 fb5
  have hsub : sub32 x.size asize = x.size - asize :=
    sub32_of_le x.size asize hfit fb5
  -- link structure around the removed block
  obtain ⟨hsegu, hpfx, hnfx, hsegv⟩ :
      flSeg h ((x.bp :: v).headD (h.lo + 8)) u 0 ∧
      prevFreep h x.bp = u.getLastD 0 ∧
      nextFreep h x.bp = v.headD (h.lo + 8) ∧
      flSeg h (h.lo + 8) v x.bp := by
    have := (flSeg_append u (x.bp :: v) h (h.lo + 8) 0).mp hcore.seg
    exact ⟨this.1, this.2.1, this.2.2.1, this.2.2.2⟩
  have hxnotin : x.bp ∉ u ++ v := by
    intro hmem
    have := List.nodup_middle.mp hcore.nodup
    exact (List.nodup_cons.mp this).1 hmem
  have hother : ∀ p, p ∈ u ∨ p ∈ v →
      ∀ c, x.bp - 4 ≤ c → c ≤ x.bp + x.size - 8 → c ≠ p ∧ c ≠ p + 8 := by
    intro p hp c hc1 hc2
    have hpfl : p ∈ u ++ x.bp :: v := by
      rcases hp with hp | hp
      · exact List.mem_append_left _ hp
      · exact List.mem_append_right _ (List.mem_cons_of_mem _ hp)
    have hpuv : p ∈ u ++ v := by
      rcases hp with hp | hp
      · exact List.mem_append_left _ hp
      · exact List.mem_append_right _ hp
    obtain ⟨z, hz, hzbp, _⟩ := hcoupB p hpfl
    have hzne : z.bp ≠ x.bp := by
      rw [hzbp]
      intro he
      exact hxnotin (he ▸ hpuv)
    have hd := tiled_mem_disj _ _ _ hcore.til z x hz hx hzne
    obtain ⟨g1, g2, g3, _⟩ := core_block_facts h _ _ hcore z hz
    rw [← hzbp]
    constructor <;> omega
  have hpf_cases : u.getLastD 0 = 0 ∨ u.getLastD 0 ∈ u := by
    rcases List.eq_nil_or_concat u with rfl | ⟨u', q, rfl⟩
    · exact Or.inl rfl
    · right
      rw [List.concat_eq_append, List.getLastD_concat]
      simp
  have hnf_cases : v.headD (h.lo + 8) = h.lo + 8 ∨ v.headD (h.lo + 8) ∈ v := by
    cases v with
    | nil => exact Or.inl rfl
    | cons w r => right; simp
  have hconds : ∀ c, x.bp - 4 ≤ c → c ≤ x.bp + x.size - 8 → c ≠ x.bp →
      c ≠ x.bp + 8 →
      c ≠ prevFreep h x.bp + 8 ∧ c ≠ nextFreep h x.bp := by
    intro c hc1 hc2 hc3 hc4
    constructor
    · rw [hpfx]
      rcases hpf_cases with he | hm
      · rw [he]
        omega
      · exact (hother _ (Or.inl hm) c hc1 hc2).2
    · rw [hnfx]
      rcases hnf_cases with he | hm
      · rw [he]
        omega
      · exact (hother _ (Or.inr hm) c hc1 hc2).1
  -- the core shape after the unlink
  have hcore' : InvCore (removeBlock h x.bp) (L1 ++ x :: L2) (u ++ v) :=
    removeBlock_core h _ u v x.bp hcore (fun p hp => by
      obtain ⟨z, hz, hzbp, _⟩ := hcoupB p hp
      exact ⟨z, hz, hzbp⟩)
  -- couplings for the stamped states
  have hA2 : ∀ w : Blk, w ∈ L1 ∨ w ∈ L2 → w.al = false → w.bp ∈ u ++ v := by
    intro w hw hwal
    have hwbs : w ∈ L1 ++ x :: L2 := by
      rcases hw with hw | hw
      · exact List.mem_append_left _ hw
      · exact List.mem_append_right _ (List.mem_cons_of_mem _ hw)
    have hwfl := hcoupA w hwbs hwal
    have hwne : w.bp ≠ x.bp := by
      rcases hw with hw | hw
      · obtain ⟨w1, w2, w3, w4⟩ := tiled_bounds L1 _ _ ht1 w hw
        omega
      · obtain ⟨w1, w2, w3, w4⟩ := tiled_bounds L2 _ _
          (tiled_split L1 x L2 _ _ hcore.til).2.2.2.2.2 w hw
        omega
    exact mem_remove_mid u v x.bp w.bp hwfl hwne
  have hB2 : ∀ p ∈ u ++ v, ∃ w, (w ∈ L1 ∨ w ∈ L2) ∧ w.bp = p ∧
      w.al = false := by
    intro p hp
    have hpfl : p ∈ u ++ x.bp :: v := by
      rcases List.mem_append.mp hp with hp1 | hp2
      · exact List.mem_append_left _ hp1
      · exact List.mem_append_right _ (List.mem_cons_of_mem _ hp2)
    have hpne : p ≠ x.bp := fun he => hxnotin (he ▸ hp)
    obtain ⟨z, hz, hzbp, hzal⟩ := hcoupB p hpfl
    have hzx : z ≠ x := by
      intro he
      rw [he] at hzbp
      exact hpne hzbp.symm
    rcases List.mem_append.mp hz with hz1 | hz2
    · exact ⟨z, Or.inl hz1, hzbp, hzal⟩
    · rcases List.mem_cons.mp hz2 with he | hz3
      · exact absurd he hzx
      · exact ⟨z, Or.inr hz3, hzbp, hzal⟩
  have hch1 : List.Chain' (fun a b => a.al = true ∨ b.al = true) L1 :=
    (List.chain'_append.mp hadj).1
  have hch2 : List.Chain' (fun a b => a.al = true ∨ b.al = true) L2 :=
    (List.chain'_cons'.mp (List.chain'_append.mp hadj).2.1).2
  -- commute the two front-tag writes past the unlink
  have hswap : ∀ w1 w2,
      removeBlock (putW (putW h (x.bp - 4) w1) (x.bp + asize - 8) w2) x.bp
      = putW (putW (removeBlock h x.bp) (x.bp - 4) w1)
          (x.bp + asize - 8) w2 := by
    intro w1 w2
    have hpfi : prevFreep (putW h (x.bp - 4) w1) x.bp = prevFreep h x.bp := by
      unfold prevFreep
      rw [getW_putW_ne _ _ _ _ (by omega)]
    have hnfi : nextFreep (putW h (x.bp - 4) w1) x.bp = nextFreep h x.bp := by
      unfold nextFreep
      rw [getW_putW_ne _ _ _ _ (by omega)]
    obtain ⟨e1, e2⟩ := hconds (x.bp + asize - 8) (by omega) (by omega)
      (by omega) (by omega)
    obtain ⟨f1, f2⟩ := hconds (x.bp - 4) (by omega) (by omega)
      (by omega) (by omega)
    rw [removeBlock_putW_comm _ _ _ _ (by omega) (by omega)
      (by rw [hpfi]; exact e1) (by rw [hnfi]; exact e2)]
    rw [removeBlock_putW_comm _ _ _ _ (by omega) (by omega) f1 f2]
  by_cases hsplit : OVERHEAD ≤ x.size - asize
  · -- split: allocate the front, free-tag and coalesce the remainder
    have htot' : getSize (getW h (x.bp - 4)) = x.size := htot
    have heq : place h x.bp asize =
        (coalesce (putW (putW (putW (putW (removeBlock h x.bp)
          (x.bp - 4) (pack asize 1)) (x.bp + asize - 8) (pack asize 1))
          (x.bp + asize - 4) (pack (x.size - asize) 0))
          (x.bp + x.size - 8) (pack (x.size - asize) 0)) (x.bp + asize)).1
        := by
      simp only [place, hdrp]
      rw [htot', hsub, if_pos hsplit]
      have hftr1 : ftrp (putW h (x.bp - 4) (pack asize 1)) x.bp
          = x.bp + asize - 8 := by
        unfold ftrp hdrp
        rw [getW_putW_eq, getSize_pack_one asize ha8 (by
          unfold MOD32 at *
          omega)]
      rw [hftr1]
      rw [hswap (pack asize 1) (pack asize 1)]
      have hnb : nextBlkp (putW (putW (removeBlock h x.bp) (x.bp - 4)
          (pack asize 1)) (x.bp + asize - 8) (pack asize 1)) x.bp
          = x.bp + asize := by
        unfold nextBlkp hdrp
        rw [getW_putW_ne _ _ _ _ (by omega), getW_putW_eq,
          getSize_pack_one asize ha8 (by unfold MOD32 at *; omega)]
      rw [hnb]
      have hftr2 : ftrp (putW (putW (putW (removeBlock h x.bp) (x.bp - 4)
          (pack asize 1)) (x.bp + asize - 8) (pack asize 1))
          (x.bp + asize - 4) (pack (x.size - asize) 0)) (x.bp + asize)
          = x.bp + x.size - 8 := by
        unfold ftrp hdrp
        rw [getW_putW_eq, getSize_pack_zero (x.size - asize) (by omega)
          (by unfold MOD32 at *; omega)]
        omega
      rw [hftr2]
    have hpre3 := split_tags (removeBlock h x.bp) L1 L2 (u ++ v) x asize
      (by simpa using hcore') ha8 ha24 (by unfold OVERHEAD at hsplit; omega)
      hfit
      (by rw [removeBlock_lo]; exact ht1)
      (by
        rw [removeBlock_hi]
        exact (tiled_split L1 x L2 _ _ hcore.til).2.2.2.2.2)
      (by rw [removeBlock_lo]; omega)
      hA2 hB2
    have hchY : List.Chain' (fun a b => a.al = true ∨ b.al = true)
        (L1 ++ [⟨x.bp, asize, true⟩]) := by
      refine List.chain'_append.mpr ⟨hch1, List.chain'_singleton _, ?_⟩
      intro a ha b hb
      simp only [List.head?_cons, Option.mem_def, Option.some.injEq] at hb
      subst hb
      exact Or.inr rfl
    obtain ⟨h2c, bp2c, M1, M2, sz, rest, e1, e2, e3, _, _, hmem⟩ :=
      coalesce_pres _ (L1 ++ [⟨x.bp, asize, true⟩]) L2 (u ++ v)
        ⟨x.bp + asize, x.size - asize, false⟩ hpre3 hchY hch2
    have hintobs : ∀ w : Blk, w ∈ M1 ∨ w ∈ M2 →
        w ∈ M1 ++ ⟨bp2c, sz, false⟩ :: M2 := by
      intro w hw
      rcases hw with hw | hw
      · exact List.mem_append_left _ hw
      · exact List.mem_append_right _ (List.mem_cons_of_mem _ hw)
    refine ⟨M1 ++ ⟨bp2c, sz, false⟩ :: M2, bp2c :: rest, ?_, e3, ?_, ?_⟩
    · rw [heq]
      have e1' : coalesce (putW (putW (putW (putW (removeBlock h x.bp)
          (x.bp - 4) (pack asize 1)) (x.bp + asize - 8) (pack asize 1))
          (x.bp + asize - 4) (pack (x.size - asize) 0))
          (x.bp + x.size - 8) (pack (x.size - asize) 0)) (x.bp + asize)
          = (h2c, bp2c) := e1
      rw [e1']
      exact e2
    · have hy : (⟨x.bp, asize, true⟩ : Blk) ∈ M1 ∨
          (⟨x.bp, asize, true⟩ : Blk) ∈ M2 :=
        hmem ⟨x.bp, asize, true⟩ (Or.inl (by simp)) rfl
      exact ⟨⟨x.bp, asize, true⟩, hintobs _ hy, rfl, rfl, le_refl _⟩
    · intro w hw hwal
      refine hintobs w (hmem w ?_ hwal)
      rcases hw with hw | hw
      · exact Or.inl (List.mem_append_left _ hw)
      · exact Or.inr hw
  · -- no split: allocate the whole block
    have htot' : getSize (getW h (x.bp - 4)) = x.size := htot
    have heq : place h x.bp asize =
        putW (putW (removeBlock h x.bp) (x.bp - 4) (pack x.size 1))
          (x.bp + x.size - 8) (pack x.size 1) := by
      simp only [place, hdrp]
      rw [htot', hsub, if_neg hsplit]
      have hftr1 : ftrp (putW h (x.bp - 4) (pack x.size 1)) x.bp
          = x.bp + x.size - 8 := by
        unfold ftrp hdrp
        rw [getW_putW_eq, getSize_pack_one x.size fb4 fb5]
      rw [hftr1]
      have hswap2 : removeBlock (putW (putW h (x.bp - 4) (pack x.size 1))
          (x.bp + x.size - 8) (pack x.size 1)) x.bp
          = putW (putW (removeBlock h x.bp) (x.bp - 4) (pack x.size 1))
              (x.bp + x.size - 8) (pack x.size 1) := by
        have hpfi : prevFreep (putW h (x.bp - 4) (pack x.size 1)) x.bp
            = prevFreep h x.bp := by
          unfold prevFreep
          rw [getW_putW_ne _ _ _ _ (by omega)]
        have hnfi : nextFreep (putW h (x.bp - 4) (pack x.size 1)) x.bp
            = nextFreep h x.bp := by
          unfold nextFreep
          rw [getW_putW_ne _ _ _ _ (by omega)]
        obtain ⟨e1, e2⟩ := hconds (x.bp + x.size - 8) (by omega) (by omega)
          (by omega) (by omega)
        obtain ⟨f1, f2⟩ := hconds (x.bp - 4) (by omega) (by omega)
          (by omega) (by omega)
        rw [removeBlock_putW_comm _ _ _ _ (by omega) (by omega)
          (by rw [hpfi]; exact e1) (by rw [hnfi]; exact e2)]
        rw [removeBlock_putW_comm _ _ _ _ (by omega) (by omega) f1 f2]
      exact hswap2
    have hinv2 := alloc_tags (removeBlock h x.bp) L1 [x] L2 (u ++ v)
      ⟨x.bp, x.size, true⟩ (by simpa using hcore') rfl fb4 fb3
      (by rw [removeBlock_lo]; exact ht1)
      (by
        rw [removeBlock_hi]
        show tiled L2 (x.bp - 4 + x.size) (h.hi - 4)
        exact (tiled_split L1 x L2 _ _ hcore.til).2.2.2.2.2)
      (by rw [removeBlock_lo]; show h.lo + 44 ≤ x.bp - 4; omega)
      hA2 hB2
    refine ⟨L1 ++ ⟨x.bp, x.size, true⟩ :: L2, u ++ v, ?_, ?_, ?_, ?_⟩
    · rw [heq]
      exact hinv2
    · refine List.chain'_append.mpr ⟨hch1, ?_, ?_⟩
      · refine List.chain'_cons'.mpr ⟨fun y _ => Or.inl rfl, hch2⟩
      · intro a ha b hb
        simp only [List.head?_cons, Option.mem_def, Option.some.injEq] at hb
        subst hb
        exact Or.inr rfl
    · exact ⟨⟨x.bp, x.size, true⟩, by simp, rfl, rfl, hfit⟩
    · intro w hw _
      rcases hw with hw | hw
      · exact List.mem_append_left _ hw
      · exact List.mem_append_right _ (List.mem_cons_of_mem _ hw)

/-- The effective byte count of `extend_heap(words)`: rounded up to an
even word count and floored at `OVERHEAD`. -/
def efWords (words : Nat) : Nat :=
  let size := if words % 2 = 1 then (words + 1) * WSIZE else words * WSIZE
  if size < OVERHEAD then OVERHEAD else size

theorem efWords_facts (words : Nat) :
    efWords words % 8 = 0 ∧ 24 ≤ efWords words := by
  simp only [efWords, WSIZE, OVERHEAD]
  by_cases hp : words % 2 = 1
  · rw [if_pos hp]
    by_cases hs : (words + 1) * 4 < 24
    · rw [if_pos hs]
      exact ⟨by decide, by decide⟩
    · rw [if_neg hs]
      omega
  · rw [if_neg hp]
    by_cases hs : words * 4 < 24
    · rw [if_pos hs]
      exact ⟨by decide, by decide⟩
    · rw [if_neg hs]
      omega

theorem extendHeap_eq (h : Heap) (words : Nat) :
    extendHeap h words =
      match memSbrk h (efWords words) with
      | none => none
      | some (h1, bp) =>
        let h2 := putW h1 (hdrp bp) (pack (efWords words) 0)
        let h3 := putW h2 (ftrp h2 bp) (pack (efWords words) 0)
        let h4 := putW h3 (hdrp (nextBlkp h3 bp)) (pack 0 1)
        some (coalesce h4 bp) := rfl

/-- Stamping the freshly obtained pages as one free block with a new
epilogue establishes the coalescer precondition with the block appended
to the tiling. -/
theorem extend_stamp (h : Heap) (bs : List Blk) (fl : List Nat) (s : Nat)
    (hinv : Inv h bs fl)
    (hs8 : s % 8 = 0) (hs24 : 24 ≤ s) (hfits : h.hi + s ≤ h.limit) :
    PreC (putW (putW (putW ({ h with hi := h.hi + s })
        (h.hi - 4) (pack s 0)) (h.hi + s - 8) (pack s 0))
        (h.hi + s - 4) (pack 0 1))
      (bs ++ (⟨h.hi, s, false⟩ : Blk) :: []) fl ⟨h.hi, s, false⟩ := by
  obtain ⟨hc, hcoupA, hcoupB⟩ := hinv
  have hlo := hc.lo8
  have hsep := hc.losep
  have hgw1 : ∀ c, getW ({ h with hi := h.hi + s }) c = getW h c :=
    fun c => rfl
  have hframe : ∀ c, c + 8 ≤ h.hi →
      getW (putW (putW (putW ({ h with hi := h.hi + s })
        (h.hi - 4) (pack s 0)) (h.hi + s - 8) (pack s 0))
        (h.hi + s - 4) (pack 0 1)) c = getW h c := by
    intro c hc4
    have d1 : c ≠ h.hi + s - 4 := by omega
    have d2 : c ≠ h.hi + s - 8 := by omega
    have d3 : c ≠ h.hi - 4 := by omega
    rw [getW_putW_ne _ _ _ _ d1, getW_putW_ne _ _ _ _ d2,
      getW_putW_ne _ _ _ _ d3]
    exact hgw1 c
  have hblk : ∀ x ∈ bs, h.lo + 48 ≤ x.bp ∧ x.bp + x.size ≤ h.hi ∧
      24 ≤ x.size ∧ x.size % 8 = 0 := by
    intro x hx
    obtain ⟨u1, u2, u3, u4⟩ := tiled_bounds bs _ _ hc.til x hx
    exact ⟨by omega, by omega, u3, u4⟩
  refine ⟨⟨?_, ?_, ?_, ?_, ?_, ?_, ?_, ?_, ?_, ?_, ?_, ?_, ?_, ?_, ?_, ?_⟩,
    ?_, ?_, ?_, ?_, ?_⟩
  · simp only [putW_heapListp, putW_lo]; exact hc.hlp
  · simp only [putW_lo]; exact hc.lo8
  · simp only [putW_lo]; exact hc.lom
  · simp only [putW_hi]
    show (h.hi + s) % 8 = 0
    have := hc.him
    omega
  · simp only [putW_lo, putW_hi]
    show h.lo + 72 ≤ h.hi + s
    omega
  · simp only [putW_hi, putW_limit]
    exact hfits
  · simp only [putW_limit]; exact hc.liml
  · simp only [putW_lo]
    rw [hframe (h.lo + 4) (by omega)]
    exact hc.prohd
  · simp only [putW_lo]
    rw [hframe (h.lo + 24) (by omega)]
    exact hc.proft
  · simp only [putW_lo]
    rw [hframe (h.lo + 40) (by omega)]
    exact hc.gap
  · simp only [putW_hi]
    show getW _ (h.hi + s - 4) = pack 0 1
    rw [getW_putW_eq]
  · simp only [putW_lo, putW_hi]
    show tiled (bs ++ (⟨h.hi, s, false⟩ : Blk) :: []) (h.lo + 44)
      (h.hi + s - 4)
    refine tiled_append bs _ _ (h.hi - 4) _ hc.til
      ⟨by show h.hi = h.hi - 4 + 4; omega, hs24, hs8, ?_⟩
    show tiled [] (h.hi - 4 + s) (h.hi + s - 4)
    show h.hi - 4 + s = h.hi + s - 4
    omega
  · intro x hx
    rcases List.mem_append.mp hx with hx1 | hx2
    · obtain ⟨m1, m2⟩ := hc.bmem x hx1
      obtain ⟨u1, u2, u3, u4⟩ := hblk x hx1
      exact ⟨by rw [hframe (x.bp - 4) (by omega)]; exact m1,
        by rw [hframe (x.bp + x.size - 8) (by omega)]; exact m2⟩
    · rcases List.mem_cons.mp hx2 with rfl | hx3
      · refine ⟨?_, ?_⟩
        · show getW _ (h.hi - 4) = pack s (abit false)
          have d1 : h.hi - 4 ≠ h.hi + s - 4 := by omega
          have d2 : h.hi - 4 ≠ h.hi + s - 8 := by omega
          rw [getW_putW_ne _ _ _ _ d1, getW_putW_ne _ _ _ _ d2,
            getW_putW_eq]
          simp [abit]
        · show getW _ (h.hi + s - 8) = pack s (abit false)
          have d1 : h.hi + s - 8 ≠ h.hi + s - 4 := by omega
          rw [getW_putW_ne _ _ _ _ d1, getW_putW_eq]
          simp [abit]
      · cases hx3
  · exact hc.nodup
  · simp only [putW_freeListp, putW_lo]; exact hc.flp
  · simp only [putW_lo]
    have hfr : ∀ c, c = h.hi - 4 ∨ c = h.hi + s - 8 ∨ c = h.hi + s - 4 →
        ∀ y ∈ fl, c ≠ y ∧ c ≠ y + 8 := by
      intro c hor y hy
      obtain ⟨z, hz, hzbp, _⟩ := hcoupB y hy
      obtain ⟨w1, w2, w3, w4⟩ := hblk z hz
      rcases hor with rfl | rfl | rfl <;> rw [← hzbp] <;>
        constructor <;> omega
    rw [flSeg_frame fl _ _ _ _ 0 (hfr _ (by tauto)),
      flSeg_frame fl _ _ _ _ 0 (hfr _ (by tauto)),
      flSeg_frame fl _ _ _ _ 0 (hfr _ (by tauto))]
    have : flSeg ({ h with hi := h.hi + s }) (h.lo + 8) fl 0 ↔
        flSeg h (h.lo + 8) fl 0 :=
      flSeg_congr { h with hi := h.hi + s } h rfl (h.lo + 8) fl 0
    rw [this]
    exact hc.seg
  · intro x hx hxal
    rcases List.mem_append.mp hx with hx1 | hx2
    · exact Or.inr (hcoupA x hx1 hxal)
    · rcases List.mem_cons.mp hx2 with rfl | hx3
      · exact Or.inl rfl
      · cases hx3
  · intro p hp
    obtain ⟨z, hz, hzbp, hzal⟩ := hcoupB p hp
    obtain ⟨w1, w2, w3, w4⟩ := hblk z hz
    refine ⟨z, List.mem_append_left _ hz, hzbp, hzal, ?_⟩
    show p ≠ h.hi
    rw [← hzbp]
    omega
  · exact List.mem_append_right _ (List.mem_cons_self _ _)
  · rfl
  · show ¬ (h.hi ∈ fl)
    intro hin
    obtain ⟨z, hz, hzbp, _⟩ := hcoupB _ hin
    obtain ⟨w1, w2, w3, w4⟩ := hblk z hz
    omega

/-- `extend_heap` on an invariant state: the new pages become a free
block (possibly merged with a trailing free block) heading the free
list. -/
theorem extendHeap_pres (h : Heap) (bs : List Blk) (fl : List Nat)
    (words : Nat) (res : Heap × Nat)
    (hinv : Inv h bs fl) (hadj : NoAdjFree bs)
    (hrun : extendHeap h words = some res) :
    ∃ M1 M2 sz rest,
      Inv res.1 (M1 ++ ⟨res.2, sz, false⟩ :: M2) (res.2 :: rest) ∧
      NoAdjFree (M1 ++ ⟨res.2, sz, false⟩ :: M2) ∧ efWords words ≤ sz ∧
      (∀ w ∈ bs, w.al = true →
        w ∈ M1 ++ (⟨res.2, sz, false⟩ : Blk) :: M2) := by
  obtain ⟨hs8, hs24⟩ := efWords_facts words
  have hliml := hinv.1.liml
  have hlo := hinv.1.lo8
  have hsep := hinv.1.losep
  rw [extendHeap_eq] at hrun
  by_cases hle : h.hi + efWords words ≤ h.limit
  · simp only [memSbrk, if_pos hle] at hrun
    have hslt : efWords words < MOD32 := by
      unfold MOD32 at *
      omega
    have hh2 : hdrp h.hi = h.hi - 4 := rfl
    rw [hh2] at hrun
    have hftr : ftrp (putW ({ h with hi := h.hi + efWords words })
        (h.hi - 4) (pack (efWords words) 0)) h.hi
        = h.hi + efWords words - 8 := by
      unfold ftrp hdrp
      rw [getW_putW_eq, getSize_pack_zero _ hs8 hslt]
    rw [hftr] at hrun
    have hnb : nextBlkp (putW (putW ({ h with hi := h.hi + efWords words })
        (h.hi - 4) (pack (efWords words) 0))
        (h.hi + efWords words - 8) (pack (efWords words) 0)) h.hi
        = h.hi + efWords words := by
      unfold nextBlkp hdrp
      rw [getW_putW_ne _ _ _ _ (by omega), getW_putW_eq,
        getSize_pack_zero _ hs8 hslt]
    rw [hnb] at hrun
    have hh4 : hdrp (h.hi + efWords words) = h.hi + efWords words - 4 := rfl
    rw [hh4] at hrun
    have hpre := extend_stamp h bs fl (efWords words) hinv hs8 hs24 hle
    obtain ⟨h2c, bp2c, M1, M2, sz, rest, e1, e2, e3, hsz, _, hmem⟩ :=
      coalesce_pres _ bs [] fl ⟨h.hi, efWords words, false⟩ hpre hadj
        List.chain'_nil
    have e1' : coalesce (putW (putW (putW ({ h with
        hi := h.hi + efWords words }) (h.hi - 4) (pack (efWords words) 0))
        (h.hi + efWords words - 8) (pack (efWords words) 0))
        (h.hi + efWords words - 4) (pack 0 1)) h.hi = (h2c, bp2c) := e1
    rw [e1'] at hrun
    have hres : res = (h2c, bp2c) := by
      cases hrun
      rfl
    subst hres
    refine ⟨M1, M2, sz, rest, e2, e3, hsz, ?_⟩
    intro w hw hwal
    rcases hmem w (Or.inl hw) hwal with hm | hm
    · exact List.mem_append_left _ hm
    · exact List.mem_append_right _ (List.mem_cons_of_mem _ hm)
  · simp only [memSbrk, if_neg hle] at hrun
    cases hrun

/-- `mm_malloc` on an invariant state: the invariant is re-established
and any returned pointer heads an allocated block of at least the
adjusted size. -/
theorem mmMalloc_pres (fuel : Nat) (h : Heap) (size : Nat) (bs : List Blk)
    (fl : List Nat) (res : Heap × Option Nat)
    (hinv : Inv h bs fl) (hadj : NoAdjFree bs)
    (hrun : mmMalloc fuel h size = some res) :
    ∃ bs' fl', Inv res.1 bs' fl' ∧ NoAdjFree bs' ∧
      (∀ bp, res.2 = some bp → ∃ y ∈ bs', y.bp = bp ∧ y.al = true ∧
        adjustedSize size ≤ y.size) ∧
      (∀ w ∈ bs, w.al = true → w ∈ bs') := by
  by_cases hsz0 : size = 0
  · simp only [mmMalloc, if_pos hsz0] at hrun
    have hres : res = (h, none) := by
      cases hrun
      rfl
    subst hres
    refine ⟨bs, fl, hinv, hadj, ?_, fun w hw _ => hw⟩
    intro bp he
    cases he
  · simp only [mmMalloc, if_neg hsz0] at hrun
    have ha8 := adjustedSize_mod size
    have ha24 : 24 ≤ adjustedSize size := adjustedSize_ge size
    cases hff : findFit h (adjustedSize size) fuel with
    | none =>
      rw [hff] at hrun
      cases hrun
    | some r =>
      cases r with
      | some bp =>
        rw [hff] at hrun
        have hres : res = (place h bp (adjustedSize size), some bp) := by
          cases hrun
          rfl
        subst hres
        obtain ⟨x, hx, hxbp, hxal, hxfit, hxfl⟩ := findFit_spec h bs fl
          (adjustedSize size) fuel bp hinv.1
          (fun p hp => hinv.2.2 p hp) hff
        obtain ⟨L1, L2, rfl⟩ := List.append_of_mem hx
        obtain ⟨u, v, hfl⟩ := List.append_of_mem hxfl
        subst hxbp
        subst hfl
        obtain ⟨bs', fl', hi', ha', ⟨y, hy, hybp, hyal, hysz⟩, htrans⟩ :=
          place_pres h L1 L2 u v x (adjustedSize size) hinv hadj hxal ha8
            ha24 hxfit
        refine ⟨bs', fl', hi', ha', ?_, ?_⟩
        · intro bp2 he
          obtain ⟨rfl⟩ : x.bp = bp2 := by
            simpa using he
          exact ⟨y, hy, hybp, hyal, hysz⟩
        · intro w hw hwal
          rcases List.mem_append.mp hw with hw1 | hw2
          · exact htrans w (Or.inl hw1) hwal
          · rcases List.mem_cons.mp hw2 with rfl | hw3
            · rw [hxal] at hwal
              cases hwal
            · exact htrans w (Or.inr hw3) hwal
      | none =>
        rw [hff] at hrun
        have hmax : max (adjustedSize size) CHUNKSIZE = adjustedSize size :=
          Nat.max_eq_left (by unfold CHUNKSIZE; omega)
        rw [hmax] at hrun
        have hef : efWords (adjustedSize size / WSIZE) = adjustedSize size
            := by
          simp only [efWords, WSIZE, OVERHEAD]
          have hd : adjustedSize size / 4 % 2 = 0 := by omega
          have h1 : (if adjustedSize size / 4 % 2 = 1
              then (adjustedSize size / 4 + 1) * 4
              else adjustedSize size / 4 * 4) = adjustedSize size / 4 * 4 :=
            if_neg (by omega)
          rw [h1, if_neg (show ¬ adjustedSize size / 4 * 4 < 24 by omega)]
          omega
        cases hex : extendHeap h (adjustedSize size / WSIZE) with
        | none =>
          rw [hex] at hrun
          have hres : res = (h, none) := by
            cases hrun
            rfl
          subst hres
          refine ⟨bs, fl, hinv, hadj, ?_, fun w hw _ => hw⟩
          intro bp he
          cases he
        | some er =>
          rw [hex] at hrun
          have hres : res = (place er.1 er.2 (adjustedSize size),
              some er.2) := by
            cases er
            cases hrun
            rfl
          subst hres
          obtain ⟨M1, M2, sz, rest, hi1, ha1, hsle, hextr⟩ :=
            extendHeap_pres h bs fl (adjustedSize size / WSIZE) er hinv hadj
              hex
          rw [hef] at hsle
          obtain ⟨bs', fl', hi', ha', ⟨y, hy, hybp, hyal, hysz⟩, htrans⟩ :=
            place_pres er.1 M1 M2 [] rest ⟨er.2, sz, false⟩
              (adjustedSize size) hi1 ha1 rfl ha8 ha24 hsle
          refine ⟨bs', fl', hi', ha', ?_, ?_⟩
          · intro bp2 he
            obtain ⟨rfl⟩ : er.2 = bp2 := by
              simpa using he
            exact ⟨y, hy, hybp, hyal, hysz⟩
          · intro w hw hwal
            have hw2 := hextr w hw hwal
            rcases List.mem_append.mp hw2 with hw3 | hw4
            · exact htrans w (Or.inl hw3) hwal
            · rcases List.mem_cons.mp hw4 with he | hw5
              · rw [he] at hwal
                cases hwal
              · exact htrans w (Or.inr hw5) hwal

theorem memcpyWords_frame : ∀ (k : Nat) (h : Heap) (dst src c : Nat),
    (c < dst ∨ dst + 4 * k ≤ c) →
    getW (memcpyWords h dst src k) c = getW h c := by
  intro k
  induction k with
  | zero => intro h dst src c hor; rfl
  | succ k ih =>
    intro h dst src c hor
    show getW (memcpyWords (putW h dst (getW h src)) (dst + 4) (src + 4) k) c
      = getW h c
    rw [ih (putW h dst (getW h src)) (dst + 4) (src + 4) c (by omega)]
    rw [getW_putW_ne _ _ _ _ (by omega)]

theorem memcpyWords_withMem : ∀ (k : Nat) (h : Heap) (dst src : Nat),
    ∃ m, memcpyWords h dst src k = { h with mem := m } := by
  intro k
  induction k with
  | zero => intro h dst src; exact ⟨h.mem, rfl⟩
  | succ k ih =>
    intro h dst src
    obtain ⟨m, e⟩ := ih (putW h dst (getW h src)) (dst + 4) (src + 4)
    exact ⟨m, e⟩

theorem memcpyBytes_withMem (h : Heap) (dst src n : Nat) :
    ∃ m, memcpyBytes h dst src n = { h with mem := m } := by
  simp only [memcpyBytes]
  obtain ⟨m, e⟩ := memcpyWords_withMem (n / 4) h dst src
  by_cases hm : n % 4 = 0
  · rw [if_pos hm]
    exact ⟨m, e⟩
  · rw [if_neg hm, e]
    exact ⟨_, rfl⟩

theorem memcpyBytes_frame (h : Heap) (dst src n c : Nat)
    (hor : c < dst ∨ dst + n ≤ c) :
    getW (memcpyBytes h dst src n) c = getW h c := by
  simp only [memcpyBytes]
  by_cases hm : n % 4 = 0
  · rw [if_pos hm]
    exact memcpyWords_frame (n / 4) h dst src c (by omega)
  · rw [if_neg hm]
    rw [getW_putW_ne _ _ _ _ (by omega)]
    exact memcpyWords_frame (n / 4) h dst src c (by omega)

theorem flSeg_ext (h h' : Heap) (tgt : Nat) : ∀ (l : List Nat) (pv : Nat),
    (∀ p ∈ l, getW h' p = getW h p ∧ getW h' (p + 8) = getW h (p + 8)) →
    (flSeg h' tgt l pv ↔ flSeg h tgt l pv) := by
  intro l
  induction l with
  | nil => intro pv hcells; exact Iff.rfl
  | cons q r ih =>
    intro pv hcells
    obtain ⟨e1, e2⟩ := hcells q (List.mem_cons_self q r)
    have hr := ih q (fun p hp => hcells p (List.mem_cons_of_mem q hp))
    unfold flSeg prevFreep nextFreep
    rw [e1, e2, hr]

/-- `memcpy` into the payload of an allocated block preserves the
invariant verbatim. -/
theorem memcpy_pres (h : Heap) (bs : List Blk) (fl : List Nat) (y : Blk)
    (src n : Nat) (hinv : Inv h bs fl) (hy : y ∈ bs) (hyal : y.al = true)
    (hn : n + 8 ≤ y.size) :
    Inv (memcpyBytes h y.bp src n) bs fl := by
  obtain ⟨hc, hcoupA, hcoupB⟩ := hinv
  obtain ⟨fy1, fy2, fy3, fy4, fy5⟩ := core_block_facts h bs fl hc y hy
  have hlo := hc.lo8
  have hsep := hc.losep
  obtain ⟨m, e⟩ := memcpyBytes_withMem h y.bp src n
  have hfr : ∀ c, (c < y.bp ∨ y.bp + n ≤ c) →
      getW (memcpyBytes h y.bp src n) c = getW h c :=
    fun c hor => memcpyBytes_frame h y.bp src n c hor
  have hzdisj : ∀ z ∈ bs, z.bp ≠ y.bp →
      z.bp + z.size ≤ y.bp ∨ y.bp + y.size ≤ z.bp :=
    fun z hz hne => tiled_mem_disj bs _ _ hc.til z y hz hy hne
  refine ⟨⟨?_, ?_, ?_, ?_, ?_, ?_, ?_, ?_, ?_, ?_, ?_, ?_, ?_, ?_, ?_, ?_⟩,
    hcoupA, hcoupB⟩
  · rw [e]; exact hc.hlp
  · rw [e]; exact hc.lo8
  · rw [e]; exact hc.lom
  · rw [e]; exact hc.him
  · rw [e]; exact hc.losep
  · rw [e]; exact hc.hil
  · rw [e]; exact hc.liml
  · rw [e]
    show getW ({ h with mem := m }) (h.lo + 4) = pack 24 1
    rw [← e, hfr (h.lo + 4) (by omega)]
    exact hc.prohd
  · rw [e]
    show getW ({ h with mem := m }) (h.lo + 24) = pack 24 1
    rw [← e, hfr (h.lo + 24) (by omega)]
    exact hc.proft
  · rw [e]
    show getSize (getW ({ h with mem := m }) (h.lo + 40)) = 0
    rw [← e, hfr (h.lo + 40) (by omega)]
    exact hc.gap
  · rw [e]
    show getW ({ h with mem := m }) (h.hi - 4) = pack 0 1
    rw [← e, hfr (h.hi - 4) (by omega)]
    exact hc.epi
  · rw [e]; exact hc.til
  · intro w hw
    obtain ⟨m1, m2⟩ := hc.bmem w hw
    obtain ⟨g1, g2, g3, g4, g5⟩ := core_block_facts h bs fl hc w hw
    by_cases hne : w.bp = y.bp
    · have hwy : w = y := tiled_bp_inj bs _ _ hc.til w y hw hy hne
      subst hwy
      exact ⟨by rw [hfr (w.bp - 4) (by omega)]; exact m1,
        by rw [hfr (w.bp + w.size - 8) (by omega)]; exact m2⟩
    · have hd := hzdisj w hw hne
      exact ⟨by rw [hfr (w.bp - 4) (by omega)]; exact m1,
        by rw [hfr (w.bp + w.size - 8) (by omega)]; exact m2⟩
  · exact hc.nodup
  · rw [e]; exact hc.flp
  · rw [e]
    show flSeg ({ h with mem := m }) (h.lo + 8) fl 0
    rw [← e]
    rw [flSeg_ext h _ (h.lo + 8) fl 0 ?_]
    · exact hc.seg
    · intro p hp
      obtain ⟨z, hz, hzbp, hzal⟩ := hcoupB p hp
      have hzne : z.bp ≠ y.bp := by
        intro he
        have := tiled_bp_inj bs _ _ hc.til z y hz hy he
        rw [this, hyal] at hzal
        cases hzal
      have hd := hzdisj z hz hzne
      obtain ⟨g1, g2, g3, g4, g5⟩ := core_block_facts h bs fl hc z hz
      rw [← hzbp]
      exact ⟨hfr z.bp (by omega), hfr (z.bp + 8) (by omega)⟩

/-- `mm_realloc` on an invariant state with a valid (or null) pointer:
the invariant is re-established. -/
theorem mmRealloc_pres (fuel : Nat) (h : Heap) (bp size : Nat)
    (bs : List Blk) (fl : List Nat) (res : RRes)
    (hinv : Inv h bs fl) (hadj : NoAdjFree bs)
    (hvalid : bp = 0 ∨ ∃ b ∈ bs, b.bp = bp ∧ b.al = true)
    (hrun : mmRealloc fuel h bp size = some res) :
    ∃ bs' fl', Inv res.heap bs' fl' ∧ NoAdjFree bs' := by
  simp only [mmRealloc] at hrun
  by_cases hsz0 : size = 0
  · rw [if_pos hsz0] at hrun
    have hres : res = ⟨mmFree h bp, 0, none⟩ := by
      cases hrun
      rfl
    subst hres
    rcases hvalid with rfl | ⟨b, hb, rfl, hbal⟩
    · show ∃ bs' fl', Inv (mmFree h 0) bs' fl' ∧ NoAdjFree bs'
      rw [show mmFree h 0 = h from rfl]
      exact ⟨bs, fl, hinv, hadj⟩
    · exact mmFree_pres h bs fl b hinv hadj hb hbal
  · rw [if_neg hsz0] at hrun
    by_cases hbp0 : bp = 0
    · rw [if_pos hbp0] at hrun
      cases hmal : mmMalloc fuel h size with
      | none =>
        rw [hmal] at hrun
        cases hrun
      | some mr =>
        rw [hmal] at hrun
        have hres : res = ⟨mr.1, mr.2.getD 0, none⟩ := by
          cases mr
          cases hrun
          rfl
        subst hres
        obtain ⟨bs', fl', hi', ha', _, _⟩ :=
          mmMalloc_pres fuel h size bs fl mr hinv hadj hmal
        exact ⟨bs', fl', hi', ha'⟩
    · rw [if_neg hbp0] at hrun
      rcases hvalid with rfl | ⟨b, hb, hbbp, hbal⟩
      · exact absurd rfl hbp0
      subst hbbp
      obtain ⟨fb1, fb2, fb3, fb4, fb5⟩ := core_block_facts h bs fl hinv.1 b hb
      have hlo := hinv.1.lo8
      have holdsz : getSize (getW h (hdrp b.bp)) = b.size := by
        have hm := (hinv.1.bmem b hb).1
        show getSize (getW h (b.bp - 4)) = b.size
        rw [hm, hbal]
        simpa [abit] using getSize_pack_one b.size fb4 fb5
      rw [holdsz] at hrun
      have ha8 := adjustedSize_mod size
      have ha24 : 24 ≤ adjustedSize size := adjustedSize_ge size
      have halt := adjustedSize_lt size
      by_cases heq : b.size = adjustedSize size
      · rw [if_pos heq] at hrun
        have hres : res = ⟨h, b.bp, none⟩ := by
          cases hrun
          rfl
        subst hres
        exact ⟨bs, fl, hinv, hadj⟩
      · rw [if_neg heq] at hrun
        by_cases hle : adjustedSize size ≤ b.size
        · rw [if_pos hle] at hrun
          rw [sub32_of_le b.size (adjustedSize size) hle fb5] at hrun
          by_cases hov : b.size - adjustedSize size ≤ OVERHEAD
          · rw [if_pos hov] at hrun
            have hres : res = ⟨h, b.bp, none⟩ := by
              cases hrun
              rfl
            subst hres
            exact ⟨bs, fl, hinv, hadj⟩
          · rw [if_neg hov] at hrun
            -- in-place shrink: stamp the front, free-tag the tail, coalesce
            have hr24 : 24 ≤ b.size - adjustedSize size := by
              unfold OVERHEAD at hov
              omega
            have hftr1 : ftrp (putW h (hdrp b.bp) (pack (adjustedSize size)
                1)) b.bp = b.bp + adjustedSize size - 8 := by
              unfold ftrp hdrp
              rw [getW_putW_eq, getSize_pack_one _ ha8 halt]
            rw [hftr1] at hrun
            have hnb2 : nextBlkp (putW (putW h (hdrp b.bp)
                (pack (adjustedSize size) 1))
                (b.bp + adjustedSize size - 8) (pack (adjustedSize size) 1))
                b.bp = b.bp + adjustedSize size := by
              unfold nextBlkp hdrp
              rw [getW_putW_ne _ _ _ _ (by omega), getW_putW_eq,
                getSize_pack_one _ ha8 halt]
            rw [hnb2] at hrun
            have hh3 : hdrp (b.bp + adjustedSize size)
                = b.bp + adjustedSize size - 4 := rfl
            rw [hh3] at hrun
            have hnb3 : nextBlkp (putW (putW (putW h (hdrp b.bp)
                (pack (adjustedSize size) 1))
                (b.bp + adjustedSize size - 8) (pack (adjustedSize size) 1))
                (b.bp + adjustedSize size - 4)
                (pack (b.size - adjustedSize size) 1)) b.bp
                = b.bp + adjustedSize size := by
              unfold nextBlkp hdrp
              rw [getW_putW_ne _ _ _ _ (by omega),
                getW_putW_ne _ _ _ _ (by omega), getW_putW_eq,
                getSize_pack_one _ ha8 halt]
            rw [hnb3] at hrun
            -- expand the tail `mm_free` up to its coalesce
            have hfree : mmFree (putW (putW (putW h (hdrp b.bp)
                (pack (adjustedSize size) 1))
                (b.bp + adjustedSize size - 8) (pack (adjustedSize size) 1))
                (b.bp + adjustedSize size - 4)
                (pack (b.size - adjustedSize size) 1))
                (b.bp + adjustedSize size)
                = (coalesce (putW (putW (putW (putW h (b.bp - 4)
                    (pack (adjustedSize size) 1))
                    (b.bp + adjustedSize size - 8)
                    (pack (adjustedSize size) 1))
                    (b.bp + adjustedSize size - 4)
                    (pack (b.size - adjustedSize size) 0))
                    (b.bp + b.size - 8) (pack (b.size - adjustedSize size) 0))
                  (b.bp + adjustedSize size)).1 := by
              simp only [mmFree, if_neg (show ¬ (b.bp + adjustedSize size = 0)
                by omega)]
              have hrd : getSize (getW (putW (putW (putW h (hdrp b.bp)
                  (pack (adjustedSize size) 1))
                  (b.bp + adjustedSize size - 8) (pack (adjustedSize size) 1))
                  (b.bp + adjustedSize size - 4)
                  (pack (b.size - adjustedSize size) 1))
                  (hdrp (b.bp + adjustedSize size)))
                  = b.size - adjustedSize size := by
                show getSize (getW _ (b.bp + adjustedSize size - 4)) = _
                rw [getW_putW_eq,
                  getSize_pack_one _ (by omega) (by unfold MOD32 at *; omega)]
              rw [hrd]
              have hh4 : hdrp (b.bp + adjustedSize size)
                  = b.bp + adjustedSize size - 4 := rfl
              rw [hh4]
              have hcollapse : putW (putW (putW (putW h (hdrp b.bp)
                  (pack (adjustedSize size) 1))
                  (b.bp + adjustedSize size - 8) (pack (adjustedSize size) 1))
                  (b.bp + adjustedSize size - 4)
                  (pack (b.size - adjustedSize size) 1))
                  (b.bp + adjustedSize size - 4)
                  (pack (b.size - adjustedSize size) 0)
                  = putW (putW (putW h (b.bp - 4)
                    (pack (adjustedSize size) 1))
                    (b.bp + adjustedSize size - 8) (pack (adjustedSize size) 1))
                    (b.bp + adjustedSize size - 4)
                    (pack (b.size - adjustedSize size) 0) :=
                putW_putW_same _ _ _ _
              rw [hcollapse]
              have hftr4 : ftrp (putW (putW (putW h (b.bp - 4)
                  (pack (adjustedSize size) 1))
                  (b.bp + adjustedSize size - 8) (pack (adjustedSize size) 1))
                  (b.bp + adjustedSize size - 4)
                  (pack (b.size - adjustedSize size) 0))
                  (b.bp + adjustedSize size) = b.bp + b.size - 8 := by
                unfold ftrp hdrp
                rw [getW_putW_eq,
                  getSize_pack_zero _ (by omega)
                    (by unfold MOD32 at *; omega)]
                omega
              rw [hftr4]
            rw [hfree] at hrun
            obtain ⟨L1, L2, rfl⟩ := List.append_of_mem hb
            have hpre3 := split_tags h L1 L2 fl b (adjustedSize size)
              (by simpa using hinv.1) ha8 ha24 hr24 hle
              (tiled_split L1 b L2 _ _ hinv.1.til).1
              (tiled_split L1 b L2 _ _ hinv.1.til).2.2.2.2.2
              (by omega)
              (by
                intro w hw hwal
                have hwbs : w ∈ L1 ++ b :: L2 := by
                  rcases hw with hw | hw
                  · exact List.mem_append_left _ hw
                  · exact List.mem_append_right _
                      (List.mem_cons_of_mem _ hw)
                exact hinv.2.1 w hwbs hwal)
              (by
                intro p hp
                obtain ⟨z, hz, hzbp, hzal⟩ := hinv.2.2 p hp
                have hzneb : z ≠ b := by
                  intro he
                  rw [he, hbal] at hzal
                  cases hzal
                rcases List.mem_append.mp hz with hz1 | hz2
                · exact ⟨z, Or.inl hz1, hzbp, hzal⟩
                · rcases List.mem_cons.mp hz2 with he | hz3
                  · exact absurd he hzneb
                  · exact ⟨z, Or.inr hz3, hzbp, hzal⟩)
            have hch1 : List.Chain' (fun a c => a.al = true ∨ c.al = true)
                L1 := (List.chain'_append.mp hadj).1
            have hch2 : List.Chain' (fun a c => a.al = true ∨ c.al = true)
                L2 :=
              (List.chain'_cons'.mp (List.chain'_append.mp hadj).2.1).2
            have hchY : List.Chain' (fun a c => a.al = true ∨ c.al = true)
                (L1 ++ [⟨b.bp, adjustedSize size, true⟩]) := by
              refine List.chain'_append.mpr
                ⟨hch1, List.chain'_singleton _, ?_⟩
              intro a ha c hc
              simp only [List.head?_cons, Option.mem_def,
                Option.some.injEq] at hc
              subst hc
              exact Or.inr rfl
            obtain ⟨h2c, bp2c, M1, M2, sz, rest, e1, e2, e3, _, _, _⟩ :=
              coalesce_pres _ (L1 ++ [⟨b.bp, adjustedSize size, true⟩]) L2 fl
                ⟨b.bp + adjustedSize size, b.size - adjustedSize size, false⟩
                hpre3 hchY hch2
            have e1' : coalesce (putW (putW (putW (putW h (b.bp - 4)
                (pack (adjustedSize size) 1))
                (b.bp + adjustedSize size - 8) (pack (adjustedSize size) 1))
                (b.bp + adjustedSize size - 4)
                (pack (b.size - adjustedSize size) 0))
                (b.bp + b.size - 8) (pack (b.size - adjustedSize size) 0))
                (b.bp + adjustedSize size) = (h2c, bp2c) := e1
            rw [e1'] at hrun
            have hres : res = ⟨h2c, b.bp, none⟩ := by
              cases hrun
              rfl
            subst hres
            exact ⟨M1 ++ ⟨bp2c, sz, false⟩ :: M2, bp2c :: rest, e2, e3⟩
        · rw [if_neg hle] at hrun
          cases hmal : mmMalloc fuel h size with
          | none =>
            rw [hmal] at hrun
            cases hrun
          | some mr =>
            rw [hmal] at hrun
            obtain ⟨h1, r⟩ := mr
            cases r with
            | none =>
              have hres : res = ⟨h1, 0, none⟩ := by
                cases hrun
                rfl
              subst hres
              obtain ⟨bs', fl', hi', ha', _, _⟩ :=
                mmMalloc_pres fuel h size bs fl (h1, none) hinv hadj hmal
              exact ⟨bs', fl', hi', ha'⟩
            | some newbp =>
              have hres : res = ⟨mmFree (memcpyBytes h1 newbp b.bp
                  (if size < b.size then size else b.size)) b.bp, newbp,
                  some (if size < b.size then size else b.size)⟩ := by
                cases hrun
                rfl
              subst hres
              obtain ⟨bs', fl', hi', ha', hptr, htrans⟩ :=
                mmMalloc_pres fuel h size bs fl (h1, some newbp) hinv hadj
                  hmal
              obtain ⟨y, hy, hybp, hyal, hysz⟩ := hptr newbp rfl
              have hbmem : b ∈ bs' := htrans b hb hbal
              have hnle : (if size < b.size then size else b.size) + 8
                  ≤ y.size := by
                have hblt : b.size < adjustedSize size := by omega
                have : (if size < b.size then size else b.size) ≤ b.size :=
                  by split <;> omega
                omega
              have hinv2 : Inv (memcpyBytes h1 newbp b.bp
                  (if size < b.size then size else b.size)) bs' fl' := by
                rw [← hybp]
                exact memcpy_pres h1 bs' fl' y b.bp _ hi' hy hyal hnle
              exact mmFree_pres _ bs' fl' b hinv2 ha' hbmem hbal

/-- The freshly initialised heap satisfies the invariant: one 24-byte
free block, alone on the free list. -/
theorem initState8_inv (m0 : Nat → Nat) (limit : Nat)
    (hfit : 80 ≤ limit) (hlim : limit < MOD32)
    (hgap : getSize (m0 48) = 0) :
    Inv (initState8 m0 limit) [⟨56, 24, false⟩] [56] ∧
    NoAdjFree [⟨56, 24, false⟩] := by
  have hLO : (initState8 m0 limit).lo = 8 := rfl
  have hHI : (initState8 m0 limit).hi = 80 := rfl
  have hLIM : (initState8 m0 limit).limit = limit := rfl
  have hHL : (initState8 m0 limit).heapListp = 8 := rfl
  have hFL : (initState8 m0 limit).freeListp = 56 := rfl
  have g12 : getW (initState8 m0 limit) 12 = 25 := rfl
  have g32 : getW (initState8 m0 limit) 32 = 25 := rfl
  have g48 : getW (initState8 m0 limit) 48 = m0 48 := rfl
  have g76 : getW (initState8 m0 limit) 76 = 1 := rfl
  have g52 : getW (initState8 m0 limit) 52 = 24 := rfl
  have g72 : getW (initState8 m0 limit) 72 = 24 := rfl
  have g56 : getW (initState8 m0 limit) 56 = 0 := rfl
  have g64 : getW (initState8 m0 limit) 64 = 16 := rfl
  refine ⟨⟨⟨?_, ?_, ?_, ?_, ?_, ?_, ?_, ?_, ?_, ?_, ?_, ?_, ?_, ?_, ?_,
    ?_⟩, ?_, ?_⟩, ?_⟩
  · rw [hHL, hLO]
  · rw [hLO]
  · rw [hLO]
  · rw [hHI]
  · rw [hLO, hHI]
  · rw [hHI, hLIM]
    exact hfit
  · rw [hLIM]
    exact hlim
  · rw [hLO]
    show getW (initState8 m0 limit) 12 = pack 24 1
    rw [g12]
    decide
  · rw [hLO]
    show getW (initState8 m0 limit) 32 = pack 24 1
    rw [g32]
    decide
  · rw [hLO]
    show getSize (getW (initState8 m0 limit) 48) = 0
    rw [g48]
    exact hgap
  · rw [hHI]
    show getW (initState8 m0 limit) 76 = pack 0 1
    rw [g76]
    decide
  · rw [hLO, hHI]
    show tiled [⟨56, 24, false⟩] 52 76
    exact ⟨by decide, by decide, by decide, rfl⟩
  · intro x hx
    simp only [List.mem_singleton] at hx
    subst hx
    refine ⟨?_, ?_⟩
    · show getW (initState8 m0 limit) 52 = pack 24 (abit false)
      rw [g52]
      decide
    · show getW (initState8 m0 limit) 72 = pack 24 (abit false)
      rw [g72]
      decide
  · decide
  · rw [hFL]
    rfl
  · refine ⟨?_, ?_, trivial⟩
    · show getW (initState8 m0 limit) 56 = 0
      exact g56
    · show getW (initState8 m0 limit) 64 = [].headD
        ((initState8 m0 limit).lo + 8)
      rw [g64, hLO]
      rfl
  · intro x hx hxal
    simp only [List.mem_singleton] at hx
    subst hx
    simp
  · intro p hp
    simp only [List.mem_singleton] at hp
    subst hp
    exact ⟨⟨56, 24, false⟩, by simp, rfl, rfl⟩
  · exact List.chain'_singleton _

/-- The public-interface reachability relation: states produced from a
successful `mm_init` at `lo = 8` by any sequence of `mm_malloc`,
`mm_free` and `mm_realloc` calls, where `free`/`realloc` receive null or
a pointer to an allocated block. -/
inductive Reachable (m0 : Nat → Nat) (limit : Nat) : Heap → Prop where
  | init : ∀ h, mmInit m0 8 limit = some h → Reachable m0 limit h
  | mstep : ∀ h fuel size res, Reachable m0 limit h →
      mmMalloc fuel h size = some res → Reachable m0 limit res.1
  | fstep : ∀ h bp, Reachable m0 limit h →
      (bp = 0 ∨ ∀ bs fl, Inv h bs fl → ∃ b ∈ bs, b.bp = bp ∧ b.al = true) →
      Reachable m0 limit (mmFree h bp)
  | rstep : ∀ h fuel bp size res, Reachable m0 limit h →
      (bp = 0 ∨ ∀ bs fl, Inv h bs fl → ∃ b ∈ bs, b.bp = bp ∧ b.al = true) →
      mmRealloc fuel h bp size = some res → Reachable m0 limit res.heap

/-- Every reachable state (on fresh zeroed pages, with a 32-bit
substrate limit) carries the invariant and has no adjacent free
blocks. -/
theorem reachable_inv (m0 : Nat → Nat) (limit : Nat) (h : Heap)
    (hgap : getSize (m0 48) = 0) (hlim : limit < MOD32)
    (hr : Reachable m0 limit h) :
    ∃ bs fl, Inv h bs fl ∧ NoAdjFree bs := by
  induction hr with
  | init h hi0 =>
    have hfit := mmInit_some_fit m0 8 limit h hi0
    rw [mmInit_explicit8 m0 limit (by omega) hgap] at hi0
    have he : h = initState8 m0 limit := by
      cases hi0
      rfl
    subst he
    obtain ⟨h1, h2⟩ := initState8_inv m0 limit (by omega) hlim hgap
    exact ⟨[⟨56, 24, false⟩], [56], h1, h2⟩
  | mstep h fuel size res hr hrun ih =>
    obtain ⟨bs, fl, hinv, hadj⟩ := ih
    obtain ⟨bs', fl', hi', ha', _, _⟩ :=
      mmMalloc_pres fuel h size bs fl res hinv hadj hrun
    exact ⟨bs', fl', hi', ha'⟩
  | fstep h bp hr hvalid ih =>
    obtain ⟨bs, fl, hinv, hadj⟩ := ih
    rcases hvalid with rfl | hv
    · exact ⟨bs, fl, hinv, hadj⟩
    · obtain ⟨b, hb, rfl, hbal⟩ := hv bs fl hinv
      exact mmFree_pres h bs fl b hinv hadj hb hbal
  | rstep h fuel bp size res hr hvalid hrun ih =>
    obtain ⟨bs, fl, hinv, hadj⟩ := ih
    have hvalid' : bp = 0 ∨ ∃ b ∈ bs, b.bp = bp ∧ b.al = true := by
      rcases hvalid with rfl | hv
      · exact Or.inl rfl
      · exact Or.inr (hv bs fl hinv)
    exact mmRealloc_pres fuel h bp size bs fl res hinv hadj hvalid' hrun

theorem tiled_bp_mod : ∀ (bs : List Blk) (a b : Nat), tiled bs a b →
    a % 8 = 4 → ∀ x ∈ bs, x.bp % 8 = 0 := by
  intro bs
  induction bs with
  | nil => intro a b ht hm x hx; cases hx
  | cons y r ih =>
    intro a b ht hm x hx
    obtain ⟨hy, hs, h8, hr⟩ := ht
    rcases List.mem_cons.mp hx with rfl | hx'
    · omega
    · exact ih (a + y.size) b hr (by omega) x hx'

theorem flSeg_next (h : Heap) (tgt : Nat) : ∀ (l : List Nat) (pv : Nat),
    flSeg h tgt l pv → ∀ p ∈ l, nextFreep h p = tgt ∨ nextFreep h p ∈ l := by
  intro l
  induction l with
  | nil => intro pv hseg p hp; cases hp
  | cons x r ih =>
    intro pv hseg p hp
    obtain ⟨h1, h2, h3⟩ := hseg
    rcases List.mem_cons.mp hp with rfl | hp'
    · cases r with
      | nil => exact Or.inl h2
      | cons q r' =>
        right
        rw [h2]
        simp
    · rcases ih x h3 p hp' with hl | hr
      · exact Or.inl hl
      · exact Or.inr (List.mem_cons_of_mem _ hr)

theorem flSeg_prev (h : Heap) (tgt : Nat) : ∀ (l : List Nat) (pv : Nat),
    flSeg h tgt l pv → ∀ p ∈ l, prevFreep h p = pv ∨ prevFreep h p ∈ l := by
  intro l
  induction l with
  | nil => intro pv hseg p hp; cases hp
  | cons x r ih =>
    intro pv hseg p hp
    obtain ⟨h1, h2, h3⟩ := hseg
    rcases List.mem_cons.mp hp with rfl | hp'
    · exact Or.inl h1
    · rcases ih x h3 p hp' with hl | hr
      · right
        rw [hl]
        simp
      · exact Or.inr (List.mem_cons_of_mem _ hr)

theorem NoAdjFree_pair (bs L1 : List Blk) (x y : Blk) (L2 : List Blk)
    (hadj : NoAdjFree bs) (he : bs = L1 ++ x :: y :: L2) :
    x.al = true ∨ y.al = true := by
  subst he
  have h2 := (List.chain'_append.mp hadj).2.1
  exact (List.chain'_cons.mp h2).1

/-- C8.  Between any two public calls after a successful `mm_init` (on
fresh zeroed pages, with a 32-bit substrate limit), the heap is tiled by
boundary-tagged blocks satisfying the invariant, and no two physically
adjacent blocks are both free: wherever blocks `x` and `y` are physical
neighbours, at least one has its allocated bit set. -/
theorem c8_no_adjacent_free (m0 : Nat → Nat) (limit : Nat) (h : Heap)
    (hgap : getSize (m0 48) = 0) (hlim : limit < MOD32)
    (hr : Reachable m0 limit h) :
    ∃ bs fl, Inv h bs fl ∧
      ∀ (L1 : List Blk) (x y : Blk) (L2 : List Blk),
        bs = L1 ++ x :: y :: L2 → x.al = true ∨ y.al = true := by
  obtain ⟨bs, fl, hinv, hadj⟩ := reachable_inv m0 limit h hgap hlim hr
  exact ⟨bs, fl, hinv, fun L1 x y L2 he => NoAdjFree_pair bs L1 x y L2
    hadj he⟩

/-- Witness for C8: the freshly initialised heap. -/
theorem c8_no_adjacent_free_witness :
    ∃ bs fl, Inv initHeap bs fl ∧
      ∀ (L1 : List Blk) (x y : Blk) (L2 : List Blk),
        bs = L1 ++ x :: y :: L2 → x.al = true ∨ y.al = true :=
  c8_no_adjacent_free zmem 100000 initHeap (by decide) (by decide)
    (Reachable.init initHeap initHeap_eq)

/-- Counterexample to C4 as stated: immediately after a successful
`mm_init` (a reachable state), `56` is the free-list head and a free
block, and its previous-free link slot holds `0` (NULL) — an address
outside the heap range `[lo, hi) = [8, 80)`. -/
theorem c4_counterexample :
    Reachable zmem 100000 initHeap ∧
    initHeap.freeListp = 56 ∧
    getAlloc (getW initHeap (hdrp 56)) = 0 ∧
    prevFreep initHeap 56 = 0 ∧
    prevFreep initHeap 56 < initHeap.lo :=
  ⟨Reachable.init initHeap initHeap_eq, by decide, by decide, by decide,
    by decide⟩

/-- C4 (corrected).  Between public calls, the free list `fl` is headed
by `free_listp`; every member and every member's next-free link lie
inside `[lo, hi)`, and every member's previous-free link is either an
in-heap address or NULL — with the head's previous-free link being
exactly NULL (`0`), not an in-heap address. -/
theorem c4_free_links (m0 : Nat → Nat) (limit : Nat) (h : Heap)
    (hgap : getSize (m0 48) = 0) (hlim : limit < MOD32)
    (hr : Reachable m0 limit h) :
    ∃ fl : List Nat,
      h.freeListp = fl.headD (h.lo + 8) ∧
      (∀ p ∈ fl, h.lo ≤ p ∧ p < h.hi) ∧
      (∀ p ∈ fl, h.lo ≤ nextFreep h p ∧ nextFreep h p < h.hi) ∧
      (∀ p ∈ fl, prevFreep h p = 0 ∨
        (h.lo ≤ prevFreep h p ∧ prevFreep h p < h.hi)) ∧
      (∀ p r, fl = p :: r → prevFreep h p = 0) := by
  obtain ⟨bs, fl, hinv, _⟩ := reachable_inv m0 limit h hgap hlim hr
  obtain ⟨hc, hcoupA, hcoupB⟩ := hinv
  have hlo := hc.lo8
  have hsep := hc.losep
  have hmem : ∀ p ∈ fl, h.lo ≤ p ∧ p < h.hi := by
    intro p hp
    obtain ⟨z, hz, hzbp, _⟩ := hcoupB p hp
    obtain ⟨g1, g2, g3, _, _⟩ := core_block_facts h bs fl hc z hz
    rw [← hzbp]
    omega
  refine ⟨fl, hc.flp, hmem, ?_, ?_, ?_⟩
  · intro p hp
    rcases flSeg_next h (h.lo + 8) fl 0 hc.seg p hp with he | hin
    · rw [he]
      omega
    · exact hmem _ hin
  · intro p hp
    rcases flSeg_prev h (h.lo + 8) fl 0 hc.seg p hp with he | hin
    · exact Or.inl he
    · exact Or.inr (hmem _ hin)
  · intro p r he
    subst he
    exact hc.seg.1

/-- Witness for the corrected C4: the freshly initialised heap. -/
theorem c4_free_links_witness :
    ∃ fl : List Nat,
      initHeap.freeListp = fl.headD (initHeap.lo + 8) ∧
      (∀ p ∈ fl, initHeap.lo ≤ p ∧ p < initHeap.hi) ∧
      (∀ p ∈ fl, initHeap.lo ≤ nextFreep initHeap p ∧
        nextFreep initHeap p < initHeap.hi) ∧
      (∀ p ∈ fl, prevFreep initHeap p = 0 ∨
        (initHeap.lo ≤ prevFreep initHeap p ∧
          prevFreep initHeap p < initHeap.hi)) ∧
      (∀ p r, fl = p :: r → prevFreep initHeap p = 0) :=
  c4_free_links zmem 100000 initHeap (by decide) (by decide)
    (Reachable.init initHeap initHeap_eq)

/-- C6.  `alloc(size)` computes the adjusted size
`max(align8(size) + 8, 24)` (for requests that do not overflow the
32-bit arithmetic); every non-null pointer it returns is a nonzero
8-aligned block pointer whose header records a size of at least the
adjusted size; and on the freshly initialised heap, `alloc(24)` returns
the non-null 8-aligned pointer `56` whose header records size `32`. -/
theorem c6_malloc_capacity :
    (∀ size : Nat, size + 15 < MOD32 →
      adjustedSize size = max ((size + 7) / 8 * 8 + 8) 24) ∧
    (∀ (m0 : Nat → Nat) (limit : Nat) (h h1 : Heap) (fuel size bp : Nat),
      getSize (m0 48) = 0 → limit < MOD32 → Reachable m0 limit h →
      mmMalloc fuel h size = some (h1, some bp) →
      bp ≠ 0 ∧ bp % 8 = 0 ∧
      adjustedSize size ≤ getSize (getW h1 (hdrp bp))) ∧
    ((mmMalloc 10 initHeap 24).map (fun p => p.2) = some (some 56) ∧
     (mmMalloc 10 initHeap 24).map
       (fun p => getSize (getW p.1 (hdrp 56))) = some 32 ∧
     (56 : Nat) % 8 = 0 ∧ adjustedSize 24 = 32) := by
  refine ⟨fun size hs => adjustedSize_of_small size hs, ?_, by decide,
    by decide, by decide, by decide⟩
  intro m0 limit h h1 fuel size bp hgap hlim hr hrun
  obtain ⟨bs, fl, hinv, hadj⟩ := reachable_inv m0 limit h hgap hlim hr
  obtain ⟨bs', fl', hi', _, hptr, _⟩ :=
    mmMalloc_pres fuel h size bs fl (h1, some bp) hinv hadj hrun
  have hiv : Inv h1 bs' fl' := hi'
  obtain ⟨y, hy, hybp, hyal, hysz⟩ := hptr bp rfl
  obtain ⟨g1, g2, g3, g4, g5⟩ := core_block_facts h1 bs' fl' hiv.1 y hy
  have hlo := hiv.1.lo8
  have hlom := hiv.1.lom
  have hmod : y.bp % 8 = 0 :=
    tiled_bp_mod bs' (h1.lo + 44) (h1.hi - 4) hiv.1.til (by omega) y hy
  have hhd : getSize (getW h1 (hdrp y.bp)) = y.size := by
    have hm := (hiv.1.bmem y hy).1
    show getSize (getW h1 (y.bp - 4)) = y.size
    rw [hm, hyal]
    simpa [abit] using getSize_pack_one y.size g4 g5
  subst hybp
  exact ⟨by omega, hmod, by rw [hhd]; exact hysz⟩

/-- Witness for C6: the `alloc(24)` call on the freshly initialised
heap, checked through the reachable-state capacity theorem. -/
theorem c6_malloc_capacity_witness :
    adjustedSize 24 = max ((24 + 7) / 8 * 8 + 8) 24 ∧
    ((56 : Nat) ≠ 0 ∧ (56 : Nat) % 8 = 0 ∧ adjustedSize 24 ≤ getSize (getW
      ((mmMalloc 10 initHeap 24).getD (emptyHeap, none)).1 (hdrp 56))) :=
  ⟨c6_malloc_capacity.1 24 (by decide),
   c6_malloc_capacity.2.1 zmem 100000 initHeap
     ((mmMalloc 10 initHeap 24).getD (emptyHeap, none)).1 10 24 56
     (by decide) (by decide) (Reachable.init initHeap initHeap_eq) rfl⟩

end MM
